import Mathlib

/-!
# Verification of the wikipath core against its specification

This file gives a shallow embedding, in Lean 4, of the core data
manipulation of the wikipath program (a shortest-path finder over
Wikipedia link dumps) and proves or refutes the specified properties.

Embedded components and their sources:
* the adjacency-blob codec (`pagesToBytes`, `bytesToPage`, `bytesToPages`
  from `build.go`),
* the redirect-chain clean-up loop of `buildDatabase` (`build.go`),
* the adjacency map accumulation of `buildDatabase` (`build.go`),
* the read-store lookups (`getRedirect`, `getIncoming`, `getOutgoing`
  from `database.go`),
* the bidirectional breadth-first search with backtracking
  (`getShortestPaths`, `extractPathCount` from `database.go`),
* the search-result LRU cache (`cache.go`),
* the dump page-id parser (`parsePageID` from `parse.go`).

Machine integers are modelled as `Nat`/`Int`; the one place where 32-bit
truncation matters (`parsePageID`) spells out the reduction `% 2 ^ 32`.
Go maps are modelled as association lists; where the source iterates over
a map, the embedding takes the iteration order as an explicit argument or
fixes insertion order (first-discovery order).
-/

namespace Wikipath

/- Page identifiers (a 32-bit unsigned alias in `database.go`) are modelled as
plain naturals; every id the program produces is below `2 ^ 32`. -/

/-! ## Adjacency blob codec (`build.go`: `pagesToBytes`, `bytesToPage`, `bytesToPages`) -/

/-- The four bytes of `binary.LittleEndian.PutUint32`. -/
def putUint32LE (p : Nat) : List Nat :=
  [p % 256, p / 256 % 256, p / 2 ^ 16 % 256, p / 2 ^ 24 % 256]

/-- `binary.LittleEndian.Uint32`: recombine four little-endian bytes. -/
def getUint32LE (b0 b1 b2 b3 : Nat) : Nat :=
  b0 + b1 * 256 + b2 * 2 ^ 16 + b3 * 2 ^ 24

/-- The encoding loop of `pagesToBytes`: walk the id list keeping the set of
already written ids (`set` in the source); each fresh id contributes its four
little-endian bytes, duplicates are skipped. -/
def pagesToBytesAux (seen : List Nat) : List Nat → List Nat
  | [] => []
  | p :: ps =>
    if p ∈ seen then pagesToBytesAux seen ps
    else putUint32LE p ++ pagesToBytesAux (p :: seen) ps

/-- `pagesToBytes` (`build.go`): concatenated little-endian 4-byte encodings of
the ids, first occurrences only. -/
def pagesToBytes (ps : List Nat) : List Nat :=
  pagesToBytesAux [] ps

/-- `bytesToPage` (`build.go`): a single 4-byte group, error on any other
length. -/
def bytesToPage : List Nat → Except String Nat
  | [b0, b1, b2, b3] => .ok (getUint32LE b0 b1 b2 b3)
  | _ => .error "invalid page bytes length"

/-- The decoding loop of `bytesToPages`: consume 4-byte groups. -/
def bytesToPagesAux : List Nat → Except String (List Nat)
  | [] => .ok []
  | b0 :: b1 :: b2 :: b3 :: rest => do
    let p ← bytesToPage [b0, b1, b2, b3]
    let ps ← bytesToPagesAux rest
    return p :: ps
  | _ => .error "invalid pages bytes length"

/-- `bytesToPages` (`build.go`): reject a length that is not a multiple of 4,
then decode 4-byte little-endian groups. -/
def bytesToPages (bs : List Nat) : Except String (List Nat) :=
  if bs.length % 4 = 0 then bytesToPagesAux bs
  else .error "invalid pages bytes length"

/-- Remove duplicates keeping first occurrences, tracking the already seen
elements. -/
def dedupFirstAux (seen : List Nat) : List Nat → List Nat
  | [] => []
  | p :: ps =>
    if p ∈ seen then dedupFirstAux seen ps
    else p :: dedupFirstAux (p :: seen) ps

/-- Duplicate removal keeping the first occurrence of each id, in order; the
reference meaning of the duplicate-skipping of `pagesToBytes`. -/
def dedupFirst (ps : List Nat) : List Nat :=
  dedupFirstAux [] ps

theorem getUint32LE_putUint32LE (p : Nat) (h : p < 2 ^ 32) :
    getUint32LE (p % 256) (p / 256 % 256) (p / 2 ^ 16 % 256) (p / 2 ^ 24 % 256) = p := by
  unfold getUint32LE
  have h1 : p / 2 ^ 16 = p / 256 / 256 := by
    rw [Nat.div_div_eq_div_mul]; norm_num
  have h2 : p / 2 ^ 24 = p / 256 / 256 / 256 := by
    rw [Nat.div_div_eq_div_mul, Nat.div_div_eq_div_mul]; norm_num
  have h3 : p < 4294967296 := by norm_num at h; exact h
  rw [h1, h2]
  omega

theorem bytesToPagesAux_encode (seen : List Nat) (xs : List Nat)
    (h : ∀ x ∈ xs, x < 2 ^ 32) :
    bytesToPagesAux (pagesToBytesAux seen xs) = .ok (dedupFirstAux seen xs) := by
  induction xs generalizing seen with
  | nil => rfl
  | cons p ps ih =>
    by_cases hp : p ∈ seen
    · simp only [pagesToBytesAux, dedupFirstAux, if_pos hp]
      exact ih seen fun x hx => h x (List.mem_cons_of_mem _ hx)
    · have hlt : p < 2 ^ 32 := h p (List.mem_cons_self _ _)
      simp only [pagesToBytesAux, dedupFirstAux, if_neg hp, putUint32LE, List.cons_append,
        List.nil_append, bytesToPagesAux, bytesToPage, getUint32LE_putUint32LE p hlt]
      rw [ih (p :: seen) fun x hx => h x (List.mem_cons_of_mem _ hx)]
      rfl

theorem pagesToBytesAux_length_mod (seen : List Nat) (xs : List Nat) :
    (pagesToBytesAux seen xs).length % 4 = 0 := by
  induction xs generalizing seen with
  | nil => rfl
  | cons p ps ih =>
    by_cases hp : p ∈ seen
    · simpa [pagesToBytesAux, hp] using ih seen
    · simp only [pagesToBytesAux, if_neg hp, List.length_append]
      have h4 : (putUint32LE p).length = 4 := rfl
      have := ih (p :: seen)
      omega

theorem bytesToPagesAux_ok_of_mod (bs : List Nat) (h : bs.length % 4 = 0) :
    ∃ l, bytesToPagesAux bs = .ok l := by
  induction bs using bytesToPagesAux.induct with
  | case1 => exact ⟨[], rfl⟩
  | case2 b0 b1 b2 b3 rest ih =>
    have hr : rest.length % 4 = 0 := by simp at h; omega
    obtain ⟨l, hl⟩ := ih hr
    exact ⟨getUint32LE b0 b1 b2 b3 :: l, by simp [bytesToPagesAux, bytesToPage, hl]; rfl⟩
  | case3 bs h1 h2 =>
    exfalso
    match bs, h1, h2, h with
    | [b0], _, _, h => simp at h
    | [b0, b1], _, _, h => simp at h
    | [b0, b1, b2], _, _, h => simp at h
    | b0 :: b1 :: b2 :: b3 :: rest, _, h2, _ => exact h2 b0 b1 b2 b3 rest rfl

/-- C3 helper: the round-trip equation. -/
theorem bytesToPages_pagesToBytes (xs : List Nat) (h : ∀ x ∈ xs, x < 2 ^ 32) :
    bytesToPages (pagesToBytes xs) = .ok (dedupFirst xs) := by
  unfold bytesToPages pagesToBytes dedupFirst
  rw [if_pos (pagesToBytesAux_length_mod [] xs)]
  exact bytesToPagesAux_encode [] xs h

/-- C3 helper: decoding fails exactly on lengths that are not multiples of 4. -/
theorem bytesToPages_error_iff (bs : List Nat) :
    (∃ e, bytesToPages bs = .error e) ↔ bs.length % 4 ≠ 0 := by
  constructor
  · rintro ⟨e, he⟩ hmod
    obtain ⟨l, hl⟩ := bytesToPagesAux_ok_of_mod bs hmod
    rw [bytesToPages, if_pos hmod, hl] at he
    cases he
  · intro hmod
    exact ⟨"invalid pages bytes length", by rw [bytesToPages, if_neg hmod]⟩

/-- C3: for every list of page ids the decode of the encode succeeds and
returns the list with duplicates removed (first occurrences kept in order),
and decoding a byte slice errors exactly when its length is not a multiple
of 4. -/
theorem blob_roundtrip_claim (xs : List Nat) (bs : List Nat)
    (h : ∀ x ∈ xs, x < 2 ^ 32) :
    bytesToPages (pagesToBytes xs) = .ok (dedupFirst xs) ∧
      ((∃ e, bytesToPages bs = .error e) ↔ bs.length % 4 ≠ 0) :=
  ⟨bytesToPages_pagesToBytes xs h, bytesToPages_error_iff bs⟩

/-- C3 witness at a concrete duplicate-containing list and a corrupt blob. -/
theorem blob_roundtrip_claim_witness :
    bytesToPages (pagesToBytes [5, 9, 5, 7]) = .ok (dedupFirst [5, 9, 5, 7]) ∧
      ((∃ e, bytesToPages [0, 1, 2] = .error e) ↔ ([0, 1, 2] : List Nat).length % 4 ≠ 0) :=
  blob_roundtrip_claim [5, 9, 5, 7] [0, 1, 2] (by decide)

/-- Go map lookup on an association list with unique keys (`m[k]`, together
with the `ok` flag as `Option`). -/
def alookup {K A : Type} [DecidableEq K] (m : List (K × A)) (k : K) : Option A :=
  match m with
  | [] => none
  | e :: rest => if e.1 = k then some e.2 else alookup rest k

/-! ## Page-id parsing (`parse.go`: `parsePageID`) -/

/-- Value of a decimal digit string, most significant first
(`strconv.ParseUint` accumulation). -/
def strVal (s : String) : Nat :=
  s.toList.foldl (fun a c => a * 10 + (c.toNat - 48)) 0

/-- `parsePageID` (`parse.go`): `strconv.ParseUint(str, 10, 34)` followed by a
truncating conversion to `uint32`.  `ParseUint` fails on an empty string, on a
non-digit character and on a value above `2 ^ 34 - 1`; on failure the function
returns 0.  The `uint32` conversion keeps the value modulo `2 ^ 32`. -/
def parsePageID (s : String) : Nat :=
  if s.toList ≠ [] ∧ (∀ c ∈ s.toList, c.isDigit) ∧ strVal s < 2 ^ 34 then
    strVal s % 2 ^ 32
  else 0

theorem strVal_aux_bound (cs : List Char) (a : Nat) (h : ∀ c ∈ cs, c.isDigit) :
    cs.foldl (fun a c => a * 10 + (c.toNat - 48)) a < (a + 1) * 10 ^ cs.length := by
  induction cs generalizing a with
  | nil => simp
  | cons c cs ih =>
    have hc : c.isDigit := h c (List.mem_cons_self _ _)
    have hd : c.toNat - 48 ≤ 9 := by
      simp [Char.isDigit] at hc
      obtain ⟨h1, h2⟩ := hc
      have h3 : c.val.toNat ≤ 57 := h2
      have h4 : c.toNat = c.val.toNat := rfl
      omega
    have step := ih (a * 10 + (c.toNat - 48)) fun x hx => h x (List.mem_cons_of_mem _ hx)
    have hle : (a * 10 + (c.toNat - 48) + 1) * 10 ^ cs.length ≤ (a + 1) * 10 * 10 ^ cs.length :=
      Nat.mul_le_mul_right _ (by omega)
    calc List.foldl (fun a c => a * 10 + (c.toNat - 48)) (a * 10 + (c.toNat - 48)) cs
        < (a * 10 + (c.toNat - 48) + 1) * 10 ^ cs.length := step
      _ ≤ (a + 1) * 10 * 10 ^ cs.length := hle
      _ = (a + 1) * 10 ^ (cs.length + 1) := by ring
      _ = (a + 1) * 10 ^ (c :: cs).length := by simp

/-- A digit string of at most 10 digits has value below `10 ^ 10`. -/
theorem strVal_lt_of_len (s : String) (hd : ∀ c ∈ s.toList, c.isDigit)
    (hl : s.toList.length ≤ 10) : strVal s < 10 ^ 10 := by
  have := strVal_aux_bound s.toList 0 hd
  have hpow : 10 ^ s.toList.length ≤ 10 ^ 10 := Nat.pow_le_pow_right (by norm_num) hl
  calc strVal s < (0 + 1) * 10 ^ s.toList.length := this
    _ = 10 ^ s.toList.length := by ring
    _ ≤ 10 ^ 10 := hpow

/-- C8 counterexample: the ten-digit id 4294967296 (which a dump may contain)
does not fit in 32 bits, and `parsePageID` returns 0 on it, not its value. -/
theorem parsePageID_truncation_counterexample :
    strVal "4294967296" = 4294967296 ∧
      "4294967296".toList.length = 10 ∧
      (∀ c ∈ "4294967296".toList, c.isDigit) ∧
      parsePageID "4294967296" = 0 ∧
      parsePageID "4294967296" ≠ strVal "4294967296" := by
  refine ⟨by decide, by decide, by decide, ?_, ?_⟩ <;> decide

/-- C8 (amended): for every digit string of 1 to 10 digits with value `n`,
`parsePageID` returns `n` modulo `2 ^ 32`; in particular it returns `n`
exactly when `n < 2 ^ 32`. -/
theorem parsePageID_exact (s : String) (h0 : s.toList ≠ [])
    (hd : ∀ c ∈ s.toList, c.isDigit) (hl : s.toList.length ≤ 10) :
    parsePageID s = strVal s % 2 ^ 32 ∧
      (strVal s < 2 ^ 32 → parsePageID s = strVal s) := by
  have hb : strVal s < 2 ^ 34 := by
    have := strVal_lt_of_len s hd hl
    norm_num at this ⊢
    omega
  have hmain : parsePageID s = strVal s % 2 ^ 32 := by
    unfold parsePageID
    rw [if_pos ⟨h0, hd, hb⟩]
  exact ⟨hmain, fun hlt => by rw [hmain, Nat.mod_eq_of_lt hlt]⟩

/-- C8 witness: the largest 32-bit id parses exactly. -/
theorem parsePageID_exact_witness :
    parsePageID "4294967295" = strVal "4294967295" % 2 ^ 32 ∧
      (strVal "4294967295" < 2 ^ 32 → parsePageID "4294967295" = strVal "4294967295") :=
  parsePageID_exact "4294967295" (by decide) (by decide) (by decide)

/-! ## Read-store lookups (`database.go`: `getRedirect`, `getIncoming`,
`getOutgoing`)

The persisted sqlite tables are modelled as association lists from page id to
the stored row value; `alookup` plays the role of the point query, with
`none` standing for `sql.ErrNoRows`. -/

/-- Abstract content of a persisted database file: the three tables the
search reads. -/
structure StoredDb where
  redirectRows : List (Nat × Nat)
  incomingRows : List (Nat × List Nat)
  outgoingRows : List (Nat × List Nat)

/-- `Transaction.getRedirect`: the stored redirect target, 0 when there is no
row. -/
def getRedirect (db : StoredDb) (page : Nat) : Except String Nat :=
  match alookup db.redirectRows page with
  | none => .ok 0
  | some r => .ok r

/-- `Transaction.getIncoming`: decode the stored blob, empty slice when there
is no row. -/
def getIncoming (db : StoredDb) (page : Nat) : Except String (List Nat) :=
  match alookup db.incomingRows page with
  | none => .ok []
  | some data => bytesToPages data

/-- `Transaction.getOutgoing`: decode the stored blob, empty slice when there
is no row. -/
def getOutgoing (db : StoredDb) (page : Nat) : Except String (List Nat) :=
  match alookup db.outgoingRows page with
  | none => .ok []
  | some data => bytesToPages data

/-- C6: a missing redirect row yields the 0 sentinel without error, missing
adjacency rows yield empty slices without error, and a stored blob whose
length is not a multiple of 4 makes the lookup fail. -/
theorem missing_row_lookups (db : StoredDb) (p q r q2 r2 : Nat)
    (bs bs2 : List Nat)
    (hp : alookup db.redirectRows p = none)
    (hq : alookup db.incomingRows q = none)
    (hr : alookup db.outgoingRows r = none)
    (hq2 : alookup db.incomingRows q2 = some bs) (hbs : bs.length % 4 ≠ 0)
    (hr2 : alookup db.outgoingRows r2 = some bs2) (hbs2 : bs2.length % 4 ≠ 0) :
    getRedirect db p = .ok 0 ∧
      getIncoming db q = .ok [] ∧
      getOutgoing db r = .ok [] ∧
      (∃ e, getIncoming db q2 = .error e) ∧
      (∃ e, getOutgoing db r2 = .error e) := by
  refine ⟨?_, ?_, ?_, ?_, ?_⟩
  · rw [getRedirect, hp]
  · rw [getIncoming, hq]
  · rw [getOutgoing, hr]
  · obtain ⟨e, he⟩ := (bytesToPages_error_iff bs).2 hbs
    exact ⟨e, by rw [getIncoming, hq2]; exact he⟩
  · obtain ⟨e, he⟩ := (bytesToPages_error_iff bs2).2 hbs2
    exact ⟨e, by rw [getOutgoing, hr2]; exact he⟩

/-- C6 witness: a concrete database with a missing redirect row, missing
adjacency rows for pages 5 and 6, and corrupt 3-byte blobs for pages 7
and 8. -/
theorem missing_row_lookups_witness :
    getRedirect ⟨[(1, 2)], [(7, [0, 1, 2])], [(8, [3, 4, 5])]⟩ 5 = .ok 0 ∧
      getIncoming ⟨[(1, 2)], [(7, [0, 1, 2])], [(8, [3, 4, 5])]⟩ 5 = .ok [] ∧
      getOutgoing ⟨[(1, 2)], [(7, [0, 1, 2])], [(8, [3, 4, 5])]⟩ 5 = .ok [] ∧
      (∃ e, getIncoming ⟨[(1, 2)], [(7, [0, 1, 2])], [(8, [3, 4, 5])]⟩ 7 = .error e) ∧
      (∃ e, getOutgoing ⟨[(1, 2)], [(7, [0, 1, 2])], [(8, [3, 4, 5])]⟩ 8 = .error e) :=
  missing_row_lookups _ 5 5 5 7 8 [0, 1, 2] [3, 4, 5]
    (by decide) (by decide) (by decide) (by decide) (by decide) (by decide) (by decide)

/-! ## Redirect-chain clean-up (`build.go`: `buildDatabase`, the
"Cleaning up and ingesting redirects" loop)

The in-memory Go map `redirects` is modelled as an association list with
unique keys.  The Go `for source, target := range redirects` iteration order
is an explicit argument `order`; entries deleted before being visited are
skipped (as the Go specification prescribes) and entries re-added during the
iteration are not re-visited (one of the behaviours the Go specification
allows). -/

/-- Go map deletion. -/
def mapErase (m : List (Nat × Nat)) (k : Nat) : List (Nat × Nat) :=
  m.filter fun e => decide (e.1 ≠ k)

/-- Go map assignment: overwrite the existing entry or add a new one. -/
def mapSet (m : List (Nat × Nat)) (k v : Nat) : List (Nat × Nat) :=
  if (alookup m k).isSome then m.map fun e => if e.1 = k then (k, v) else e
  else m ++ [(k, v)]

/-- The inner chain-following loop (`build.go` lines 190-202): follow the
redirect chain from the last encountered page; when the next hop is already
in `encountered`, delete the key whose traversal closed the cycle; stop when
the last encountered page is not a redirect.  The loop always terminates
because every deleting step shrinks the map and every other step adds a page
not seen before; `fuel` is a bound large enough for that (see the concrete
evaluations below). -/
def followChain : Nat → List (Nat × Nat) → List Nat → List (Nat × Nat) × List Nat
  | 0, m, enc => (m, enc)
  | fuel + 1, m, enc =>
    match alookup m (enc.getLastD 0) with
    | none => (m, enc)
    | some tempTarget =>
      let m2 := if tempTarget ∈ enc then mapErase m (enc.getLastD 0) else m
      followChain fuel m2 (enc ++ [tempTarget])

/-- One iteration of the outer redirect clean-up loop for a given `source`
key: skip it if it was deleted, otherwise resolve its chain, update the map
and record the row inserted into the `redirects` table. -/
def resolveStep (st : List (Nat × Nat) × List (Nat × Nat)) (source : Nat) :
    List (Nat × Nat) × List (Nat × Nat) :=
  match alookup st.1 source with
  | none => st
  | some target =>
    if (alookup st.1 target).isSome then
      let fc := followChain (3 * st.1.length + 3) st.1 [target]
      let target2 := fc.2.getLastD 0
      (mapSet fc.1 source target2, st.2 ++ [(source, target2)])
    else (st.1, st.2 ++ [(source, target)])

/-- The whole clean-up loop: iterate over the keys in the order the Go map
produced them.  Returns the final in-memory map and the list of rows inserted
into the persisted `redirects` table. -/
def resolveRedirects (m : List (Nat × Nat)) (order : List Nat) :
    List (Nat × Nat) × List (Nat × Nat) :=
  order.foldl resolveStep (m, [])

/-- C2: on the cyclic raw redirects `{1 → 2, 2 → 3, 3 → 1}` (iterated from
key 1) the clean-up loop deletes the whole cycle while following the chain of
key 1, then re-adds and persists the self-redirect `(1, 1)`.  The persisted
row's target 1 is itself a key of the final map, and the chosen target is the
source itself, not the deepest page 3 of the chain — contradicting the
comment in `build.go` ("All targets in the map are now guaranteed to not be
redirects themselves") and the specified invariant.  Keys 2 and 3 are deleted
before being visited, so only one row is persisted.  (Under the alternative
Go iteration behaviour that re-visits the re-added key 1, the row `(1, 1)` is
inserted twice and the build aborts with a primary-key violation instead.) -/
theorem redirect_cycle_code_bug :
    resolveRedirects [(1, 2), (2, 3), (3, 1)] [1, 2, 3] = ([(1, 1)], [(1, 1)]) ∧
      ((1, 1) ∈ (resolveRedirects [(1, 2), (2, 3), (3, 1)] [1, 2, 3]).2 ∧
        ((alookup (resolveRedirects [(1, 2), (2, 3), (3, 1)] [1, 2, 3]).1 1).isSome ∧
          alookup (resolveRedirects [(1, 2), (2, 3), (3, 1)] [1, 2, 3]).2 1 ≠ some 3)) := by
  refine ⟨by decide, by decide, by decide, by decide⟩

/-! ## Adjacency accumulation and persistence (`build.go`: the pagelink
ingestion loop and the two blob-ingestion loops)

For every link received from the parser the builder appends the source to
`incoming[target]` and the target to `outgoing[source]`, then persists each
key with the blob encoding of its accumulated list. -/

/-- Go `m[k] = append(m[k], v)` on a map of slices. -/
def mapAppendV (m : List (Nat × List Nat)) (k v : Nat) : List (Nat × List Nat) :=
  if (alookup m k).isSome then m.map fun e => if e.1 = k then (e.1, e.2 ++ [v]) else e
  else m ++ [(k, [v])]

/-- The slice stored under a key, the empty slice when the key is absent. -/
def lookupV (m : List (Nat × List Nat)) (k : Nat) : List Nat :=
  (alookup m k).getD []

/-- The pagelink ingestion loop: accumulate the `incoming` and `outgoing`
maps from the link stream. -/
def accLinksFrom (st : List (Nat × List Nat) × List (Nat × List Nat))
    (links : List (Nat × Nat)) :
    List (Nat × List Nat) × List (Nat × List Nat) :=
  links.foldl (fun maps l => (mapAppendV maps.1 l.2 l.1, mapAppendV maps.2 l.1 l.2)) st

def accLinks (links : List (Nat × Nat)) :
    List (Nat × List Nat) × List (Nat × List Nat) :=
  accLinksFrom ([], []) links

/-- The persisted adjacency tables: every accumulated key is inserted with
the blob encoding of its list (`insertIncoming.Exec(page, pagesToBytes(inc))`
and the analogous outgoing loop). -/
def buildStoredDb (redirRows : List (Nat × Nat)) (links : List (Nat × Nat)) : StoredDb where
  redirectRows := redirRows
  incomingRows := (accLinks links).1.map fun e => (e.1, pagesToBytes e.2)
  outgoingRows := (accLinks links).2.map fun e => (e.1, pagesToBytes e.2)

theorem alookup_map_value (rows : List (Nat × List Nat)) (f : List Nat → List Nat) (k : Nat) :
    alookup (rows.map fun e => (e.1, f e.2)) k = (alookup rows k).map f := by
  induction rows with
  | nil => rfl
  | cons e rest ih => by_cases hk : e.1 = k <;> simp [alookup, hk, ih]

theorem alookup_map_upd (m : List (Nat × List Nat)) (f : List Nat → List Nat) (k k2 : Nat) :
    alookup (m.map fun e => if e.1 = k then (e.1, f e.2) else e) k2 =
      if k2 = k then (alookup m k).map f else alookup m k2 := by
  induction m with
  | nil => by_cases hk : k2 = k <;> simp [alookup, hk]
  | cons e rest ih =>
    simp only [List.map_cons]
    by_cases h1 : e.1 = k
    · subst h1
      by_cases h2 : k2 = e.1
      · subst h2
        simp [alookup, ih]
      · have h4 : ¬e.1 = k2 := by omega
        simp [alookup, h2, h4, ih]
    · by_cases h2 : k2 = k
      · subst h2
        simp [alookup, h1, ih]
      · by_cases h3 : e.1 = k2 <;> simp [alookup, h1, h2, h3, ih]

theorem alookup_append_fresh {K A : Type} [DecidableEq K] (m : List (K × A)) (k k2 : K) (v : A)
    (hm : alookup m k = none) :
    alookup (m ++ [(k, v)]) k2 = if k2 = k then some v else alookup m k2 := by
  induction m with
  | nil =>
    by_cases hk : k2 = k
    · simp [alookup, hk]
    · have hk2 : ¬k = k2 := fun h => hk h.symm
      simp [alookup, hk, hk2]
  | cons e rest ih =>
    simp only [alookup] at hm
    by_cases he : e.1 = k
    · simp [he] at hm
    · rw [if_neg he] at hm
      by_cases h2 : e.1 = k2
      · have h3 : ¬k2 = k := fun h => he (h2.trans h)
        simp [alookup, h2, h3]
      · simp only [List.cons_append, alookup, if_neg h2]
        exact ih hm

theorem alookup_mapAppendV (m : List (Nat × List Nat)) (k v k2 : Nat) :
    alookup (mapAppendV m k v) k2 =
      if k2 = k then some (lookupV m k ++ [v]) else alookup m k2 := by
  unfold mapAppendV lookupV
  rcases hm : alookup m k with _ | l
  · simp only [hm, Option.isSome_none, Bool.false_eq_true, if_false, Option.getD_none,
      List.nil_append]
    exact alookup_append_fresh m k k2 [v] hm
  · simp only [hm, Option.isSome_some, if_true, Option.getD_some]
    rw [alookup_map_upd m (fun l => l ++ [v]) k k2, hm]
    rfl

theorem mem_lookupV_mapAppendV (m : List (Nat × List Nat)) (k v k2 x : Nat) :
    x ∈ lookupV (mapAppendV m k v) k2 ↔
      x ∈ lookupV m k2 ∨ (x = v ∧ k2 = k) := by
  unfold lookupV
  rw [alookup_mapAppendV]
  by_cases hk : k2 = k
  · subst hk
    simp [lookupV]
  · simp [hk]

theorem mem_accLinksFrom_inc (links : List (Nat × Nat))
    (m1 m2 : List (Nat × List Nat)) (x t : Nat) :
    x ∈ lookupV (accLinksFrom (m1, m2) links).1 t ↔
      x ∈ lookupV m1 t ∨ (x, t) ∈ links := by
  induction links generalizing m1 m2 with
  | nil => simp [accLinksFrom]
  | cons l ls ih =>
    have hstep : accLinksFrom (m1, m2) (l :: ls) =
        accLinksFrom (mapAppendV m1 l.2 l.1, mapAppendV m2 l.1 l.2) ls := rfl
    rw [hstep, ih, mem_lookupV_mapAppendV]
    simp only [List.mem_cons, Prod.ext_iff]
    tauto

theorem mem_accLinksFrom_out (links : List (Nat × Nat))
    (m1 m2 : List (Nat × List Nat)) (y s : Nat) :
    y ∈ lookupV (accLinksFrom (m1, m2) links).2 s ↔
      y ∈ lookupV m2 s ∨ (s, y) ∈ links := by
  induction links generalizing m1 m2 with
  | nil => simp [accLinksFrom]
  | cons l ls ih =>
    have hstep : accLinksFrom (m1, m2) (l :: ls) =
        accLinksFrom (mapAppendV m1 l.2 l.1, mapAppendV m2 l.1 l.2) ls := rfl
    rw [hstep, ih, mem_lookupV_mapAppendV]
    simp only [List.mem_cons, Prod.ext_iff]
    tauto

theorem mem_dedupFirstAux (seen l : List Nat) (x : Nat) :
    x ∈ dedupFirstAux seen l ↔ x ∈ l ∧ x ∉ seen := by
  induction l generalizing seen with
  | nil => simp [dedupFirstAux]
  | cons p ps ih =>
    by_cases hp : p ∈ seen
    · rw [dedupFirstAux, if_pos hp, ih]
      by_cases hx : x = p
      · subst hx
        simp [hp]
      · simp [hx]
    · rw [dedupFirstAux, if_neg hp]
      by_cases hx : x = p
      · subst hx
        simp [hp]
      · simp only [List.mem_cons, ih, hx, false_or]

theorem mem_dedupFirst (l : List Nat) (x : Nat) : x ∈ dedupFirst l ↔ x ∈ l := by
  rw [dedupFirst, mem_dedupFirstAux]
  simp

theorem getIncoming_buildStoredDb (redirRows links : List (Nat × Nat))
    (h : ∀ p ∈ links, p.1 < 2 ^ 32) (t : Nat) :
    getIncoming (buildStoredDb redirRows links) t =
      .ok (dedupFirst (lookupV (accLinks links).1 t)) := by
  unfold getIncoming buildStoredDb
  rw [alookup_map_value]
  rcases hl : alookup (accLinks links).1 t with _ | raw
  · simp [lookupV, hl, dedupFirst, dedupFirstAux]
  · simp only [hl, Option.map_some, lookupV, Option.getD_some]
    refine bytesToPages_pagesToBytes raw fun x hx => ?_
    have hmem : x ∈ lookupV (accLinks links).1 t := by
      simp [lookupV, hl, hx]
    rw [accLinks, mem_accLinksFrom_inc] at hmem
    rcases hmem with hmem | hmem
    · simp [lookupV, alookup] at hmem
    · exact h (x, t) hmem

theorem getOutgoing_buildStoredDb (redirRows links : List (Nat × Nat))
    (h : ∀ p ∈ links, p.2 < 2 ^ 32) (s : Nat) :
    getOutgoing (buildStoredDb redirRows links) s =
      .ok (dedupFirst (lookupV (accLinks links).2 s)) := by
  unfold getOutgoing buildStoredDb
  rw [alookup_map_value]
  rcases hl : alookup (accLinks links).2 s with _ | raw
  · simp [lookupV, hl, dedupFirst, dedupFirstAux]
  · simp only [hl, Option.map_some, lookupV, Option.getD_some]
    refine bytesToPages_pagesToBytes raw fun y hy => ?_
    have hmem : y ∈ lookupV (accLinks links).2 s := by
      simp [lookupV, hl, hy]
    rw [accLinks, mem_accLinksFrom_out] at hmem
    rcases hmem with hmem | hmem
    · simp [lookupV, alookup] at hmem
    · exact h (s, y) hmem

/-- C4: for every link stream ingested by the builder, the persisted
`incoming` and `outgoing` tables are mutually consistent: a page `s` is in
the decoded incoming blob of `t` exactly when `t` is in the decoded outgoing
blob of `s`. -/
theorem adjacency_symmetry (redirRows links : List (Nat × Nat))
    (h : ∀ p ∈ links, p.1 < 2 ^ 32 ∧ p.2 < 2 ^ 32) (s t : Nat) :
    (∃ l, getIncoming (buildStoredDb redirRows links) t = .ok l ∧ s ∈ l) ↔
      (∃ l, getOutgoing (buildStoredDb redirRows links) s = .ok l ∧ t ∈ l) := by
  rw [getIncoming_buildStoredDb redirRows links (fun p hp => (h p hp).1) t,
    getOutgoing_buildStoredDb redirRows links (fun p hp => (h p hp).2) s]
  constructor
  · rintro ⟨l, hl, hmem⟩
    cases hl
    refine ⟨_, rfl, ?_⟩
    rw [mem_dedupFirst] at hmem ⊢
    rw [accLinks, mem_accLinksFrom_inc] at hmem
    rw [accLinks, mem_accLinksFrom_out]
    rcases hmem with hmem | hmem
    · simp [lookupV, alookup] at hmem
    · exact Or.inr hmem
  · rintro ⟨l, hl, hmem⟩
    cases hl
    refine ⟨_, rfl, ?_⟩
    rw [mem_dedupFirst] at hmem ⊢
    rw [accLinks, mem_accLinksFrom_out] at hmem
    rw [accLinks, mem_accLinksFrom_inc]
    rcases hmem with hmem | hmem
    · simp [lookupV, alookup] at hmem
    · exact Or.inr hmem

/-- C4 witness on a concrete two-link graph. -/
theorem adjacency_symmetry_witness :
    ((∃ l, getIncoming (buildStoredDb [] [(1, 2), (3, 2)]) 2 = .ok l ∧ 1 ∈ l) ↔
      (∃ l, getOutgoing (buildStoredDb [] [(1, 2), (3, 2)]) 1 = .ok l ∧ 2 ∈ l)) ∧
      (∃ l, getOutgoing (buildStoredDb [] [(1, 2), (3, 2)]) 1 = .ok l ∧ 2 ∈ l) :=
  ⟨adjacency_symmetry [] [(1, 2), (3, 2)] (by decide) 1 2,
    ⟨[2], rfl, by decide⟩⟩

/-! ## Search-result cache (`cache.go`)

`SearchCache` keeps the already-serialized result bytes keyed by a search
triple, a ring-buffer-like key slice with start and end indices, and byte
counters.  Go `int` is modelled as `Int`, the byte payload as `List Nat`,
the `resultData` map as an association list with unique keys.  Slice
indexing out of range would panic in Go; the embedding uses `getD` with a
default, and the invariant proofs show the indices stay in range on the
paths the source exercises. -/

/-- A search key (`serve.go`): language plus source and target ids (the ids
are `int64` in the test file). -/
structure Search where
  language : String
  source : Int
  target : Int
deriving DecidableEq, Inhabited

/-- Go `delete(m, k)`. -/
def adelete {K A : Type} [DecidableEq K] (m : List (K × A)) (k : K) : List (K × A) :=
  m.filter fun e => decide (e.1 ≠ k)

/-- `len(resultData[k])`: 0 when the key is absent (`len(nil) = 0`). -/
def slookupLen (m : List (Search × List Nat)) (k : Search) : Nat :=
  ((alookup m k).getD []).length

/-- The mutable state of a `SearchCache`. -/
structure SearchCache where
  curByteSize : Int
  maxByteSize : Int
  keyStartIndex : Nat
  keyEndIndex : Nat
  keySlice : List Search
  resultData : List (Search × List Nat)
deriving DecidableEq

/-- `NewSearchCache`: negative sizes are rejected. -/
def newSearchCache (size : Int) : Except String SearchCache :=
  if size < 0 then .error "invalid search cache size"
  else .ok ⟨0, size, 0, 0, [], []⟩

/-- `SearchCache.Fetch`: read the stored bytes (`nil` for a missing key) and
leave the state untouched. -/
def fetchOp (c : SearchCache) (s : Search) : Option (List Nat) × SearchCache :=
  (alookup c.resultData s, c)

/-- The `purgeOldest` closure of `SearchCache.Store`: drop the entry of the
key at `keyStartIndex`, advance the start index and wrap it at the end of
the slice. -/
def purgeOldest (c : SearchCache) : SearchCache :=
  let k := c.keySlice.getD c.keyStartIndex default
  let c1 : SearchCache :=
    { c with
      curByteSize := c.curByteSize - slookupLen c.resultData k
      resultData := adelete c.resultData k
      keyStartIndex := c.keyStartIndex + 1 }
  if c1.keyStartIndex = c1.keySlice.length then { c1 with keyStartIndex := 0 } else c1

/-- The eviction loop `for db.curByteSize > db.maxByteSize { purgeOldest() }`.
The fuel bounds the number of iterations; `keySlice.length` steps always
suffice on states satisfying the cache invariant (proved below), because a
full sweep of the slice deletes every stored entry. -/
def purgeLoop : Nat → SearchCache → SearchCache
  | 0, c => c
  | fuel + 1, c =>
    if c.curByteSize > c.maxByteSize then purgeLoop fuel (purgeOldest c) else c

/-- The insertion part of `SearchCache.Store` (`cache.go` lines 53-61): add
the entry, charge its byte length, write the key into the slice at
`keyEndIndex` (growing the slice when that index is at its end) and advance
the end index. -/
def storeInsert (c : SearchCache) (s : Search) (res : List Nat) : SearchCache :=
  let c1 : SearchCache :=
    { c with
      resultData := c.resultData ++ [(s, res)]
      curByteSize := c.curByteSize + res.length }
  let c2 : SearchCache :=
    if c1.keyEndIndex < c1.keySlice.length then
      { c1 with keySlice := c1.keySlice.set c1.keyEndIndex s }
    else { c1 with keySlice := c1.keySlice ++ [s] }
  { c2 with keyEndIndex := c2.keyEndIndex + 1 }

/-- The purge that fires when the advanced end index runs into the start
index (`cache.go` line 62-64). -/
def storeCollide (c : SearchCache) : SearchCache :=
  if c.keyEndIndex = c.keyStartIndex then purgeOldest c else c

/-- The eviction tail of `SearchCache.Store` (`cache.go` lines 66-75): purge
from the oldest entry while the byte size exceeds the maximum, then wrap the
end index to 0 when it sits at the end of the slice and the start index has
passed the midpoint. -/
def storeEvict (c : SearchCache) : SearchCache :=
  if c.curByteSize > c.maxByteSize then
    let c5 := purgeLoop c.keySlice.length c
    if c5.keyEndIndex = c5.keySlice.length ∧ c5.keyStartIndex * 2 > c5.keyEndIndex then
      { c5 with keyEndIndex := 0 }
    else c5
  else c

/-- `SearchCache.Store`: ignore an already stored key; otherwise insert,
resolve an index collision, and evict until the size bound holds again. -/
def storeOp (c : SearchCache) (s : Search) (res : List Nat) : SearchCache :=
  if (alookup c.resultData s).isSome then c
  else storeEvict (storeCollide (storeInsert c s res))

/-- A `Store` or `Fetch` call. -/
inductive CacheOp where
  | store (s : Search) (res : List Nat)
  | fetch (s : Search)

/-- Run one operation. -/
def applyOp (c : SearchCache) : CacheOp → SearchCache
  | .store s res => storeOp c s res
  | .fetch s => (fetchOp c s).2

/-- Run a sequence of operations. -/
def runOps (c : SearchCache) (ops : List CacheOp) : SearchCache :=
  ops.foldl applyOp c

/-- The index set of the ordered key sequence from `keyStartIndex` to
`keyEndIndex`: the linear range when the start is at or before the end,
otherwise the range wrapping around the end of the slice. -/
def cacheWindow (c : SearchCache) : List Nat :=
  if c.keyStartIndex ≤ c.keyEndIndex then
    List.range' c.keyStartIndex (c.keyEndIndex - c.keyStartIndex)
  else
    List.range' c.keyStartIndex (c.keySlice.length - c.keyStartIndex) ++
      List.range c.keyEndIndex

/-- The keys currently cached. -/
def liveKeys (c : SearchCache) : List Search :=
  c.resultData.map Prod.fst

/-- Total byte length of all cached values. -/
def byteSum (m : List (Search × List Nat)) : Int :=
  (m.map fun e => (e.2.length : Int)).sum

theorem alookup_nil {K A : Type} [DecidableEq K] (k : K) :
    alookup ([] : List (K × A)) k = none := rfl

theorem alookup_cons {K A : Type} [DecidableEq K] (e : K × A) (rest : List (K × A)) (k : K) :
    alookup (e :: rest) k = if e.1 = k then some e.2 else alookup rest k := rfl

theorem alookup_eq_none_iff {K A : Type} [DecidableEq K] (m : List (K × A)) (k : K) :
    alookup m k = none ↔ k ∉ m.map Prod.fst := by
  induction m with
  | nil => simp [alookup]
  | cons e rest ih =>
    rw [alookup]
    by_cases he : e.1 = k
    · rw [if_pos he]
      simp [he]
    · rw [if_neg he, ih]
      have hne : ¬k = e.1 := fun h => he h.symm
      simp [hne]

theorem mem_of_alookup_some {K A : Type} [DecidableEq K] (m : List (K × A)) (k : K) (v : A)
    (h : alookup m k = some v) : (k, v) ∈ m := by
  induction m with
  | nil => cases h
  | cons e rest ih =>
    by_cases he : e.1 = k
    · rw [alookup, if_pos he] at h
      cases h
      have hev : e = (k, e.2) := by
        cases e
        simp at he
        subst he
        rfl
      rw [← hev]
      exact List.mem_cons_self _ _
    · rw [alookup, if_neg he] at h
      exact List.mem_cons_of_mem _ (ih h)

theorem adelete_sublist {K A : Type} [DecidableEq K] (m : List (K × A)) (k : K) :
    (adelete m k).Sublist m :=
  List.filter_sublist m

theorem keys_adelete {K A : Type} [DecidableEq K] (m : List (K × A)) (k : K) :
    (adelete m k).map Prod.fst = (m.map Prod.fst).filter fun x => decide (x ≠ k) := by
  induction m with
  | nil => rfl
  | cons e rest ih =>
    show ((e :: rest).filter fun x => decide (x.1 ≠ k)).map Prod.fst = _
    rw [List.filter_cons, List.map_cons, List.filter_cons]
    by_cases he : e.1 = k
    · rw [if_neg (by simp [he]), if_neg (by simp [he])]
      exact ih
    · rw [if_pos (by simp [he]), if_pos (by simp [he]), List.map_cons]
      rw [show ((rest.filter fun x => decide (x.1 ≠ k)).map Prod.fst) =
        (adelete rest k).map Prod.fst from rfl, ih]

theorem nodup_keys_adelete {K A : Type} [DecidableEq K] (m : List (K × A)) (k : K)
    (h : (m.map Prod.fst).Nodup) : ((adelete m k).map Prod.fst).Nodup := by
  rw [keys_adelete]
  exact h.filter _

theorem alookup_adelete_self {K A : Type} [DecidableEq K] (m : List (K × A)) (k : K) :
    alookup (adelete m k) k = none := by
  rw [alookup_eq_none_iff, keys_adelete]
  simp

theorem alookup_adelete_ne {K A : Type} [DecidableEq K] (m : List (K × A)) (k k2 : K)
    (h : k2 ≠ k) : alookup (adelete m k) k2 = alookup m k2 := by
  induction m with
  | nil => rfl
  | cons e rest ih =>
    show alookup ((e :: rest).filter fun x => decide (x.1 ≠ k)) k2 = _
    rw [List.filter_cons]
    by_cases he : e.1 = k
    · have h2 : ¬e.1 = k2 := fun hx => h (hx.symm.trans he)
      rw [if_neg (by simp [he])]
      exact ih.trans (show alookup (e :: rest) k2 = alookup rest k2 by
        rw [alookup, if_neg h2]).symm
    · rw [if_pos (by simp [he])]
      by_cases h2 : e.1 = k2
      · rw [alookup, if_pos h2, alookup, if_pos h2]
      · rw [alookup, if_neg h2, alookup, if_neg h2]
        exact ih

theorem adelete_of_none {K A : Type} [DecidableEq K] (m : List (K × A)) (k : K)
    (h : alookup m k = none) : adelete m k = m := by
  induction m with
  | nil => rfl
  | cons e rest ih =>
    rw [alookup] at h
    by_cases he : e.1 = k
    · rw [if_pos he] at h
      cases h
    · rw [if_neg he] at h
      show (e :: rest).filter (fun x => decide (x.1 ≠ k)) = e :: rest
      rw [List.filter_cons, if_pos (by simp [he])]
      exact congrArg (e :: ·) (ih h)

theorem byteSum_adelete (m : List (Search × List Nat)) (k : Search)
    (h : (m.map Prod.fst).Nodup) :
    byteSum (adelete m k) = byteSum m - slookupLen m k := by
  induction m with
  | nil => simp [byteSum, adelete, slookupLen, alookup]
  | cons e rest ih =>
    have hn : (rest.map Prod.fst).Nodup := (List.nodup_cons.mp h).2
    have hbc : byteSum (e :: rest) = e.2.length + byteSum rest := by simp [byteSum]
    show byteSum ((e :: rest).filter fun x => decide (x.1 ≠ k)) = _
    rw [List.filter_cons]
    by_cases he : e.1 = k
    · rw [if_neg (by simp [he])]
      have hk : alookup rest k = none := by
        rw [alookup_eq_none_iff, ← he]
        exact (List.nodup_cons.mp h).1
      show byteSum (adelete rest k) = byteSum (e :: rest) - slookupLen (e :: rest) k
      rw [adelete_of_none rest k hk, hbc, slookupLen, alookup_cons, if_pos he]
      simp
    · rw [if_pos (by simp [he])]
      show byteSum (e :: adelete rest k) = byteSum (e :: rest) - slookupLen (e :: rest) k
      have hsum : byteSum (e :: adelete rest k) = e.2.length + byteSum (adelete rest k) := by
        simp [byteSum]
      rw [hsum, ih hn, hbc]
      simp only [slookupLen, alookup_cons, if_neg he]
      ring

theorem byteSum_append_one (m : List (Search × List Nat)) (s : Search) (res : List Nat) :
    byteSum (m ++ [(s, res)]) = byteSum m + res.length := by
  simp [byteSum]

/-- Numeric form of window membership (start, end, slice length). -/
def winMem (S E L i : Nat) : Prop :=
  (S ≤ E ∧ S ≤ i ∧ i < E) ∨ (E < S ∧ (S ≤ i ∧ i < L ∨ i < E))

theorem mem_cacheWindow (c : SearchCache) (i : Nat) :
    i ∈ cacheWindow c ↔
      winMem c.keyStartIndex c.keyEndIndex c.keySlice.length i := by
  unfold cacheWindow winMem
  by_cases h : c.keyStartIndex ≤ c.keyEndIndex
  · rw [if_pos h, List.mem_range'_1]
    omega
  · rw [if_neg h]
    simp only [List.mem_append, List.mem_range'_1, List.mem_range]
    omega

theorem cacheWindow_lt (c : SearchCache)
    (hE : c.keyEndIndex ≤ c.keySlice.length)
    (hS : c.keyStartIndex < c.keySlice.length ∨
      (c.keyStartIndex = 0 ∧ c.keySlice = [])) :
    ∀ i ∈ cacheWindow c, i < c.keySlice.length := by
  intro i hi
  rw [mem_cacheWindow] at hi
  have hL : c.keyStartIndex < c.keySlice.length ∨
      (c.keyStartIndex = 0 ∧ c.keySlice.length = 0) := by
    rcases hS with h | ⟨h1, h2⟩
    · exact Or.inl h
    · exact Or.inr ⟨h1, by rw [h2]; rfl⟩
  unfold winMem at hi
  omega

/-- The part of the cache invariant that holds at every point of `Store`
where the byte bound may be temporarily exceeded. -/
structure CachePre (c : SearchCache) : Prop where
  nodup : (c.resultData.map Prod.fst).Nodup
  acct : c.curByteSize = byteSum c.resultData
  maxNonneg : 0 ≤ c.maxByteSize
  endLe : c.keyEndIndex ≤ c.keySlice.length
  startOk : c.keyStartIndex < c.keySlice.length ∨
    (c.keyStartIndex = 0 ∧ c.keySlice = [])
  live : ∀ k ∈ c.resultData.map Prod.fst,
    ∃ i ∈ cacheWindow c, c.keySlice.getD i default = k

/-- The full invariant of a cache at rest. -/
structure CacheInv (c : SearchCache) extends CachePre c : Prop where
  sizeLe : c.curByteSize ≤ c.maxByteSize

theorem purgeOldest_fields (c : SearchCache) :
    (purgeOldest c).keySlice = c.keySlice ∧
      (purgeOldest c).keyEndIndex = c.keyEndIndex ∧
      (purgeOldest c).maxByteSize = c.maxByteSize := by
  unfold purgeOldest
  by_cases h : c.keyStartIndex + 1 = c.keySlice.length <;> simp [h]

theorem purgeOldest_start (c : SearchCache) :
    (purgeOldest c).keyStartIndex =
      if c.keyStartIndex + 1 = c.keySlice.length then 0 else c.keyStartIndex + 1 := by
  unfold purgeOldest
  by_cases h : c.keyStartIndex + 1 = c.keySlice.length <;> simp [h]

theorem purgeOldest_data (c : SearchCache) :
    (purgeOldest c).resultData =
      adelete c.resultData (c.keySlice.getD c.keyStartIndex default) ∧
      (purgeOldest c).curByteSize =
        c.curByteSize -
          slookupLen c.resultData (c.keySlice.getD c.keyStartIndex default) := by
  unfold purgeOldest
  by_cases h : c.keyStartIndex + 1 = c.keySlice.length <;> simp [h]

theorem mem_cacheWindow_purge (c : SearchCache) (i : Nat)
    (hE : c.keyEndIndex ≤ c.keySlice.length)
    (hS : c.keyStartIndex < c.keySlice.length)
    (hi : i ∈ cacheWindow c) (hne : i ≠ c.keyStartIndex) :
    i ∈ cacheWindow (purgeOldest c) := by
  obtain ⟨hsl, hee, _⟩ := purgeOldest_fields c
  rw [mem_cacheWindow, purgeOldest_start, hsl, hee]
  rw [mem_cacheWindow] at hi
  unfold winMem at hi ⊢
  by_cases hw : c.keyStartIndex + 1 = c.keySlice.length
  · rw [if_pos hw]
    omega
  · rw [if_neg hw]
    omega

theorem purgeOldest_pre (c : SearchCache) (h : CachePre c) (hne : c.keySlice ≠ []) :
    CachePre (purgeOldest c) := by
  have hS : c.keyStartIndex < c.keySlice.length := by
    rcases h.startOk with hS | ⟨_, hnil⟩
    · exact hS
    · exact absurd hnil hne
  obtain ⟨hsl, hee, hmx⟩ := purgeOldest_fields c
  obtain ⟨hdata, hcur⟩ := purgeOldest_data c
  refine ⟨?_, ?_, ?_, ?_, ?_, ?_⟩
  · rw [hdata]
    exact nodup_keys_adelete _ _ h.nodup
  · rw [hdata, hcur, h.acct, byteSum_adelete _ _ h.nodup]
  · rw [hmx]
    exact h.maxNonneg
  · rw [hee, hsl]
    exact h.endLe
  · rw [purgeOldest_start, hsl]
    by_cases hw : c.keyStartIndex + 1 = c.keySlice.length
    · rw [if_pos hw]
      exact Or.inl (by omega)
    · rw [if_neg hw]
      exact Or.inl (by omega)
  · intro k hk
    rw [hdata, keys_adelete, List.mem_filter] at hk
    obtain ⟨hk, hkne⟩ := hk
    have hkne2 : k ≠ c.keySlice.getD c.keyStartIndex default := by
      simpa using hkne
    obtain ⟨i, hiw, hik⟩ := h.live k hk
    have hine : i ≠ c.keyStartIndex := by
      intro hcon
      exact hkne2 (by rw [← hik, hcon])
    refine ⟨i, mem_cacheWindow_purge c i h.endLe hS hiw hine, ?_⟩
    rw [hsl]
    exact hik

theorem purgeLoop_spec (fuel : Nat) (c : SearchCache) (h : CachePre c)
    (hlive : ∀ k ∈ c.resultData.map Prod.fst,
      ∃ r < fuel,
        c.keySlice.getD ((c.keyStartIndex + r) % c.keySlice.length) default = k) :
    CachePre (purgeLoop fuel c) ∧
      (purgeLoop fuel c).curByteSize ≤ (purgeLoop fuel c).maxByteSize ∧
      (purgeLoop fuel c).keySlice = c.keySlice ∧
      (purgeLoop fuel c).keyEndIndex = c.keyEndIndex ∧
      (purgeLoop fuel c).maxByteSize = c.maxByteSize ∧
      (purgeLoop fuel c).resultData.Sublist c.resultData := by
  induction fuel generalizing c with
  | zero =>
    have hempty : c.resultData = [] := by
      rcases hd : c.resultData with _ | ⟨e, rest⟩
      · rfl
      · exfalso
        obtain ⟨r, hr, _⟩ := hlive e.1 (by simp [hd])
        omega
    have hcur : c.curByteSize = 0 := by
      rw [h.acct, hempty]
      rfl
    rw [purgeLoop]
    exact ⟨h, by rw [hcur]; exact h.maxNonneg, rfl, rfl, rfl, List.Sublist.refl _⟩
  | succ n ih =>
    rw [purgeLoop]
    by_cases hc : c.curByteSize > c.maxByteSize
    · rw [if_pos hc]
      have hpos : 0 < byteSum c.resultData := by
        rw [← h.acct]
        have := h.maxNonneg
        omega
      have hdne : c.resultData ≠ [] := by
        intro hcon
        rw [hcon] at hpos
        simp [byteSum] at hpos
      have hke : ∃ k, k ∈ c.resultData.map Prod.fst := by
        rcases hd : c.resultData with _ | ⟨e, rest⟩
        · exact absurd hd hdne
        · exact ⟨e.1, by simp [hd]⟩
      obtain ⟨k0, hk0⟩ := hke
      obtain ⟨i0, hi0w, _⟩ := h.live k0 hk0
      have hlen : 0 < c.keySlice.length := by
        have := cacheWindow_lt c h.endLe h.startOk i0 hi0w
        omega
      have hsne : c.keySlice ≠ [] := by
        intro hcon
        rw [hcon] at hlen
        simp at hlen
      have hS : c.keyStartIndex < c.keySlice.length := by
        rcases h.startOk with hS | ⟨_, hnil⟩
        · exact hS
        · exact absurd hnil hsne
      have hpre := purgeOldest_pre c h hsne
      obtain ⟨hsl, hee, hmx⟩ := purgeOldest_fields c
      obtain ⟨hdata, _⟩ := purgeOldest_data c
      have hlive2 : ∀ k ∈ (purgeOldest c).resultData.map Prod.fst,
          ∃ r < n, (purgeOldest c).keySlice.getD
            (((purgeOldest c).keyStartIndex + r) % (purgeOldest c).keySlice.length)
            default = k := by
        intro k hk
        rw [hdata, keys_adelete, List.mem_filter] at hk
        obtain ⟨hk, hkne⟩ := hk
        have hkne2 : k ≠ c.keySlice.getD c.keyStartIndex default := by
          simpa using hkne
        obtain ⟨r, hr, hslot⟩ := hlive k hk
        have hr0 : r ≠ 0 := by
          intro hcon
          rw [hcon, Nat.add_zero, Nat.mod_eq_of_lt hS] at hslot
          exact hkne2 hslot.symm
        refine ⟨r - 1, by omega, ?_⟩
        rw [hsl, purgeOldest_start]
        have harith : ∀ S' : Nat, S' = (c.keyStartIndex + 1) % c.keySlice.length →
            (S' + (r - 1)) % c.keySlice.length =
              (c.keyStartIndex + r) % c.keySlice.length := by
          intro S' hq
          rw [hq, Nat.mod_add_mod]
          congr 1
          omega
        by_cases hw : c.keyStartIndex + 1 = c.keySlice.length
        · rw [if_pos hw, harith 0 (by rw [hw, Nat.mod_self])]
          exact hslot
        · rw [if_neg hw, harith (c.keyStartIndex + 1) (by rw [Nat.mod_eq_of_lt (by omega)])]
          exact hslot
      obtain ⟨r1, r2, r3, r4, r5, r6⟩ := ih (purgeOldest c) hpre hlive2
      exact ⟨r1, r2, r3.trans hsl, r4.trans hee, r5.trans hmx,
        r6.trans (hdata ▸ adelete_sublist _ _)⟩
    · rw [if_neg hc]
      exact ⟨h, by omega, rfl, rfl, rfl, List.Sublist.refl _⟩

theorem getD_set_self (l : List Search) (i : Nat) (a d : Search) (h : i < l.length) :
    (l.set i a).getD i d = a := by
  rw [List.getD_eq_getElem?_getD, List.getElem?_set_self h]
  rfl

theorem getD_set_ne (l : List Search) (i j : Nat) (a d : Search) (h : i ≠ j) :
    (l.set i a).getD j d = l.getD j d := by
  rw [List.getD_eq_getElem?_getD, List.getElem?_set_ne h, ← List.getD_eq_getElem?_getD]

theorem getD_append_last (l : List Search) (a d : Search) :
    (l ++ [a]).getD l.length d = a := by
  rw [List.getD_append_right l [a] d l.length (le_refl _)]
  simp

theorem storeInsert_fields (c : SearchCache) (s : Search) (res : List Nat) :
    (storeInsert c s res).resultData = c.resultData ++ [(s, res)] ∧
      (storeInsert c s res).curByteSize = c.curByteSize + res.length ∧
      (storeInsert c s res).maxByteSize = c.maxByteSize ∧
      (storeInsert c s res).keyStartIndex = c.keyStartIndex ∧
      (storeInsert c s res).keyEndIndex = c.keyEndIndex + 1 ∧
      (storeInsert c s res).keySlice =
        (if c.keyEndIndex < c.keySlice.length then c.keySlice.set c.keyEndIndex s
         else c.keySlice ++ [s]) := by
  unfold storeInsert
  by_cases hl : c.keyEndIndex < c.keySlice.length <;> simp [hl]

theorem keys_append_one (m : List (Search × List Nat)) (s : Search) (res : List Nat) :
    (m ++ [(s, res)]).map Prod.fst = m.map Prod.fst ++ [s] := by
  simp

/-- `Store` on a fresh key, up to the end-index collision purge, restores the
window part of the invariant (the byte bound may still be exceeded). -/
theorem storeInsertCollide_pre (c : SearchCache) (s : Search) (res : List Nat)
    (h : CacheInv c) (hfresh : alookup c.resultData s = none) :
    CachePre (storeCollide (storeInsert c s res)) ∧
      (storeCollide (storeInsert c s res)).maxByteSize = c.maxByteSize ∧
      (storeCollide (storeInsert c s res)).resultData.Sublist
        (c.resultData ++ [(s, res)]) := by
  obtain ⟨hdata, hcur, hmax, hS, hE, hslice⟩ := storeInsert_fields c s res
  have hpre := h.toCachePre
  have hs_notin : s ∉ c.resultData.map Prod.fst := (alookup_eq_none_iff _ _).mp hfresh
  have hnodup3 : ((storeInsert c s res).resultData.map Prod.fst).Nodup := by
    rw [hdata, keys_append_one, List.nodup_append]
    refine ⟨hpre.nodup, List.nodup_singleton _, ?_⟩
    intro a ha hb
    rw [List.mem_singleton] at hb
    rw [hb] at ha
    exact hs_notin ha
  have hacct3 : (storeInsert c s res).curByteSize =
      byteSum (storeInsert c s res).resultData := by
    rw [hdata, hcur, byteSum_append_one, hpre.acct]
  have hEwin : ¬winMem c.keyStartIndex c.keyEndIndex c.keySlice.length c.keyEndIndex := by
    unfold winMem
    omega
  have hlen3 : (c.keyEndIndex < c.keySlice.length ∧
        (storeInsert c s res).keySlice.length = c.keySlice.length) ∨
      (c.keyEndIndex = c.keySlice.length ∧
        (storeInsert c s res).keySlice.length = c.keySlice.length + 1) := by
    by_cases hl : c.keyEndIndex < c.keySlice.length
    · rw [hslice, if_pos hl]
      exact Or.inl ⟨hl, by simp⟩
    · rw [hslice, if_neg hl]
      refine Or.inr ⟨?_, by simp⟩
      have := hpre.endLe
      omega
  have hgetE : (storeInsert c s res).keySlice.getD c.keyEndIndex default = s := by
    by_cases hl : c.keyEndIndex < c.keySlice.length
    · rw [hslice, if_pos hl]
      exact getD_set_self _ _ _ _ hl
    · rw [hslice, if_neg hl]
      have hEl : c.keyEndIndex = c.keySlice.length := by
        have := hpre.endLe
        omega
      rw [hEl]
      exact getD_append_last _ _ _
  have hgetOld : ∀ i, i ≠ c.keyEndIndex → i < c.keySlice.length →
      (storeInsert c s res).keySlice.getD i default = c.keySlice.getD i default := by
    intro i hi hil
    by_cases hl : c.keyEndIndex < c.keySlice.length
    · rw [hslice, if_pos hl]
      exact getD_set_ne _ _ _ _ _ fun hx => hi hx.symm
    · rw [hslice, if_neg hl]
      exact List.getD_append _ _ _ _ hil
  have hlive3 : ∀ k ∈ (storeInsert c s res).resultData.map Prod.fst,
      k = s ∨ (k ∈ c.resultData.map Prod.fst ∧
        ∃ i, i ≠ c.keyEndIndex ∧ i < c.keySlice.length ∧
          winMem c.keyStartIndex c.keyEndIndex c.keySlice.length i ∧
          (storeInsert c s res).keySlice.getD i default = k) := by
    intro k hk
    rw [hdata, keys_append_one, List.mem_append, List.mem_singleton] at hk
    rcases hk with hk | hk
    · right
      obtain ⟨i, hiw, hik⟩ := hpre.live k hk
      have hil : i < c.keySlice.length := cacheWindow_lt c hpre.endLe hpre.startOk i hiw
      rw [mem_cacheWindow] at hiw
      have hine : i ≠ c.keyEndIndex := fun hcon => hEwin (hcon ▸ hiw)
      exact ⟨hk, i, hine, hil, hiw, by rw [hgetOld i hine hil]; exact hik⟩
    · left
      exact hk
  unfold storeCollide
  by_cases hcol : (storeInsert c s res).keyEndIndex = (storeInsert c s res).keyStartIndex
  · -- end index ran into the start index: S = E + 1, and a purge fires
    rw [if_pos hcol]
    rw [hS, hE] at hcol
    have hSlt : c.keyStartIndex < c.keySlice.length := by
      rcases hpre.startOk with h1 | ⟨h1, h2⟩
      · exact h1
      · rw [h1] at hcol
        omega
    have hElt : c.keyEndIndex < c.keySlice.length := by omega
    have hlen3eq : (storeInsert c s res).keySlice.length = c.keySlice.length := by
      rcases hlen3 with ⟨_, h2⟩ | ⟨h1, _⟩
      · exact h2
      · omega
    obtain ⟨psl, pee, pmx⟩ := purgeOldest_fields (storeInsert c s res)
    obtain ⟨pdata, pcur⟩ := purgeOldest_data (storeInsert c s res)
    have hk0 : (storeInsert c s res).keySlice.getD (storeInsert c s res).keyStartIndex
        default = c.keySlice.getD c.keyStartIndex default := by
      rw [hS]
      exact hgetOld _ (by omega) hSlt
    refine ⟨⟨?_, ?_, ?_, ?_, ?_, ?_⟩, ?_, ?_⟩
    · rw [pdata]
      exact nodup_keys_adelete _ _ hnodup3
    · rw [pdata, pcur, hacct3, byteSum_adelete _ _ hnodup3]
    · rw [pmx, hmax]
      exact hpre.maxNonneg
    · rw [pee, psl, hE, hlen3eq]
      omega
    · rw [purgeOldest_start, psl, hS, hlen3eq]
      by_cases hw : c.keyStartIndex + 1 = c.keySlice.length
      · rw [if_pos hw]
        exact Or.inl (by omega)
      · rw [if_neg hw]
        exact Or.inl (by omega)
    · intro k hk
      rw [pdata, keys_adelete, List.mem_filter] at hk
      obtain ⟨hk, hkne⟩ := hk
      have hkne2 : k ≠ (storeInsert c s res).keySlice.getD
          (storeInsert c s res).keyStartIndex default := by
        simpa using hkne
      rw [hk0] at hkne2
      have hwin4 : ∀ i, i < c.keySlice.length → i ≠ c.keyStartIndex →
          (i = c.keyEndIndex ∨
            winMem c.keyStartIndex c.keyEndIndex c.keySlice.length i) →
          i ∈ cacheWindow (purgeOldest (storeInsert c s res)) := by
        intro i hil hiS hiw
        rw [mem_cacheWindow, purgeOldest_start, psl, pee, hS, hE, hlen3eq]
        unfold winMem at hiw ⊢
        by_cases hw : c.keyStartIndex + 1 = c.keySlice.length
        · rw [if_pos hw]
          omega
        · rw [if_neg hw]
          omega
      rcases hlive3 k hk with hks | ⟨hkold, i, hine, hil, hiw, hgi⟩
      · refine ⟨c.keyEndIndex, hwin4 _ hElt (by omega) (Or.inl rfl), ?_⟩
        rw [psl, hks]
        exact hgetE
      · have hiS : i ≠ c.keyStartIndex := by
          intro hcon
          apply hkne2
          rw [← hgi, hcon, hgetOld _ (by omega) hSlt]
        refine ⟨i, hwin4 i hil hiS (Or.inr hiw), ?_⟩
        rw [psl]
        exact hgi
    · rw [pmx, hmax]
    · rw [pdata, hdata]
      exact adelete_sublist _ _
  · -- no collision
    rw [if_neg hcol]
    rw [hS, hE] at hcol
    refine ⟨⟨hnodup3, hacct3, by rw [hmax]; exact hpre.maxNonneg, ?_, ?_, ?_⟩,
      hmax, by rw [hdata]⟩
    · rw [hE]
      rcases hlen3 with ⟨h1, h2⟩ | ⟨h1, h2⟩ <;> omega
    · rw [hS]
      rcases hlen3 with ⟨h1, h2⟩ | ⟨h1, h2⟩
      · rcases hpre.startOk with h3 | ⟨h3, h4⟩
        · exact Or.inl (by omega)
        · exfalso
          rw [h4] at h1
          simp at h1
      · rcases hpre.startOk with h3 | ⟨h3, h4⟩
        · exact Or.inl (by omega)
        · exact Or.inl (by omega)
    · intro k hk
      have hwin3 : ∀ i, (i = c.keyEndIndex ∨
            winMem c.keyStartIndex c.keyEndIndex c.keySlice.length i) →
          i ∈ cacheWindow (storeInsert c s res) := by
        intro i hiw
        rw [mem_cacheWindow, hS, hE]
        unfold winMem at hiw ⊢
        rcases hlen3 with ⟨h1, h2⟩ | ⟨h1, h2⟩ <;> rw [h2] <;> omega
      rcases hlive3 k hk with hks | ⟨_, i, hine, hil, hiw, hgi⟩
      · exact ⟨c.keyEndIndex, hwin3 _ (Or.inl rfl), by rw [hks]; exact hgetE⟩
      · exact ⟨i, hwin3 i (Or.inr hiw), hgi⟩

theorem byteSum_nonneg (m : List (Search × List Nat)) : 0 ≤ byteSum m := by
  induction m with
  | nil => simp [byteSum]
  | cons e rest ih =>
    have : byteSum (e :: rest) = e.2.length + byteSum rest := by simp [byteSum]
    rw [this]
    positivity

theorem byteSum_ge_of_mem (m : List (Search × List Nat)) (k : Search) (v : List Nat)
    (h : (k, v) ∈ m) : (v.length : Int) ≤ byteSum m := by
  induction m with
  | nil => cases h
  | cons e rest ih =>
    have hb : byteSum (e :: rest) = e.2.length + byteSum rest := by simp [byteSum]
    rw [hb]
    rcases List.mem_cons.mp h with h | h
    · have he : e.2 = v := by rw [← h]
      rw [he]
      have := byteSum_nonneg rest
      omega
    · have h1 := ih h
      have h2 : (0 : Int) ≤ e.2.length := by positivity
      omega

/-- The eviction tail takes any mid-`Store` state back to the full
invariant. -/
theorem storeEvict_inv (c : SearchCache) (h : CachePre c) :
    CacheInv (storeEvict c) ∧ (storeEvict c).resultData.Sublist c.resultData ∧
      (storeEvict c).maxByteSize = c.maxByteSize := by
  unfold storeEvict
  by_cases hc : c.curByteSize > c.maxByteSize
  · rw [if_pos hc]
    have hlive : ∀ k ∈ c.resultData.map Prod.fst,
        ∃ r < c.keySlice.length,
          c.keySlice.getD ((c.keyStartIndex + r) % c.keySlice.length) default = k := by
      intro k hk
      obtain ⟨i, hiw, hik⟩ := h.live k hk
      have hil : i < c.keySlice.length := cacheWindow_lt c h.endLe h.startOk i hiw
      have hlen : 0 < c.keySlice.length := by omega
      have hS : c.keyStartIndex < c.keySlice.length := by
        rcases h.startOk with h1 | ⟨h1, h2⟩
        · exact h1
        · rw [h2] at hlen
          simp at hlen
      refine ⟨(i + c.keySlice.length - c.keyStartIndex) % c.keySlice.length,
        Nat.mod_lt _ hlen, ?_⟩
      have harr : (c.keyStartIndex +
          (i + c.keySlice.length - c.keyStartIndex) % c.keySlice.length) %
            c.keySlice.length = i := by
        rw [Nat.add_mod_mod]
        have he : c.keyStartIndex + (i + c.keySlice.length - c.keyStartIndex) =
            i + c.keySlice.length := by omega
        rw [he, Nat.add_mod_right, Nat.mod_eq_of_lt hil]
      rw [harr]
      exact hik
    obtain ⟨r1, r2, r3, r4, r5, r6⟩ := purgeLoop_spec c.keySlice.length c h hlive
    by_cases hreset : (purgeLoop c.keySlice.length c).keyEndIndex =
        (purgeLoop c.keySlice.length c).keySlice.length ∧
        (purgeLoop c.keySlice.length c).keyStartIndex * 2 >
          (purgeLoop c.keySlice.length c).keyEndIndex
    · rw [if_pos hreset]
      set c5 := purgeLoop c.keySlice.length c with hc5
      have hS5 : c5.keyStartIndex < c5.keySlice.length ∨
          (c5.keyStartIndex = 0 ∧ c5.keySlice.length = 0) := by
        rcases r1.startOk with h1 | ⟨h1, h2⟩
        · exact Or.inl h1
        · exact Or.inr ⟨h1, by rw [h2]; rfl⟩
      have hwineq : ∀ i, i ∈ cacheWindow { c5 with keyEndIndex := 0 } ↔
          i ∈ cacheWindow c5 := by
        intro i
        rw [mem_cacheWindow, mem_cacheWindow]
        show winMem c5.keyStartIndex 0 c5.keySlice.length i ↔ _
        unfold winMem
        obtain ⟨hr1, hr2⟩ := hreset
        omega
      refine ⟨⟨⟨r1.nodup, r1.acct, r1.maxNonneg, by simp, ?_, ?_⟩, r2⟩, r6, r5⟩
      · show c5.keyStartIndex < c5.keySlice.length ∨ _
        exact r1.startOk
      · intro k hk
        obtain ⟨i, hiw, hik⟩ := r1.live k hk
        exact ⟨i, (hwineq i).mpr hiw, hik⟩
    · rw [if_neg hreset]
      exact ⟨⟨r1, r2⟩, r6, r5⟩
  · rw [if_neg hc]
    exact ⟨⟨h, by omega⟩, List.Sublist.refl _, rfl⟩

/-- `Store` preserves the cache invariant. -/
theorem storeOp_inv (c : SearchCache) (s : Search) (res : List Nat) (h : CacheInv c) :
    CacheInv (storeOp c s res) := by
  unfold storeOp
  by_cases hstored : (alookup c.resultData s).isSome
  · rw [if_pos hstored]
    exact h
  · rw [if_neg hstored]
    have hfresh : alookup c.resultData s = none := by
      rcases hx : alookup c.resultData s with _ | v
      · rfl
      · rw [hx] at hstored
        simp at hstored
    obtain ⟨hp, _, _⟩ := storeInsertCollide_pre c s res h hfresh
    exact (storeEvict_inv _ hp).1

theorem cacheInv_init (size : Int) (c0 : SearchCache)
    (h : newSearchCache size = .ok c0) : CacheInv c0 := by
  unfold newSearchCache at h
  by_cases hs : size < 0
  · rw [if_pos hs] at h
    cases h
  · rw [if_neg hs] at h
    cases h
    refine ⟨⟨?_, ?_, ?_, ?_, ?_, ?_⟩, ?_⟩
    · exact List.nodup_nil
    · rfl
    · show (0 : Int) ≤ size
      omega
    · exact Nat.le_refl 0
    · exact Or.inr ⟨rfl, rfl⟩
    · intro k hk
      cases hk
    · show (0 : Int) ≤ size
      omega

/-- Any sequence of operations preserves the cache invariant. -/
theorem cacheInv_runOps (c : SearchCache) (h : CacheInv c) (ops : List CacheOp) :
    CacheInv (runOps c ops) := by
  induction ops generalizing c with
  | nil => exact h
  | cons op rest ih =>
    cases op with
    | store s res => exact ih _ (storeOp_inv c s res h)
    | fetch s => exact ih _ h

/-- C5 counterexample to the original claim: storing a 1-byte result into a
fresh size-0 cache evicts the entry again, but leaves its key inside the
ordered key sequence from `keyStartIndex` to `keyEndIndex` — the window holds
a key whose value was evicted. -/
theorem cache_window_evicted_counterexample :
    newSearchCache 0 = .ok ⟨0, 0, 0, 0, [], []⟩ ∧
      0 ∈ cacheWindow (storeOp ⟨0, 0, 0, 0, [], []⟩ ⟨"en", 1, 2⟩ [7]) ∧
      (storeOp ⟨0, 0, 0, 0, [], []⟩ ⟨"en", 1, 2⟩ [7]).keySlice.getD 0 default =
        ⟨"en", 1, 2⟩ ∧
      alookup (storeOp ⟨0, 0, 0, 0, [], []⟩ ⟨"en", 1, 2⟩ [7]).resultData
        ⟨"en", 1, 2⟩ = none := by
  exact ⟨rfl, by decide, by decide, by decide⟩

/-- C5 (amended): after any sequence of `Store`/`Fetch` operations on a
freshly constructed cache, `curByteSize` equals the total byte length of the
cached values, `curByteSize` never exceeds `maxByteSize`, and every currently
cached key appears in the ordered key sequence from `keyStartIndex` to
`keyEndIndex` (the converse of the original claim's third part, which the
counterexample refutes: the window may also hold evicted keys). -/
theorem cache_lru_invariant (size : Int) (c0 : SearchCache)
    (h0 : newSearchCache size = .ok c0) (ops : List CacheOp) :
    (runOps c0 ops).curByteSize = byteSum (runOps c0 ops).resultData ∧
      (runOps c0 ops).curByteSize ≤ (runOps c0 ops).maxByteSize ∧
      ∀ k ∈ (runOps c0 ops).resultData.map Prod.fst,
        ∃ i ∈ cacheWindow (runOps c0 ops),
          (runOps c0 ops).keySlice.getD i default = k := by
  have h := cacheInv_runOps c0 (cacheInv_init size c0 h0) ops
  exact ⟨h.toCachePre.acct, h.sizeLe, h.toCachePre.live⟩

/-- C5 witness: a concrete run of two stores and a fetch on a size-2 cache. -/
theorem cache_lru_invariant_witness :
    (runOps ⟨0, 2, 0, 0, [], []⟩
        [.store ⟨"en", 1, 2⟩ [7], .fetch ⟨"en", 1, 2⟩, .store ⟨"de", 3, 4⟩ [8, 9]]).curByteSize =
      byteSum (runOps ⟨0, 2, 0, 0, [], []⟩
        [.store ⟨"en", 1, 2⟩ [7], .fetch ⟨"en", 1, 2⟩, .store ⟨"de", 3, 4⟩ [8, 9]]).resultData ∧
      (runOps ⟨0, 2, 0, 0, [], []⟩
        [.store ⟨"en", 1, 2⟩ [7], .fetch ⟨"en", 1, 2⟩, .store ⟨"de", 3, 4⟩ [8, 9]]).curByteSize ≤
        (runOps ⟨0, 2, 0, 0, [], []⟩
          [.store ⟨"en", 1, 2⟩ [7], .fetch ⟨"en", 1, 2⟩, .store ⟨"de", 3, 4⟩ [8, 9]]).maxByteSize ∧
      ∀ k ∈ (runOps ⟨0, 2, 0, 0, [], []⟩
          [.store ⟨"en", 1, 2⟩ [7], .fetch ⟨"en", 1, 2⟩, .store ⟨"de", 3, 4⟩ [8, 9]]).resultData.map
            Prod.fst,
        ∃ i ∈ cacheWindow (runOps ⟨0, 2, 0, 0, [], []⟩
          [.store ⟨"en", 1, 2⟩ [7], .fetch ⟨"en", 1, 2⟩, .store ⟨"de", 3, 4⟩ [8, 9]]),
          (runOps ⟨0, 2, 0, 0, [], []⟩
            [.store ⟨"en", 1, 2⟩ [7], .fetch ⟨"en", 1, 2⟩, .store ⟨"de", 3, 4⟩ [8, 9]]).keySlice.getD
              i default = k :=
  cache_lru_invariant 2 ⟨0, 2, 0, 0, [], []⟩ rfl
    [.store ⟨"en", 1, 2⟩ [7], .fetch ⟨"en", 1, 2⟩, .store ⟨"de", 3, 4⟩ [8, 9]]

/-- C9: `Fetch` never modifies the cache: all five fields are unchanged and
the returned payload is the plain map lookup.  Eviction order therefore
depends only on insertion order; a fetch does not refresh an entry's
position. -/
theorem fetch_frame (c : SearchCache) (s : Search) :
    (fetchOp c s).2.curByteSize = c.curByteSize ∧
      (fetchOp c s).2.keySlice = c.keySlice ∧
      (fetchOp c s).2.keyStartIndex = c.keyStartIndex ∧
      (fetchOp c s).2.keyEndIndex = c.keyEndIndex ∧
      (fetchOp c s).2.resultData = c.resultData ∧
      (fetchOp c s).1 = alookup c.resultData s :=
  ⟨rfl, rfl, rfl, rfl, rfl, rfl⟩

/-- C10 (amended): storing a result larger than `maxByteSize` under a fresh
key completes and leaves the cache without that entry (a subsequent `Fetch`
returns nil); constructing with a negative size errors; and a cache whose
`maxByteSize` is 0 is valid but can only retain entries with empty values
(the counterexample below shows an empty-valued entry is retained, refuting
the original "never retains any entry"). -/
theorem oversized_store_claim (size : Int) (c : SearchCache) (s : Search)
    (res : List Nat) (hc : CacheInv c)
    (hfresh : alookup c.resultData s = none)
    (hbig : (res.length : Int) > c.maxByteSize) (hneg : size < 0) :
    alookup (storeOp c s res).resultData s = none ∧
      (fetchOp (storeOp c s res) s).1 = none ∧
      (∃ e, newSearchCache size = .error e) ∧
      (∀ c0, CacheInv c0 → c0.maxByteSize = 0 →
        ∀ k v, alookup c0.resultData k = some v → v = []) := by
  have hmain : alookup (storeOp c s res).resultData s = none := by
    unfold storeOp
    rw [if_neg (by rw [hfresh]; simp)]
    obtain ⟨hp, hm1, hsub1⟩ := storeInsertCollide_pre c s res hc hfresh
    obtain ⟨hinv, hsub2, hm2⟩ := storeEvict_inv _ hp
    rcases hx : alookup (storeEvict (storeCollide (storeInsert c s res))).resultData s
      with _ | v
    · rfl
    · exfalso
      have hmem := mem_of_alookup_some _ _ _ hx
      have hmem2 : (s, v) ∈ c.resultData ++ [(s, res)] :=
        (hsub2.trans hsub1).mem hmem
      have hveq : v = res := by
        rcases List.mem_append.mp hmem2 with h1 | h1
        · exfalso
          have : s ∈ c.resultData.map Prod.fst :=
            List.mem_map.mpr ⟨(s, v), h1, rfl⟩
          exact (alookup_eq_none_iff _ _).mp hfresh this
        · rw [List.mem_singleton] at h1
          exact congrArg Prod.snd h1
      have hge : (res.length : Int) ≤
          byteSum (storeEvict (storeCollide (storeInsert c s res))).resultData :=
        byteSum_ge_of_mem _ s res (hveq ▸ hmem)
      have hle := hinv.sizeLe
      rw [hinv.toCachePre.acct] at hle
      rw [hm2, hm1] at hle
      omega
  refine ⟨hmain, ?_, ?_, ?_⟩
  · show alookup (storeOp c s res).resultData s = none
    exact hmain
  · exact ⟨"invalid search cache size", by unfold newSearchCache; rw [if_pos hneg]⟩
  · intro c0 h0 hmax0 k v hkv
    have hmem := mem_of_alookup_some _ _ _ hkv
    have hge := byteSum_ge_of_mem _ k v hmem
    have hle := h0.sizeLe
    rw [h0.toCachePre.acct, hmax0] at hle
    have : v.length = 0 := by omega
    exact List.length_eq_zero.mp this

/-- C10 counterexample to "a size-0 cache never retains any entry": storing
an empty result in a size-0 cache retains the entry (with empty value). -/
theorem cache_zero_retains_empty_entry :
    alookup (storeOp ⟨0, 0, 0, 0, [], []⟩ ⟨"en", 1, 2⟩ []).resultData
        ⟨"en", 1, 2⟩ = some [] := by
  decide

/-- C10 witness: oversized store on a concrete size-0 cache. -/
theorem oversized_store_claim_witness :
    alookup (storeOp ⟨0, 0, 0, 0, [], []⟩ ⟨"en", 1, 2⟩ [7]).resultData
        ⟨"en", 1, 2⟩ = none ∧
      (fetchOp (storeOp ⟨0, 0, 0, 0, [], []⟩ ⟨"en", 1, 2⟩ [7]) ⟨"en", 1, 2⟩).1 = none ∧
      (∃ e, newSearchCache (-1) = .error e) ∧
      (∀ c0, CacheInv c0 → c0.maxByteSize = 0 →
        ∀ k v, alookup c0.resultData k = some v → v = []) :=
  oversized_store_claim (-1) ⟨0, 0, 0, 0, [], []⟩ ⟨"en", 1, 2⟩ [7]
    (cacheInv_init 0 _ rfl) rfl (by decide) (by decide)

/-! ## Bidirectional breadth-first search (`database.go`: `getShortestPaths`,
`extractPathCount`)

The search runs against an error-free read store: the redirect, incoming and
outgoing lookups are total functions (store errors abort the Go search early
and are treated with the transaction layer above).  `nodes` is a finite
support used solely to size the loop fuel; the correctness theorem ties it to
the adjacency functions.  Go maps (`forwardParents`, `newParents`,
`overlapping`, the memo tables and `Links`) are association lists in
first-insertion order. -/

/-- An error-free read store. -/
structure Store where
  nodes : List Nat
  redirect : Nat → Nat
  out : Nat → List Nat
  inc : Nat → List Nat

/-- State of the bidirectional search loop. -/
structure BfsState where
  fp : List (Nat × List Nat)
  bp : List (Nat × List Nat)
  fq : List Nat
  bq : List Nat
  ovl : List Nat
  fd : Nat
  bd : Nat

/-- Go set insertion (`m[x] = struct{}{}` / `m[x] = true`): idempotent. -/
def setInsert (l : List Nat) (x : Nat) : List Nat :=
  if x ∈ l then l else l ++ [x]

/-- Insert a parent into `newParents[child]` (`database.go` lines 222-226). -/
def parentInsert (np : List (Nat × List Nat)) (child parent : Nat) :
    List (Nat × List Nat) :=
  match alookup np child with
  | some _ => np.map fun e => if e.1 = child then (e.1, setInsert e.2 parent) else e
  | none => np ++ [(child, [parent])]

/-- Process one dequeued page: walk its adjacency list, appending unvisited
neighbours to the next queue, recording the parent, and marking overlap with
the opposite side (`database.go` lines 219-231).  The state is
(queue appends, new parents, overlap set). -/
def expandPage (adj : Nat → List Nat) (sameP oppP : List (Nat × List Nat))
    (st : List Nat × List (Nat × List Nat) × List Nat) (page : Nat) :
    List Nat × List (Nat × List Nat) × List Nat :=
  (adj page).foldl
    (fun st2 n =>
      if (alookup sameP n).isSome then st2
      else
        (st2.1 ++ [n], parentInsert st2.2.1 n page,
          if (alookup oppP n).isSome then setInsert st2.2.2 n else st2.2.2))
    st

/-- `m[k] = append(m[k], vs...)` on the parent map. -/
def mapAppendL (m : List (Nat × List Nat)) (k : Nat) (vs : List Nat) :
    List (Nat × List Nat) :=
  match alookup m k with
  | some _ => m.map fun e => if e.1 = k then (e.1, e.2 ++ vs) else e
  | none => m ++ [(k, vs)]

/-- Merge the per-level `newParents` into the parent map
(`database.go` lines 233-237). -/
def mergeParents (ps : List (Nat × List Nat)) (newP : List (Nat × List Nat)) :
    List (Nat × List Nat) :=
  newP.foldl (fun acc e => mapAppendL acc e.1 e.2) ps

/-- One iteration of the search loop: expand the smaller frontier (backward
on ties) one full level. -/
def bfsStep (store : Store) (st : BfsState) : BfsState :=
  if st.fq.length < st.bq.length then
    let r := st.fq.foldl (expandPage store.out st.fp st.bp) ([], [], st.ovl)
    { st with fq := r.1, fp := mergeParents st.fp r.2.1, ovl := r.2.2, fd := st.fd + 1 }
  else
    let r := st.bq.foldl (expandPage store.inc st.bp st.fp) ([], [], st.ovl)
    { st with bq := r.1, bp := mergeParents st.bp r.2.1, ovl := r.2.2, bd := st.bd + 1 }

/-- The search loop, `for len(overlapping) == 0 && len(forwardQueue) > 0 &&
len(backwardQueue) > 0`.  The fuel bounds the number of levels; the
correctness proof shows the fuel chosen in `getShortestPaths` suffices. -/
def bfsLoop (store : Store) : Nat → BfsState → BfsState
  | 0, st => st
  | fuel + 1, st =>
    if st.ovl = [] ∧ st.fq ≠ [] ∧ st.bq ≠ [] then bfsLoop store fuel (bfsStep store st)
    else st

/-- `counts[k] += v` with the Go zero default.  The values live in Go's
`map[PageId]int`; `int` is the 64-bit machine integer, so the addition
wraps, which the model makes explicit: a count is the two's-complement bit
pattern, a `Nat` below `2 ^ 64`. -/
def countsAdd (m : List (Nat × Nat)) (k : Nat) (v : Nat) : List (Nat × Nat) :=
  match alookup m k with
  | some c0 => m.map fun e => if e.1 = k then (e.1, (c0 + v) % 2 ^ 64) else e
  | none => m ++ [(k, (0 + v) % 2 ^ 64)]

/-- `extractPathCount` (`database.go` lines 293-315): memoized count of the
paths from `page` through the parent map, recording each traversed edge into
the links map.  The recursion descends the parent structure; the fuel bounds
its depth (one more than the number of breadth-first levels suffices). -/
def extractGo (parents : List (Nat × List Nat)) (forward : Bool) :
    Nat → Nat → List (Nat × Nat) → List (Nat × List Nat) →
      Nat × List (Nat × Nat) × List (Nat × List Nat)
  | 0, _, counts, links => (0, counts, links)
  | fuel + 1, page, counts, links =>
    let dps := (alookup parents page).getD []
    if dps = [] then (1, counts, links)
    else
      let r := dps.foldl
        (fun (acc : List Nat × List (Nat × Nat) × List (Nat × List Nat)) parent =>
          if parent ∈ acc.1 then acc
          else
            let dup2 := acc.1 ++ [parent]
            let links2 := if forward then mapAppendL acc.2.2 page [parent]
              else mapAppendL acc.2.2 parent [page]
            match alookup acc.2.1 parent with
            | some cnt => (dup2, countsAdd acc.2.1 page cnt, links2)
            | none =>
              let rr := extractGo parents forward fuel parent acc.2.1 links2
              (dup2, countsAdd rr.2.1 page rr.1, rr.2.2))
        (([] : List Nat), counts, links)
      ((alookup r.2.1 page).getD 0, r.2.1, r.2.2)

/-- The backtracking loop over all overlapping pages (`database.go` lines
272-278): two memo tables are threaded through, the links map is shared, and
the path counts of the two sides are multiplied and summed.  The sum
`graph.PathCount += forwardPathCount * backwardPathCount` is 64-bit `int`
arithmetic, so both the product and the running sum wrap; wrapping the whole
expression once is the same bit pattern. -/
def backtrack (st : BfsState) (exFuel : Nat) : Nat × List (Nat × List Nat) :=
  let r := st.ovl.foldl
    (fun (acc : Nat × (List (Nat × Nat) × List (Nat × Nat)) × List (Nat × List Nat)) m =>
      let f := extractGo st.bp true exFuel m acc.2.1.1 acc.2.2
      let b := extractGo st.fp false exFuel m acc.2.1.2 f.2.2
      ((acc.1 + f.1 * b.1) % 2 ^ 64, (f.2.1, b.2.1), b.2.2))
    (0, ([], []), [])
  (r.1, r.2.2)

/-- Ascending sort of one adjacency list (`sort.Slice` with `<`). -/
def sortAsc (l : List Nat) : List Nat :=
  List.insertionSort (· ≤ ·) l

/-- The `Graph` record returned by a search.  `pathCount` is Go's
`PathCount int`: the field holds the two's-complement bit pattern of the
wrapping 64-bit counter, as a `Nat` below `2 ^ 64` (the `PathCount != 0`
test Go performs is a test of that bit pattern). -/
structure Graph where
  languageCode : String
  links : List (Nat × List Nat)
  pathCount : Nat
  pathDegrees : Nat
  sourceId : Nat
  targetId : Nat
  sourceIsRedir : Bool
  targetIsRedir : Bool
deriving DecidableEq

/-- `getShortestPaths` with explicit fuel for the two loops. -/
def getShortestPathsWith (store : Store) (langCode : String) (source target : Nat)
    (loopFuel exFuel : Nat) : Graph :=
  let srcRedir := store.redirect source
  let s1 := if srcRedir ≠ 0 then srcRedir else source
  let tgtRedir := store.redirect target
  let t1 := if tgtRedir ≠ 0 then tgtRedir else target
  let st0 : BfsState :=
    { fp := [(s1, [])], bp := [(t1, [])], fq := [s1], bq := [t1],
      ovl := if s1 = t1 then [s1] else [], fd := 0, bd := 0 }
  let st1 := bfsLoop store loopFuel st0
  let bt := backtrack st1 exFuel
  { languageCode := langCode
    links := bt.2.map fun e => (e.1, sortAsc e.2)
    pathCount := bt.1
    pathDegrees := if bt.1 ≠ 0 then st1.fd + st1.bd else 0
    sourceId := s1
    targetId := t1
    sourceIsRedir := decide (srcRedir ≠ 0)
    targetIsRedir := decide (tgtRedir ≠ 0) }

/-- `getShortestPaths` (`database.go` line 163): the fuel values are sized
from the store's finite support; the correctness proof shows they are never
exhausted. -/
def getShortestPaths (store : Store) (langCode : String) (source target : Nat) : Graph :=
  getShortestPathsWith store langCode source target
    (2 * store.nodes.length + 2) (store.nodes.length + 1)

/-! ### Reference notions: walks, distance and path counting -/

/-- There is a walk of exactly `n` edges from `s` to `v` along `out`. -/
def pathLen (out : Nat → List Nat) (s : Nat) : Nat → Nat → Prop
  | 0, v => v = s
  | n + 1, v => ∃ u, pathLen out s n u ∧ v ∈ out u

/-- `d` is the length of a shortest walk from `s` to `v`. -/
def IsDist (out : Nat → List Nat) (s v d : Nat) : Prop :=
  pathLen out s d v ∧ ∀ m < d, ¬pathLen out s m v

/-- The number of distinct length-`n` paths from `v` to `t` (steps go to
distinct successors, so duplicated adjacency entries do not double count). -/
def nPathsFrom (out : Nat → List Nat) (t : Nat) : Nat → Nat → Nat
  | 0, v => if v = t then 1 else 0
  | n + 1, v => ((dedupFirst (out v)).map (nPathsFrom out t n)).sum

/-- All distinct length-`n` paths from `v` to `t` as explicit node
sequences. -/
def pathsEnum (out : Nat → List Nat) (t : Nat) : Nat → Nat → List (List Nat)
  | 0, v => if v = t then [[v]] else []
  | n + 1, v =>
    (dedupFirst (out v)).flatMap fun w => (pathsEnum out t n w).map fun l => v :: l

/-- One adjacency list as a JSON array. -/
def jsonList (l : List Nat) : String :=
  "[" ++ String.intercalate "," (l.map toString) ++ "]"

/-- Rendering of a `Graph` as Go's `encoding/json` produces it: struct
fields in declaration order, map keys sorted by their decimal string form
(the order `encoding/json` applies to map keys).  String escaping is elided;
it plays no role in determinism. -/
def graphJson (g : Graph) : String :=
  let pairs := List.insertionSort (fun a b => a.1 ≤ b.1)
    (g.links.map fun e => ((toString e.1 : String), e.2))
  "\x7b\"languageCode\":\"" ++ g.languageCode ++ "\",\"links\":\x7b" ++
    String.intercalate "," (pairs.map fun e => "\"" ++ e.1 ++ "\":" ++ jsonList e.2) ++
    "\x7d,\"pathCount\":" ++ toString g.pathCount ++
    ",\"pathDegrees\":" ++ toString g.pathDegrees ++
    ",\"sourceId\":" ++ toString g.sourceId ++
    ",\"targetId\":" ++ toString g.targetId ++
    ",\"sourceIsRedir\":" ++ (if g.sourceIsRedir then "true" else "false") ++
    ",\"targetIsRedir\":" ++ (if g.targetIsRedir then "true" else "false") ++ "\x7d"

/-- C7: two invocations of the search on the same database content, language
code, source and target return equal `Graph` values which serialize to
byte-identical JSON, and every adjacency list in `links` has been sorted
ascending before return.  (The Go map iteration nondeterminism is resolved
by the final sort; the embedding fixes insertion order for map iteration.) -/
theorem search_deterministic (store : Store) (lang : String) (s t : Nat)
    (g g2 : Graph) (h1 : g = getShortestPaths store lang s t)
    (h2 : g2 = getShortestPaths store lang s t) :
    g = g2 ∧ graphJson g = graphJson g2 ∧
      ∀ k l, alookup g.links k = some l → l.Sorted (· ≤ ·) := by
  have heq : g = g2 := h1.trans h2.symm
  refine ⟨heq, by rw [heq], ?_⟩
  intro k l hl
  rw [h1] at hl
  unfold getShortestPaths getShortestPathsWith at hl
  rw [alookup_map_value] at hl
  rcases hx : alookup (backtrack
      (bfsLoop store (2 * store.nodes.length + 2) _) (store.nodes.length + 1)).2 k with
    _ | raw
  · rw [hx] at hl
    cases hl
  · rw [hx] at hl
    cases hl
    exact List.sorted_insertionSort _ raw

/-- C7 witness: the one-edge store. -/
theorem search_deterministic_witness :
    getShortestPaths ⟨[1, 2], fun _ => 0,
        fun v => if v = 1 then [2] else [], fun v => if v = 2 then [1] else []⟩ "en" 1 2 =
      getShortestPaths ⟨[1, 2], fun _ => 0,
        fun v => if v = 1 then [2] else [], fun v => if v = 2 then [1] else []⟩ "en" 1 2 ∧
      graphJson (getShortestPaths ⟨[1, 2], fun _ => 0,
        fun v => if v = 1 then [2] else [], fun v => if v = 2 then [1] else []⟩ "en" 1 2) =
        graphJson (getShortestPaths ⟨[1, 2], fun _ => 0,
          fun v => if v = 1 then [2] else [], fun v => if v = 2 then [1] else []⟩ "en" 1 2) ∧
      ∀ k l, alookup (getShortestPaths ⟨[1, 2], fun _ => 0,
          fun v => if v = 1 then [2] else [],
          fun v => if v = 2 then [1] else []⟩ "en" 1 2).links k = some l →
        l.Sorted (· ≤ ·) :=
  search_deterministic _ "en" 1 2 _ _ rfl rfl

/-- The stored graph's adjacency tables are mutually consistent (this is the
build invariant proved as C4). -/
def StoreConsistent (store : Store) : Prop :=
  ∀ v u, u ∈ store.inc v ↔ v ∈ store.out u

/-- Every page with an adjacency row, and every page appearing inside one,
is listed in `nodes` (the pages table, which bounds the loop fuel). -/
def StoreFinite (store : Store) : Prop :=
  (∀ v, ∀ w ∈ store.out v, v ∈ store.nodes ∧ w ∈ store.nodes) ∧
  (∀ v, ∀ w ∈ store.inc v, v ∈ store.nodes ∧ w ∈ store.nodes)

/-! ### Walk and distance theory -/

theorem pathLen_zero (out : Nat → List Nat) (s v : Nat) :
    pathLen out s 0 v ↔ v = s := Iff.rfl

theorem pathLen_succ (out : Nat → List Nat) (s v : Nat) (n : Nat) :
    pathLen out s (n + 1) v ↔ ∃ u, pathLen out s n u ∧ v ∈ out u := Iff.rfl

/-- Walks can also be peeled at the front. -/
theorem pathLen_succ_front (out : Nat → List Nat) (s v : Nat) (n : Nat) :
    pathLen out s (n + 1) v ↔ ∃ u ∈ out s, pathLen out u n v := by
  induction n generalizing v with
  | zero =>
    constructor
    · rintro ⟨u, hu, hv⟩
      rw [pathLen_zero] at hu
      exact ⟨v, by rw [hu] at hv; exact hv, rfl⟩
    · rintro ⟨u, hu, hv⟩
      rw [pathLen_zero] at hv
      exact ⟨s, rfl, by rw [hv]; exact hu⟩
  | succ m ih =>
    constructor
    · rintro ⟨u, hu, hv⟩
      obtain ⟨w, hw, hu2⟩ := (ih u).mp hu
      exact ⟨w, hw, u, hu2, hv⟩
    · rintro ⟨u, hu, w, hw, hv⟩
      exact ⟨w, (ih w).mpr ⟨u, hu, hw⟩, hv⟩

/-- Concatenation and splitting of walks. -/
theorem pathLen_append (out : Nat → List Nat) (s v : Nat) (a b : Nat) :
    pathLen out s (a + b) v ↔ ∃ u, pathLen out s a u ∧ pathLen out u b v := by
  induction b generalizing v with
  | zero =>
    constructor
    · intro h
      exact ⟨v, h, rfl⟩
    · rintro ⟨u, hu, hv⟩
      rw [pathLen_zero] at hv
      rw [hv]
      exact hu
  | succ m ih =>
    constructor
    · rintro ⟨u, hu, hv⟩
      obtain ⟨w2, hw2, hu2⟩ := (ih u).mp hu
      exact ⟨w2, hw2, u, hu2, hv⟩
    · rintro ⟨u, hu, w2, hw2, hv⟩
      exact ⟨w2, (ih w2).mpr ⟨u, hu, hw2⟩, hv⟩

/-- Reachability yields a well-defined distance. -/
theorem exists_isDist (out : Nat → List Nat) (s v : Nat) (n : Nat)
    (h : pathLen out s n v) : ∃ d, IsDist out s v d := by
  classical
  have hex : ∃ m, pathLen out s m v := ⟨n, h⟩
  exact ⟨Nat.find hex, Nat.find_spec hex, fun m hm => Nat.find_min hex hm⟩

theorem isDist_unique (out : Nat → List Nat) (s v : Nat) (d d2 : Nat)
    (h1 : IsDist out s v d) (h2 : IsDist out s v d2) : d = d2 := by
  by_contra hne
  rcases Nat.lt_or_ge d d2 with h | h
  · exact h2.2 d h h1.1
  · rcases Nat.lt_or_ge d2 d with h3 | h3
    · exact h1.2 d2 h3 h2.1
    · omega

theorem isDist_le_of_pathLen (out : Nat → List Nat) (s v : Nat) (n d : Nat)
    (hd : IsDist out s v d) (h : pathLen out s n v) : d ≤ n := by
  by_contra hlt
  exact hd.2 n (by omega) h

/-- On a geodesic every prefix endpoint sits at its exact distance. -/
theorem isDist_prefix_exists (out : Nat → List Nat) (s v : Nat) (d j : Nat)
    (hd : IsDist out s v d) (hj : j ≤ d) :
    ∃ w, IsDist out s w j ∧ pathLen out w (d - j) v := by
  obtain ⟨u, hu, hv⟩ := (pathLen_append out s v j (d - j)).mp
    (by rw [Nat.add_sub_cancel' hj]; exact hd.1)
  obtain ⟨m, hm⟩ := exists_isDist out s u j hu
  have hmj : m ≤ j := isDist_le_of_pathLen out s u j m hm hu
  have hmeq : m = j := by
    by_contra hne
    have hlt : m < j := by omega
    have hwalk : pathLen out s (m + (d - j)) v :=
      (pathLen_append out s v m (d - j)).mpr ⟨u, hm.1, hv⟩
    exact hd.2 (m + (d - j)) (by omega) hwalk
  rw [hmeq] at hm
  exact ⟨u, hm, hv⟩

/-- Distance to a ball of radius `F`: the breadth-first layer recurrence. -/
theorem isDist_succ_iff (out : Nat → List Nat) (s v : Nat) (F : Nat) :
    IsDist out s v (F + 1) ↔
      (¬∃ d, d ≤ F ∧ IsDist out s v d) ∧ ∃ u, IsDist out s u F ∧ v ∈ out u := by
  constructor
  · intro h
    constructor
    · rintro ⟨d, hdF, hd⟩
      have := isDist_unique out s v (F + 1) d h hd
      omega
    · obtain ⟨u, hu, hv⟩ := h.1
      obtain ⟨m, hm⟩ := exists_isDist out s u F hu
      have hmF : m ≤ F := isDist_le_of_pathLen out s u F m hm hu
      have hmeq : m = F := by
        by_contra hne
        exact h.2 (m + 1) (by omega) ⟨u, hm.1, hv⟩
      rw [hmeq] at hm
      exact ⟨u, hm, hv⟩
  · rintro ⟨hnot, u, hu, hv⟩
    refine ⟨⟨u, hu.1, hv⟩, ?_⟩
    intro m hm hwalk
    obtain ⟨d, hd⟩ := exists_isDist out s v m hwalk
    have hdm : d ≤ m := isDist_le_of_pathLen out s v m d hd hwalk
    exact hnot ⟨d, by omega, hd⟩

/-- Membership of a ball, phrased through walks. -/
theorem ball_iff_walk (out : Nat → List Nat) (s v : Nat) (F : Nat) :
    (∃ d, d ≤ F ∧ IsDist out s v d) ↔ ∃ n, n ≤ F ∧ pathLen out s n v := by
  constructor
  · rintro ⟨d, hdF, hd⟩
    exact ⟨d, hdF, hd.1⟩
  · rintro ⟨n, hnF, hn⟩
    obtain ⟨d, hd⟩ := exists_isDist out s v n hn
    exact ⟨d, le_trans (isDist_le_of_pathLen out s v n d hd hn) hnF, hd⟩

/-- Nonempty sphere below a realized distance. -/
theorem sphere_nonempty_of_le (out : Nat → List Nat) (s v : Nat) (d j : Nat)
    (hd : IsDist out s v d) (hj : j ≤ d) : ∃ w, IsDist out s w j := by
  obtain ⟨w, hw, _⟩ := isDist_prefix_exists out s v d j hd hj
  exact ⟨w, hw⟩

/-- The walk correspondence between the two sides of the search: under the
adjacency-symmetry invariant, a backward walk along `inc` is a forward walk
along `out` read from the other end. -/
theorem pathLen_inc_iff (store : Store) (hcons : StoreConsistent store)
    (t : Nat) (n : Nat) (v : Nat) :
    pathLen store.inc t n v ↔ pathLen store.out v n t := by
  induction n generalizing v with
  | zero =>
    rw [pathLen_zero, pathLen_zero]
    exact ⟨fun h => h.symm, fun h => h.symm⟩
  | succ m ih =>
    rw [pathLen_succ, pathLen_succ_front]
    constructor
    · rintro ⟨u, hu, hv⟩
      exact ⟨u, (hcons u v).mp hv, (ih u).mp hu⟩
    · rintro ⟨u, hu, hv⟩
      exact ⟨u, (ih u).mpr hv, (hcons u v).mpr hu⟩

/-! ### Counting shortest paths -/

theorem dedupFirstAux_nodup (l seen : List Nat) :
    (dedupFirstAux seen l).Nodup ∧ ∀ x ∈ dedupFirstAux seen l, x ∉ seen := by
  induction l generalizing seen with
  | nil => exact ⟨List.nodup_nil, by intro x hx; cases hx⟩
  | cons p ps ih =>
    by_cases hp : p ∈ seen
    · rw [dedupFirstAux, if_pos hp]
      exact ⟨(ih seen).1, (ih seen).2⟩
    · rw [dedupFirstAux, if_neg hp]
      refine ⟨List.nodup_cons.mpr ⟨?_, (ih (p :: seen)).1⟩, ?_⟩
      · intro hmem
        exact (ih (p :: seen)).2 p hmem (List.mem_cons_self p seen)
      · intro x hx hxs
        rcases List.mem_cons.mp hx with h | h
        · exact hp (h ▸ hxs)
        · exact (ih (p :: seen)).2 x h (List.mem_cons_of_mem p hxs)

theorem dedupFirst_nodup (l : List Nat) : (dedupFirst l).Nodup :=
  (dedupFirstAux_nodup l []).1

theorem sum_map_add_distrib (L : List Nat) (f g : Nat → Nat) :
    (L.map fun x => f x + g x).sum = (L.map f).sum + (L.map g).sum := by
  induction L with
  | nil => rfl
  | cons a L ih => simp only [List.map_cons, List.sum_cons, ih]; omega

theorem sum_map_mul_right_distrib (L : List Nat) (f : Nat → Nat) (b : Nat) :
    (L.map fun x => f x * b).sum = (L.map f).sum * b := by
  induction L with
  | nil => simp
  | cons a L ih => simp only [List.map_cons, List.sum_cons, ih, Nat.add_mul]

/-- Exchange of a double list sum. -/
theorem sum_map_comm (L1 L2 : List Nat) (f : Nat → Nat → Nat) :
    (L1.map fun w => (L2.map fun m => f w m).sum).sum =
      (L2.map fun m => (L1.map fun w => f w m).sum).sum := by
  induction L1 with
  | nil =>
    simp only [List.map_nil, List.sum_nil]
    induction L2 with
    | nil => rfl
    | cons b L2 ih2 =>
      simp only [List.map_cons, List.sum_cons, ← ih2]
      omega
  | cons a L1 ih =>
    simp only [List.map_cons, List.sum_cons, ih]
    rw [← sum_map_add_distrib]

theorem sum_indicator_left (M : List Nat) (hM : M.Nodup) (v : Nat) (f : Nat → Nat) :
    (M.map fun m => (if v = m then 1 else 0) * f m).sum = if v ∈ M then f v else 0 := by
  induction M with
  | nil => simp
  | cons a M ih =>
    rcases List.nodup_cons.mp hM with ⟨ha, hM2⟩
    by_cases hv : v = a
    · subst hv
      rw [List.map_cons, List.sum_cons, if_pos rfl, one_mul,
        if_pos (List.mem_cons_self v M), ih hM2, if_neg ha]
      omega
    · rw [List.map_cons, List.sum_cons, if_neg hv, zero_mul, Nat.zero_add, ih hM2]
      by_cases hvM : v ∈ M
      · rw [if_pos hvM, if_pos (List.mem_cons_of_mem a hvM)]
      · have hnm : v ∉ a :: M := by
          intro hmem
          rcases List.mem_cons.mp hmem with h | h
          · exact hv h
          · exact hvM h
        rw [if_neg hvM, if_neg hnm]

theorem sum_indicator_mem (M : List Nat) (hM : M.Nodup) (v : Nat) :
    (M.map fun w => if w = v then 1 else 0).sum = if v ∈ M then 1 else 0 := by
  have h := sum_indicator_left M hM v (fun _ => 1)
  simp only [mul_one] at h
  rw [← h]
  apply congrArg
  apply List.map_congr_left
  intro a _
  by_cases hva : v = a
  · rw [if_pos hva, if_pos hva.symm]
  · rw [if_neg hva, if_neg (fun h2 => hva h2.symm)]

/-- A list sum restricted to the indices with nonzero terms. -/
theorem sum_map_eq_of_sub (L l : List Nat) (f : Nat → Nat)
    (hL : L.Nodup) (hl : l.Nodup) (hsub : ∀ x ∈ l, x ∈ L)
    (hzero : ∀ x ∈ L, x ∉ l → f x = 0) :
    (L.map f).sum = (l.map f).sum := by
  induction L generalizing l with
  | nil =>
    cases l with
    | nil => rfl
    | cons a l2 => exact absurd (hsub a (List.mem_cons_self a l2)) (by intro h; cases h)
  | cons a L ih =>
    rcases List.nodup_cons.mp hL with ⟨haL, hLnd⟩
    by_cases hal : a ∈ l
    · have hperm : l.Perm (a :: l.erase a) := List.perm_cons_erase hal
      have hsum : (l.map f).sum = ((a :: l.erase a).map f).sum :=
        List.Perm.sum_eq (List.Perm.map f hperm)
      rw [hsum]
      simp only [List.map_cons, List.sum_cons]
      have hrec := ih (l.erase a) hLnd (hl.erase a) ?_ ?_
      · omega
      · intro x hx
        have hxl : x ∈ l := List.mem_of_mem_erase hx
        have hxa : x ≠ a := by
          intro h
          subst h
          exact (List.Nodup.not_mem_erase hl) hx
        rcases List.mem_cons.mp (hsub x hxl) with h | h
        · exact absurd h hxa
        · exact h
      · intro x hxL hxe
        apply hzero x (List.mem_cons_of_mem a hxL)
        intro hxl
        apply hxe
        apply (List.mem_erase_of_ne ?_).mpr hxl
        intro h
        subst h
        exact haL hxL
    · simp only [List.map_cons, List.sum_cons]
      rw [hzero a (List.mem_cons_self a L) hal, Nat.zero_add]
      apply ih l hLnd hl
      · intro x hx
        rcases List.mem_cons.mp (hsub x hx) with h | h
        · subst h; exact absurd hx hal
        · exact h
      · intro x hxL hxl
        exact hzero x (List.mem_cons_of_mem a hxL) hxl

theorem sum_map_ne_zero_iff (L : List Nat) (f : Nat → Nat) :
    (L.map f).sum ≠ 0 ↔ ∃ x ∈ L, f x ≠ 0 := by
  induction L with
  | nil => simp
  | cons a L ih =>
    simp only [List.map_cons, List.sum_cons, List.mem_cons]
    constructor
    · intro h
      by_cases ha : f a = 0
      · rw [ha, Nat.zero_add] at h
        obtain ⟨x, hx, hfx⟩ := ih.mp h
        exact ⟨x, Or.inr hx, hfx⟩
      · exact ⟨a, Or.inl rfl, ha⟩
    · rintro ⟨x, hx | hx, hfx⟩
      · subst hx; omega
      · have := ih.mpr ⟨x, hx, hfx⟩
        omega

/-- A sum may be wrapped term by term: the bit pattern is unchanged. -/
theorem sum_map_mod (l : List Nat) (f : Nat → Nat) (M : Nat) :
    (l.map fun x => f x % M).sum % M = (l.map f).sum % M := by
  induction l with
  | nil => rfl
  | cons a l ih =>
    simp only [List.map_cons, List.sum_cons]
    rw [Nat.add_mod, Nat.mod_mod_of_dvd (f a) dvd_rfl, ih, ← Nat.add_mod]

/-- A sum of products may be wrapped factor by factor. -/
theorem sum_map_mul_mod (l : List Nat) (f g : Nat → Nat) (M : Nat) :
    (l.map fun x => (f x % M) * (g x % M)).sum % M =
      (l.map fun x => f x * g x).sum % M := by
  induction l with
  | nil => rfl
  | cons a l ih =>
    simp only [List.map_cons, List.sum_cons]
    rw [Nat.add_mod, ih, ← Nat.mul_mod, ← Nat.add_mod]

/-- A path is counted iff a walk of that length exists. -/
theorem nPathsFrom_ne_zero_iff (out : Nat → List Nat) (t : Nat) (n v : Nat) :
    nPathsFrom out t n v ≠ 0 ↔ pathLen out v n t := by
  induction n generalizing v with
  | zero =>
    rw [nPathsFrom, pathLen_zero]
    by_cases h : v = t
    · rw [if_pos h]
      subst h
      exact ⟨fun _ => rfl, fun _ => one_ne_zero⟩
    · rw [if_neg h]
      exact ⟨fun h2 => absurd rfl h2, fun h2 => absurd h2.symm h⟩
  | succ m ih =>
    rw [nPathsFrom, pathLen_succ_front, sum_map_ne_zero_iff]
    constructor
    · rintro ⟨w, hw, hfw⟩
      exact ⟨w, (mem_dedupFirst (out v) w).mp hw, (ih w).mp hfw⟩
    · rintro ⟨w, hw, hfw⟩
      exact ⟨w, (mem_dedupFirst (out v) w).mpr hw, (ih w).mpr hfw⟩

/-- A single step counts 1 exactly on an edge. -/
theorem nPathsFrom_one (out : Nat → List Nat) (v m : Nat) :
    nPathsFrom out v 1 m = if v ∈ out m then 1 else 0 := by
  rw [nPathsFrom]
  have h : ((dedupFirst (out m)).map (nPathsFrom out v 0)).sum =
      ((dedupFirst (out m)).map fun w => if w = v then 1 else 0).sum := by
    apply congrArg
    apply List.map_congr_left
    intro w _
    rw [nPathsFrom]
  rw [h, sum_indicator_mem (dedupFirst (out m)) (dedupFirst_nodup (out m)) v]
  by_cases hv : v ∈ out m
  · rw [if_pos ((mem_dedupFirst (out m) v).mpr hv), if_pos hv]
  · rw [if_neg (fun h2 => hv ((mem_dedupFirst (out m) v).mp h2)), if_neg hv]

/-- Splitting the path count at an intermediate level: summing over any
duplicate-free list containing every possible midpoint. -/
theorem nPathsFrom_split (out : Nat → List Nat) (t v : Nat) (a b : Nat)
    (M : List Nat) (hM : M.Nodup)
    (hmid : ∀ m, pathLen out v a m → pathLen out m b t → m ∈ M) :
    nPathsFrom out t (a + b) v =
      (M.map fun m => nPathsFrom out m a v * nPathsFrom out t b m).sum := by
  induction a generalizing v M with
  | zero =>
    rw [Nat.zero_add]
    have h : (M.map fun m => nPathsFrom out m 0 v * nPathsFrom out t b m).sum =
        (M.map fun m => (if v = m then 1 else 0) * nPathsFrom out t b m).sum := by
      apply congrArg
      apply List.map_congr_left
      intro m _
      rw [nPathsFrom]
    rw [h, sum_indicator_left M hM v]
    by_cases hv : v ∈ M
    · rw [if_pos hv]
    · rw [if_neg hv]
      by_contra hne
      exact hv (hmid v rfl ((nPathsFrom_ne_zero_iff out t b v).mp fun h0 => hne h0))
  | succ a2 ih =>
    have hrw : a2 + 1 + b = (a2 + b) + 1 := by omega
    rw [hrw, nPathsFrom]
    have hthis : ∀ w ∈ dedupFirst (out v), nPathsFrom out t (a2 + b) w =
        (M.map fun m => nPathsFrom out m a2 w * nPathsFrom out t b m).sum := by
      intro w hw
      apply ih w M hM
      intro m hm1 hm2
      apply hmid m ?_ hm2
      exact (pathLen_succ_front out v m a2).mpr
        ⟨w, (mem_dedupFirst (out v) w).mp hw, hm1⟩
    rw [List.map_congr_left hthis, sum_map_comm]
    apply congrArg
    apply List.map_congr_left
    intro m _
    rw [sum_map_mul_right_distrib, nPathsFrom]

/-- Backward-side counting recursion: the number of geodesics from `v` to `t`
is the sum over the out-neighbours one backward level closer. -/
theorem nPathsFrom_layer_rec (store : Store) (hcons : StoreConsistent store)
    (t v : Nat) (d : Nat) (hd : IsDist store.inc t v d) (hd1 : 1 ≤ d)
    (l : List Nat) (hl : l.Nodup)
    (hchar : ∀ u, u ∈ l ↔ (IsDist store.inc t u (d - 1) ∧ u ∈ store.out v)) :
    nPathsFrom store.out t d v =
      (l.map fun u => nPathsFrom store.out t (d - 1) u).sum := by
  have hrw : d = (d - 1) + 1 := by omega
  rw [hrw, nPathsFrom]
  apply sum_map_eq_of_sub (dedupFirst (store.out v)) l _
    (dedupFirst_nodup (store.out v)) hl
  · intro x hx
    exact (mem_dedupFirst (store.out v) x).mpr ((hchar x).mp hx).2
  · intro w hw hwl
    have hwout : w ∈ store.out v := (mem_dedupFirst (store.out v) w).mp hw
    by_contra hne
    have hwalk : pathLen store.out w (d - 1) t :=
      (nPathsFrom_ne_zero_iff store.out t (d - 1) w).mp hne
    have hwalk2 : pathLen store.inc t (d - 1) w :=
      (pathLen_inc_iff store hcons t (d - 1) w).mpr hwalk
    obtain ⟨e, he⟩ := exists_isDist store.inc t w (d - 1) hwalk2
    have heB : e ≤ d - 1 := isDist_le_of_pathLen store.inc t w (d - 1) e he hwalk2
    have heq : e = d - 1 := by
      by_contra hne2
      have hstep : pathLen store.inc t (e + 1) v :=
        ⟨w, he.1, (hcons w v).mpr hwout⟩
      exact hd.2 (e + 1) (by omega) hstep
    rw [heq] at he
    exact hwl ((hchar w).mpr ⟨he, hwout⟩)

/-- Forward-side counting recursion: the number of geodesics from `s` to `v`
is the sum over the in-neighbours one forward level closer. -/
theorem nPathsFrom_last_edge (out : Nat → List Nat) (s v : Nat) (d : Nat)
    (hd : IsDist out s v d) (hd1 : 1 ≤ d) (l : List Nat) (hl : l.Nodup)
    (hchar : ∀ u, u ∈ l ↔ (IsDist out s u (d - 1) ∧ v ∈ out u)) :
    nPathsFrom out v d s = (l.map fun u => nPathsFrom out u (d - 1) s).sum := by
  have hrw : d = (d - 1) + 1 := by omega
  conv_lhs => rw [hrw]
  have hsplit := nPathsFrom_split out v s (d - 1) 1 l hl ?_
  · rw [hsplit]
    apply congrArg
    apply List.map_congr_left
    intro u hu
    rw [nPathsFrom_one out v u, if_pos ((hchar u).mp hu).2, mul_one]
  · intro m hm1 hm2
    obtain ⟨u2, hu2, hedge⟩ := hm2
    rw [pathLen_zero] at hu2
    rw [hu2] at hedge
    obtain ⟨e, he⟩ := exists_isDist out s m (d - 1) hm1
    have heF : e ≤ d - 1 := isDist_le_of_pathLen out s m (d - 1) e he hm1
    have heq : e = d - 1 := by
      by_contra hne2
      have hstep : pathLen out s (e + 1) v := ⟨m, he.1, hedge⟩
      exact hd.2 (e + 1) (by omega) hstep
    rw [heq] at he
    exact (hchar m).mpr ⟨he, hedge⟩

/-! ### The path enumeration is a faithful counting -/

theorem pathsEnum_length (out : Nat → List Nat) (t : Nat) (n v : Nat) :
    (pathsEnum out t n v).length = nPathsFrom out t n v := by
  induction n generalizing v with
  | zero =>
    rw [pathsEnum, nPathsFrom]
    by_cases h : v = t
    · rw [if_pos h, if_pos h]
      rfl
    · rw [if_neg h, if_neg h]
      rfl
  | succ m ih =>
    rw [pathsEnum, nPathsFrom, List.length_flatMap]
    apply congrArg
    apply List.map_congr_left
    intro w _
    simp only [Function.comp_apply, List.length_map]
    exact ih w

theorem pathsEnum_head (out : Nat → List Nat) (t : Nat) (n v : Nat) (l : List Nat)
    (h : l ∈ pathsEnum out t n v) : l.head? = some v := by
  cases n with
  | zero =>
    rw [pathsEnum] at h
    by_cases hv : v = t
    · rw [if_pos hv] at h
      rcases List.mem_singleton.mp h with rfl
      rfl
    · rw [if_neg hv] at h
      cases h
  | succ m =>
    rw [pathsEnum, List.mem_flatMap] at h
    obtain ⟨w, _, hmem⟩ := h
    obtain ⟨l2, _, rfl⟩ := List.mem_map.mp hmem
    rfl

/-- Membership in the enumeration characterizes exactly the walks recorded
as node sequences. -/
theorem mem_pathsEnum (out : Nat → List Nat) (t : Nat) (n v : Nat) (l : List Nat) :
    l ∈ pathsEnum out t n v ↔
      (l.length = n + 1 ∧ l.head? = some v ∧ l.getLast? = some t ∧
        l.Chain' (fun a b => b ∈ out a)) := by
  induction n generalizing v l with
  | zero =>
    rw [pathsEnum]
    constructor
    · intro h
      by_cases hv : v = t
      · rw [if_pos hv] at h
        rcases List.mem_singleton.mp h with rfl
        exact ⟨rfl, rfl, by rw [hv, List.getLast?_singleton], List.chain'_singleton v⟩
      · rw [if_neg hv] at h
        cases h
    · rintro ⟨hlen, hhead, hlast, _⟩
      match l, hlen with
      | [x], _ =>
        rw [List.head?_cons] at hhead
        rw [List.getLast?_singleton] at hlast
        have h1 : x = v := Option.some.inj hhead
        have h2 : x = t := Option.some.inj hlast
        subst h1
        rw [if_pos h2]
        exact List.mem_singleton.mpr rfl
  | succ m ih =>
    rw [pathsEnum, List.mem_flatMap]
    constructor
    · rintro ⟨w, hw, hmem⟩
      obtain ⟨l2, hl2, rfl⟩ := List.mem_map.mp hmem
      obtain ⟨hlen, hhead, hlast, hchain⟩ := (ih w l2).mp hl2
      refine ⟨by rw [List.length_cons, hlen], rfl, ?_, ?_⟩
      · cases l2 with
        | nil => cases hhead
        | cons x l3 =>
          rw [List.getLast?_cons_cons]
          exact hlast
      · rw [List.chain'_cons']
        refine ⟨?_, hchain⟩
        intro b hb
        rw [hhead] at hb
        cases hb
        exact (mem_dedupFirst (out v) w).mp hw
    · rintro ⟨hlen, hhead, hlast, hchain⟩
      match l, hlen with
      | x :: l2, hlen =>
        cases hhead
        have hl2ne : l2 ≠ [] := by
          intro h
          subst h
          simp at hlen
        match l2, hl2ne with
        | w :: l3, _ =>
          rcases List.chain'_cons'.mp hchain with ⟨hedge, hchain2⟩
          have hwe : w ∈ out v := hedge w rfl
          refine ⟨w, (mem_dedupFirst (out v) w).mpr hwe, ?_⟩
          apply List.mem_map.mpr
          refine ⟨w :: l3, (ih w (w :: l3)).mpr ⟨?_, rfl, ?_, hchain2⟩, rfl⟩
          · simp only [List.length_cons] at hlen ⊢
            omega
          · rw [List.getLast?_cons_cons] at hlast
            exact hlast

/-- The enumerated paths are pairwise distinct. -/
theorem pathsEnum_nodup (out : Nat → List Nat) (t : Nat) (n v : Nat) :
    (pathsEnum out t n v).Nodup := by
  induction n generalizing v with
  | zero =>
    rw [pathsEnum]
    by_cases hv : v = t
    · rw [if_pos hv]
      exact List.nodup_singleton [v]
    · rw [if_neg hv]
      exact List.nodup_nil
  | succ m ih =>
    rw [pathsEnum]
    have hM : (dedupFirst (out v)).Nodup := dedupFirst_nodup (out v)
    generalize dedupFirst (out v) = M at hM ⊢
    induction M with
    | nil => exact List.nodup_nil
    | cons w M ihM =>
      rcases List.nodup_cons.mp hM with ⟨hwM, hMnd⟩
      rw [List.flatMap_cons, List.nodup_append]
      refine ⟨?_, ihM hMnd, ?_⟩
      · apply List.Nodup.map _ (ih w)
        intro a b hab
        cases hab
        rfl
      · intro x hx hx2
        obtain ⟨l2, hl2, rfl⟩ := List.mem_map.mp hx
        rw [List.mem_flatMap] at hx2
        obtain ⟨w2, hw2, hmem2⟩ := hx2
        obtain ⟨l3, hl3, heq⟩ := List.mem_map.mp hmem2
        have h1 : l2.head? = some w := pathsEnum_head out t m w l2 hl2
        have h2 : l3.head? = some w2 := pathsEnum_head out t m w2 l3 hl3
        have hll : l3 = l2 := by
          have := congrArg List.tail heq
          simpa using this
        rw [hll, h1] at h2
        cases h2
        exact hwM hw2

/-! ### The breadth-first expansion invariant -/

theorem mem_setInsert (l : List Nat) (x y : Nat) :
    y ∈ setInsert l x ↔ y ∈ l ∨ y = x := by
  rw [setInsert]
  by_cases hx : x ∈ l
  · rw [if_pos hx]
    constructor
    · exact Or.inl
    · rintro (h | h)
      · exact h
      · exact h ▸ hx
  · rw [if_neg hx, List.mem_append, List.mem_singleton]

theorem setInsert_nodup (l : List Nat) (x : Nat) (h : l.Nodup) :
    (setInsert l x).Nodup := by
  rw [setInsert]
  by_cases hx : x ∈ l
  · rw [if_pos hx]
    exact h
  · rw [if_neg hx]
    exact List.Nodup.append h (List.nodup_singleton x)
      (by intro a ha hx2; rw [List.mem_singleton] at hx2; exact hx (hx2 ▸ ha))

theorem alookup_parentInsert_self (np : List (Nat × List Nat)) (child parent : Nat) :
    alookup (parentInsert np child parent) child =
      match alookup np child with
      | some l => some (setInsert l parent)
      | none => some [parent] := by
  unfold parentInsert
  rcases h : alookup np child with _ | l
  · show alookup (np ++ [(child, [parent])]) child = some [parent]
    rw [alookup_append_fresh np child child [parent] h, if_pos rfl]
  · show alookup (np.map fun e => if e.1 = child then (e.1, setInsert e.2 parent) else e)
        child = some (setInsert l parent)
    have h3 := alookup_map_upd np (fun l2 => setInsert l2 parent) child child
    rw [if_pos rfl, h] at h3
    exact h3

theorem alookup_parentInsert_ne (np : List (Nat × List Nat)) (child parent k : Nat)
    (hk : k ≠ child) :
    alookup (parentInsert np child parent) k = alookup np k := by
  unfold parentInsert
  rcases h : alookup np child with _ | l
  · show alookup (np ++ [(child, [parent])]) k = alookup np k
    rw [alookup_append_fresh np child k [parent] h, if_neg hk]
  · show alookup (np.map fun e => if e.1 = child then (e.1, setInsert e.2 parent) else e)
        k = alookup np k
    have h3 := alookup_map_upd np (fun l2 => setInsert l2 parent) child k
    rw [if_neg hk] at h3
    exact h3

theorem parentInsert_keys (np : List (Nat × List Nat)) (child parent : Nat)
    (h : (np.map Prod.fst).Nodup) :
    ((parentInsert np child parent).map Prod.fst).Nodup := by
  unfold parentInsert
  rcases h2 : alookup np child with _ | l
  · show ((np ++ [(child, [parent])]).map Prod.fst).Nodup
    rw [List.map_append]
    apply List.Nodup.append h (List.nodup_singleton child)
    intro a ha ha2
    rw [List.mem_singleton] at ha2
    subst ha2
    rw [alookup_eq_none_iff] at h2
    exact h2 ha
  · show (((np.map fun e => if e.1 = child then (e.1, setInsert e.2 parent) else e)).map
        Prod.fst).Nodup
    have hkeys : ((np.map fun e => if e.1 = child then (e.1, setInsert e.2 parent) else e).map
        Prod.fst) = np.map Prod.fst := by
      rw [List.map_map]
      apply List.map_congr_left
      intro e _
      by_cases he : e.1 = child
      · rw [Function.comp_apply, if_pos he]
      · rw [Function.comp_apply, if_neg he]
    rw [hkeys]
    exact h

/-- The single-child step of `expandPage`, named for the induction. -/
def expandChild (sameP oppP : List (Nat × List Nat)) (page : Nat)
    (st2 : List Nat × List (Nat × List Nat) × List Nat) (n : Nat) :
    List Nat × List (Nat × List Nat) × List Nat :=
  if (alookup sameP n).isSome then st2
  else
    (st2.1 ++ [n], parentInsert st2.2.1 n page,
      if (alookup oppP n).isSome then setInsert st2.2.2 n else st2.2.2)

theorem expandPage_eq (adj : Nat → List Nat) (sameP oppP : List (Nat × List Nat))
    (st : List Nat × List (Nat × List Nat) × List Nat) (page : Nat) :
    expandPage adj sameP oppP st page =
      (adj page).foldl (expandChild sameP oppP page) st := rfl

/-- Invariant of the expansion accumulator: `E u n` reads "the edge from
parent `u` to child `n` has been scanned". -/
structure ExpInv (sameP oppP : List (Nat × List Nat)) (ovl0 : List Nat)
    (E : Nat → Nat → Prop)
    (acc : List Nat × List (Nat × List Nat) × List Nat) : Prop where
  qMem : ∀ n, n ∈ acc.1 ↔ (alookup sameP n = none ∧ ∃ u, E u n)
  npDom : ∀ n, (alookup acc.2.1 n).isSome ↔ (alookup sameP n = none ∧ ∃ u, E u n)
  npKeys : (acc.2.1.map Prod.fst).Nodup
  npVal : ∀ n lp, alookup acc.2.1 n = some lp → lp.Nodup ∧ ∀ u, u ∈ lp ↔ E u n
  ovlMem : ∀ x, x ∈ acc.2.2 ↔ (x ∈ ovl0 ∨ (x ∈ acc.1 ∧ (alookup oppP x).isSome))
  ovlNd : acc.2.2.Nodup

theorem expInv_congr (sameP oppP : List (Nat × List Nat)) (ovl0 : List Nat)
    (E E2 : Nat → Nat → Prop) (acc : List Nat × List (Nat × List Nat) × List Nat)
    (hE : ∀ u n, E u n ↔ E2 u n) (h : ExpInv sameP oppP ovl0 E acc) :
    ExpInv sameP oppP ovl0 E2 acc where
  qMem n := by
    rw [h.qMem n]
    constructor
    · rintro ⟨h1, u, h2⟩
      exact ⟨h1, u, (hE u n).mp h2⟩
    · rintro ⟨h1, u, h2⟩
      exact ⟨h1, u, (hE u n).mpr h2⟩
  npDom n := by
    rw [h.npDom n]
    constructor
    · rintro ⟨h1, u, h2⟩
      exact ⟨h1, u, (hE u n).mp h2⟩
    · rintro ⟨h1, u, h2⟩
      exact ⟨h1, u, (hE u n).mpr h2⟩
  npKeys := h.npKeys
  npVal n lp hl := ⟨(h.npVal n lp hl).1, fun u => ((h.npVal n lp hl).2 u).trans (hE u n)⟩
  ovlMem := h.ovlMem
  ovlNd := h.ovlNd

/-- One scanned child preserves the invariant, extending `E` by the pair. -/
theorem expandChild_inv (sameP oppP : List (Nat × List Nat)) (ovl0 : List Nat)
    (E : Nat → Nat → Prop) (acc : List Nat × List (Nat × List Nat) × List Nat)
    (page n : Nat) (h : ExpInv sameP oppP ovl0 E acc) :
    ExpInv sameP oppP ovl0 (fun u n2 => E u n2 ∨ (u = page ∧ n2 = n))
      (expandChild sameP oppP page acc n) := by
  rcases hs : alookup sameP n with _ | l0
  · -- unvisited child: append to the queue, record the parent
    have hstep : expandChild sameP oppP page acc n =
        (acc.1 ++ [n], parentInsert acc.2.1 n page,
          if (alookup oppP n).isSome then setInsert acc.2.2 n else acc.2.2) := by
      unfold expandChild
      rw [hs]
      rfl
    rw [hstep]
    refine ⟨?_, ?_, ?_, ?_, ?_, ?_⟩
    · intro n2
      rw [List.mem_append, List.mem_singleton, h.qMem n2]
      constructor
      · rintro (⟨h1, u, h2⟩ | h1)
        · exact ⟨h1, u, Or.inl h2⟩
        · exact ⟨h1 ▸ hs, page, Or.inr ⟨rfl, h1⟩⟩
      · rintro ⟨h1, u, h2 | ⟨h3, h4⟩⟩
        · exact Or.inl ⟨h1, u, h2⟩
        · exact Or.inr h4
    · intro n2
      by_cases hn2 : n2 = n
      · subst hn2
        rw [alookup_parentInsert_self]
        rcases h2 : alookup acc.2.1 n2 with _ | l
        · exact ⟨fun _ => ⟨hs, page, Or.inr ⟨rfl, rfl⟩⟩, fun _ => rfl⟩
        · exact ⟨fun _ => ⟨hs, page, Or.inr ⟨rfl, rfl⟩⟩, fun _ => rfl⟩
      · rw [alookup_parentInsert_ne acc.2.1 n page n2 hn2, h.npDom n2]
        constructor
        · rintro ⟨h1, u, h2⟩
          exact ⟨h1, u, Or.inl h2⟩
        · rintro ⟨h1, u, h2 | ⟨h3, h4⟩⟩
          · exact ⟨h1, u, h2⟩
          · exact absurd h4 hn2
    · exact parentInsert_keys acc.2.1 n page h.npKeys
    · intro n2 lp hl
      by_cases hn2 : n2 = n
      · subst hn2
        rw [alookup_parentInsert_self] at hl
        rcases h2 : alookup acc.2.1 n2 with _ | l
        · rw [h2] at hl
          cases hl
          refine ⟨List.nodup_singleton page, ?_⟩
          intro u
          rw [List.mem_singleton]
          constructor
          · rintro rfl
            exact Or.inr ⟨rfl, rfl⟩
          · rintro (h3 | ⟨h3, h4⟩)
            · have hsome := (h.npDom n2).mpr ⟨hs, u, h3⟩
              rw [h2] at hsome
              simp at hsome
            · exact h3
        · rw [h2] at hl
          cases hl
          obtain ⟨hnd, hch⟩ := h.npVal n2 l h2
          refine ⟨setInsert_nodup l page hnd, ?_⟩
          intro u
          rw [mem_setInsert, hch u]
          constructor
          · rintro (h3 | rfl)
            · exact Or.inl h3
            · exact Or.inr ⟨rfl, rfl⟩
          · rintro (h3 | ⟨rfl, h4⟩)
            · exact Or.inl h3
            · exact Or.inr rfl
      · rw [alookup_parentInsert_ne acc.2.1 n page n2 hn2] at hl
        obtain ⟨hnd, hch⟩ := h.npVal n2 lp hl
        refine ⟨hnd, ?_⟩
        intro u
        rw [hch u]
        constructor
        · intro h3
          exact Or.inl h3
        · rintro (h3 | ⟨h3, h4⟩)
          · exact h3
          · exact absurd h4 hn2
    · intro x
      by_cases ho : (alookup oppP n).isSome
      · rw [if_pos ho, mem_setInsert, h.ovlMem x, List.mem_append, List.mem_singleton]
        constructor
        · rintro ((h1 | ⟨h1, h2⟩) | rfl)
          · exact Or.inl h1
          · exact Or.inr ⟨Or.inl h1, h2⟩
          · exact Or.inr ⟨Or.inr rfl, ho⟩
        · rintro (h1 | ⟨h1 | h1, h2⟩)
          · exact Or.inl (Or.inl h1)
          · exact Or.inl (Or.inr ⟨h1, h2⟩)
          · subst h1
            exact Or.inr rfl
      · rw [if_neg ho, h.ovlMem x, List.mem_append, List.mem_singleton]
        constructor
        · rintro (h1 | ⟨h1, h2⟩)
          · exact Or.inl h1
          · exact Or.inr ⟨Or.inl h1, h2⟩
        · rintro (h1 | ⟨h1 | h1, h2⟩)
          · exact Or.inl h1
          · exact Or.inr ⟨h1, h2⟩
          · subst h1
            exact absurd h2 ho
    · by_cases ho : (alookup oppP n).isSome
      · rw [if_pos ho]
        exact setInsert_nodup acc.2.2 n h.ovlNd
      · rw [if_neg ho]
        exact h.ovlNd
  · -- already-visited child: no change
    have hstep : expandChild sameP oppP page acc n = acc := by
      unfold expandChild
      rw [hs]
      rfl
    rw [hstep]
    refine ⟨?_, ?_, h.npKeys, ?_, h.ovlMem, h.ovlNd⟩
    · intro n2
      rw [h.qMem n2]
      constructor
      · rintro ⟨h1, u, h2⟩
        exact ⟨h1, u, Or.inl h2⟩
      · rintro ⟨h1, u, h2 | ⟨h3, h4⟩⟩
        · exact ⟨h1, u, h2⟩
        · subst h4
          rw [hs] at h1
          cases h1
    · intro n2
      rw [h.npDom n2]
      constructor
      · rintro ⟨h1, u, h2⟩
        exact ⟨h1, u, Or.inl h2⟩
      · rintro ⟨h1, u, h2 | ⟨h3, h4⟩⟩
        · exact ⟨h1, u, h2⟩
        · subst h4
          rw [hs] at h1
          cases h1
    · intro n2 lp hl
      obtain ⟨hnd, hch⟩ := h.npVal n2 lp hl
      have hn2 : alookup sameP n2 = none :=
        ((h.npDom n2).mp (by rw [hl]; rfl)).1
      refine ⟨hnd, ?_⟩
      intro u
      rw [hch u]
      constructor
      · intro h3
        exact Or.inl h3
      · rintro (h3 | ⟨h3, h4⟩)
        · exact h3
        · subst h4
          rw [hs] at hn2
          cases hn2

/-- Scanning a whole adjacency list extends `E` by all its pairs. -/
theorem expandChildren_inv (sameP oppP : List (Nat × List Nat)) (ovl0 : List Nat)
    (page : Nat) (l : List Nat) (E : Nat → Nat → Prop)
    (acc : List Nat × List (Nat × List Nat) × List Nat)
    (h : ExpInv sameP oppP ovl0 E acc) :
    ExpInv sameP oppP ovl0 (fun u n => E u n ∨ (u = page ∧ n ∈ l))
      (l.foldl (expandChild sameP oppP page) acc) := by
  induction l generalizing E acc with
  | nil =>
    apply expInv_congr sameP oppP ovl0 E _ acc _ h
    intro u n
    constructor
    · exact Or.inl
    · rintro (h2 | ⟨_, h3⟩)
      · exact h2
      · cases h3
  | cons n0 rest ih =>
    rw [List.foldl_cons]
    have h2 := ih (fun u n => E u n ∨ (u = page ∧ n = n0))
      (expandChild sameP oppP page acc n0)
      (expandChild_inv sameP oppP ovl0 E acc page n0 h)
    apply expInv_congr _ _ _ _ _ _ _ h2
    intro u n
    constructor
    · rintro ((h3 | ⟨h3, h4⟩) | ⟨h3, h4⟩)
      · exact Or.inl h3
      · exact Or.inr ⟨h3, h4 ▸ List.mem_cons_self n0 rest⟩
      · exact Or.inr ⟨h3, List.mem_cons_of_mem n0 h4⟩
    · rintro (h3 | ⟨h3, h4⟩)
      · exact Or.inl (Or.inl h3)
      · rcases List.mem_cons.mp h4 with h5 | h5
        · exact Or.inl (Or.inr ⟨h3, h5⟩)
        · exact Or.inr ⟨h3, h5⟩

/-- Processing the whole queue extends `E` by every frontier edge. -/
theorem expandQueue_inv (adj : Nat → List Nat) (sameP oppP : List (Nat × List Nat))
    (ovl0 : List Nat) (q : List Nat) (E : Nat → Nat → Prop)
    (acc : List Nat × List (Nat × List Nat) × List Nat)
    (h : ExpInv sameP oppP ovl0 E acc) :
    ExpInv sameP oppP ovl0 (fun u n => E u n ∨ (u ∈ q ∧ n ∈ adj u))
      (q.foldl (expandPage adj sameP oppP) acc) := by
  induction q generalizing E acc with
  | nil =>
    apply expInv_congr sameP oppP ovl0 E _ acc _ h
    intro u n
    constructor
    · exact Or.inl
    · rintro (h2 | ⟨h3, _⟩)
      · exact h2
      · cases h3
  | cons page rest ih =>
    rw [List.foldl_cons, expandPage_eq]
    have h2 := ih (fun u n => E u n ∨ (u = page ∧ n ∈ adj page))
      ((adj page).foldl (expandChild sameP oppP page) acc)
      (expandChildren_inv sameP oppP ovl0 page (adj page) E acc h)
    apply expInv_congr _ _ _ _ _ _ _ h2
    intro u n
    constructor
    · rintro ((h3 | ⟨h3, h4⟩) | ⟨h3, h4⟩)
      · exact Or.inl h3
      · exact Or.inr ⟨h3 ▸ List.mem_cons_self page rest, h3 ▸ h4⟩
      · exact Or.inr ⟨List.mem_cons_of_mem page h3, h4⟩
    · rintro (h3 | ⟨h3, h4⟩)
      · exact Or.inl (Or.inl h3)
      · rcases List.mem_cons.mp h3 with h5 | h5
        · exact Or.inl (Or.inr ⟨h5, h5 ▸ h4⟩)
        · exact Or.inr ⟨h5, h4⟩

/-- The expansion of a level, characterized from the empty accumulator. -/
theorem expand_level (adj : Nat → List Nat) (sameP oppP : List (Nat × List Nat))
    (ovl0 : List Nat) (q : List Nat) (hovl : ovl0.Nodup) :
    ExpInv sameP oppP ovl0 (fun u n => u ∈ q ∧ n ∈ adj u)
      (q.foldl (expandPage adj sameP oppP) ([], [], ovl0)) := by
  have h0 : ExpInv sameP oppP ovl0 (fun _ _ => False) ([], [], ovl0) := by
    refine ⟨?_, ?_, List.nodup_nil, ?_, ?_, hovl⟩
    · intro n
      constructor
      · intro h
        cases h
      · rintro ⟨_, _, h⟩
        cases h
    · intro n
      constructor
      · intro h
        cases h
      · rintro ⟨_, _, h⟩
        cases h
    · intro n lp h
      cases h
    · intro x
      constructor
      · intro h
        exact Or.inl h
      · rintro (h | ⟨h, _⟩)
        · exact h
        · cases h
  have h2 := expandQueue_inv adj sameP oppP ovl0 q (fun _ _ => False) ([], [], ovl0) h0
  apply expInv_congr _ _ _ _ _ _ _ h2
  intro u n
  constructor
  · rintro (h3 | h3)
    · cases h3
    · exact h3
  · exact Or.inr

/-- Merging fresh per-level parents: other keys read the old map. -/
theorem alookup_mergeParents_none (np : List (Nat × List Nat))
    (ps : List (Nat × List Nat)) (v : Nat)
    (hv : alookup np v = none) :
    alookup (mergeParents ps np) v = alookup ps v := by
  induction np generalizing ps with
  | nil => rfl
  | cons e rest ih =>
    rw [alookup_cons] at hv
    by_cases hve : e.1 = v
    · rw [if_pos hve] at hv
      cases hv
    · rw [if_neg hve] at hv
      rcases hl : alookup ps e.1 with _ | l0
      · have hstep : mapAppendL ps e.1 e.2 = ps ++ [(e.1, e.2)] := by
          unfold mapAppendL
          rw [hl]
        have hmerge : mergeParents ps (e :: rest) =
            mergeParents (ps ++ [(e.1, e.2)]) rest := by
          rw [mergeParents, List.foldl_cons, hstep, mergeParents]
        rw [hmerge, ih (ps ++ [(e.1, e.2)]) hv,
          alookup_append_fresh ps e.1 v e.2 hl, if_neg (fun h3 => hve h3.symm)]
      · have hstep : mapAppendL ps e.1 e.2 =
            ps.map fun e2 => if e2.1 = e.1 then (e2.1, e2.2 ++ e.2) else e2 := by
          unfold mapAppendL
          rw [hl]
        have hmerge : mergeParents ps (e :: rest) =
            mergeParents (ps.map fun e2 => if e2.1 = e.1 then (e2.1, e2.2 ++ e.2) else e2)
              rest := by
          rw [mergeParents, List.foldl_cons, hstep, mergeParents]
        rw [hmerge, ih _ hv]
        have h3 := alookup_map_upd ps (fun l2 => l2 ++ e.2) e.1 v
        rw [if_neg (fun h4 => hve h4.symm)] at h3
        exact h3

/-- Merging fresh per-level parents: a key of the new map reads its new
value. -/
theorem alookup_mergeParents_some (np : List (Nat × List Nat))
    (ps : List (Nat × List Nat)) (v : Nat) (l : List Nat)
    (hkeys : (np.map Prod.fst).Nodup)
    (hfresh : ∀ k ∈ np.map Prod.fst, alookup ps k = none)
    (hv : alookup np v = some l) :
    alookup (mergeParents ps np) v = some l := by
  induction np generalizing ps with
  | nil => cases hv
  | cons e rest ih =>
    rw [List.map_cons] at hkeys
    rcases List.nodup_cons.mp hkeys with ⟨hne, hknd⟩
    have hfe : alookup ps e.1 = none :=
      hfresh e.1 (by rw [List.map_cons]; exact List.mem_cons_self e.1 _)
    have hstep : mapAppendL ps e.1 e.2 = ps ++ [(e.1, e.2)] := by
      unfold mapAppendL
      rw [hfe]
    have hmerge : mergeParents ps (e :: rest) =
        mergeParents (ps ++ [(e.1, e.2)]) rest := by
      rw [mergeParents, List.foldl_cons, hstep, mergeParents]
    rw [hmerge]
    have hfresh2 : ∀ k ∈ rest.map Prod.fst, alookup (ps ++ [(e.1, e.2)]) k = none := by
      intro k hk
      have hke : k ≠ e.1 := by
        intro h3
        exact hne (h3 ▸ hk)
      rw [alookup_append_fresh ps e.1 k e.2 hfe, if_neg hke]
      exact hfresh k (by rw [List.map_cons]; exact List.mem_cons_of_mem e.1 hk)
    rw [alookup_cons] at hv
    by_cases hve : e.1 = v
    · rw [if_pos hve] at hv
      cases hv
      have hrnone : alookup rest v = none :=
        (alookup_eq_none_iff rest v).mpr (hve ▸ hne)
      rw [alookup_mergeParents_none rest (ps ++ [(e.1, e.2)]) v hrnone,
        alookup_append_fresh ps e.1 v e.2 hfe, if_pos hve.symm]
    · rw [if_neg hve] at hv
      exact ih (ps ++ [(e.1, e.2)]) hknd hfresh2 hv

/-- Invariant of one side of the bidirectional search after `d0` completed
levels: the parent map holds exactly the ball of radius `d0`, with the exact
sets of geodesic predecessors, and the queue holds exactly the sphere. -/
structure SideInv (adj : Nat → List Nat) (s0 : Nat) (ps : List (Nat × List Nat))
    (q : List Nat) (d0 : Nat) : Prop where
  dom : ∀ v, (alookup ps v).isSome ↔ ∃ d, d ≤ d0 ∧ IsDist adj s0 v d
  src : alookup ps s0 = some []
  par : ∀ v l, alookup ps v = some l → v ≠ s0 →
    l.Nodup ∧ ∃ d, 1 ≤ d ∧ d ≤ d0 ∧ IsDist adj s0 v d ∧
      ∀ u, u ∈ l ↔ (IsDist adj s0 u (d - 1) ∧ v ∈ adj u)
  qSet : ∀ v, v ∈ q ↔ IsDist adj s0 v d0

theorem isDist_self (adj : Nat → List Nat) (s0 : Nat) : IsDist adj s0 s0 0 :=
  ⟨rfl, fun m hm => absurd hm (by omega)⟩

theorem isDist_zero_iff (adj : Nat → List Nat) (s0 v : Nat) :
    IsDist adj s0 v 0 ↔ v = s0 := by
  constructor
  · intro h
    exact h.1
  · rintro rfl
    exact isDist_self adj _

/-- The initial one-page state of a side. -/
theorem sideInv_init (adj : Nat → List Nat) (s0 : Nat) :
    SideInv adj s0 [(s0, [])] [s0] 0 where
  dom v := by
    rw [alookup_cons]
    by_cases hv : s0 = v
    · rw [if_pos hv]
      exact ⟨fun _ => ⟨0, le_refl 0, hv ▸ isDist_self adj s0⟩, fun _ => rfl⟩
    · rw [if_neg hv]
      constructor
      · intro h
        cases h
      · rintro ⟨d, hd0, hd⟩
        have : d = 0 := by omega
        subst this
        exact absurd ((isDist_zero_iff adj s0 v).mp hd).symm hv
  src := by
    rw [alookup_cons, if_pos rfl]
  par v l hl hv := by
    rw [alookup_cons] at hl
    by_cases hv2 : s0 = v
    · exact absurd hv2.symm hv
    · rw [if_neg hv2] at hl
      cases hl
  qSet v := by
    rw [List.mem_singleton]
    constructor
    · rintro rfl
      exact isDist_self adj _
    · intro h
      exact (isDist_zero_iff adj s0 v).mp h

/-- Expanding one full level advances the side invariant by one radius and
returns the overlap additions. -/
theorem side_step (adj : Nat → List Nat) (s0 : Nat) (ps : List (Nat × List Nat))
    (q : List Nat) (d0 : Nat) (oppP : List (Nat × List Nat)) (ovl0 : List Nat)
    (r : List Nat × List (Nat × List Nat) × List Nat)
    (hr : r = q.foldl (expandPage adj ps oppP) ([], [], ovl0))
    (hside : SideInv adj s0 ps q d0) (hovl : ovl0.Nodup) :
    SideInv adj s0 (mergeParents ps r.2.1) r.1 (d0 + 1) ∧
    (∀ x, x ∈ r.2.2 ↔ (x ∈ ovl0 ∨ (x ∈ r.1 ∧ (alookup oppP x).isSome))) ∧
    r.2.2.Nodup ∧
    (∀ v, (alookup (mergeParents ps r.2.1) v).isSome ↔
      ((alookup ps v).isSome ∨ v ∈ r.1)) := by
  have hexp : ExpInv ps oppP ovl0 (fun u n => u ∈ q ∧ n ∈ adj u) r := by
    rw [hr]
    exact expand_level adj ps oppP ovl0 q hovl
  -- the new queue is exactly the next sphere
  have hq : ∀ n, n ∈ r.1 ↔ IsDist adj s0 n (d0 + 1) := by
    intro n
    rw [hexp.qMem n, isDist_succ_iff adj s0 n d0]
    constructor
    · rintro ⟨hnone, u, huq, hadj⟩
      refine ⟨?_, u, (hside.qSet u).mp huq, hadj⟩
      intro hball
      have := (hside.dom n).mpr hball
      rw [hnone] at this
      cases this
    · rintro ⟨hnot, u, hu, hadj⟩
      refine ⟨?_, u, (hside.qSet u).mpr hu, hadj⟩
      rcases h2 : alookup ps n with _ | l
      · rfl
      · exact absurd ((hside.dom n).mp (by rw [h2]; rfl)) hnot
  have hfresh : ∀ k ∈ r.2.1.map Prod.fst, alookup ps k = none := by
    intro k hk
    have hsome : (alookup r.2.1 k).isSome := by
      rcases h2 : alookup r.2.1 k with _ | l
      · rw [alookup_eq_none_iff] at h2
        exact absurd hk h2
      · rfl
    exact ((hexp.npDom k).mp hsome).1
  have hnpq : ∀ v, (alookup r.2.1 v).isSome ↔ v ∈ r.1 := by
    intro v
    rw [hexp.npDom v, hexp.qMem v]
  have hdom2 : ∀ v, (alookup (mergeParents ps r.2.1) v).isSome ↔
      ((alookup ps v).isSome ∨ v ∈ r.1) := by
    intro v
    rcases h2 : alookup r.2.1 v with _ | l
    · rw [alookup_mergeParents_none r.2.1 ps v h2]
      constructor
      · exact Or.inl
      · rintro (h3 | h3)
        · exact h3
        · rw [← hnpq v, h2] at h3
          cases h3
    · rw [alookup_mergeParents_some r.2.1 ps v l hexp.npKeys hfresh h2]
      exact ⟨fun _ => Or.inr ((hnpq v).mp (by rw [h2]; rfl)), fun _ => rfl⟩
  refine ⟨⟨?_, ?_, ?_, ?_⟩, hexp.ovlMem, hexp.ovlNd, hdom2⟩
  · -- the merged map covers the ball of radius d0+1
    intro v
    rw [hdom2 v, hside.dom v, hq v]
    constructor
    · rintro (⟨d, hd0, hd⟩ | h2)
      · exact ⟨d, by omega, hd⟩
      · exact ⟨d0 + 1, le_refl _, h2⟩
    · rintro ⟨d, hd0, hd⟩
      by_cases hdd : d ≤ d0
      · exact Or.inl ⟨d, hdd, hd⟩
      · have : d = d0 + 1 := by omega
        exact Or.inr (this ▸ hd)
  · -- the root entry is untouched
    have hnps0 : alookup r.2.1 s0 = none := by
      rcases h2 : alookup r.2.1 s0 with _ | l
      · rfl
      · have := ((hexp.npDom s0).mp (by rw [h2]; rfl)).1
        rw [hside.src] at this
        cases this
    rw [alookup_mergeParents_none r.2.1 ps s0 hnps0]
    exact hside.src
  · -- parent characterization at every covered page
    intro v l hl hv
    rcases h2 : alookup r.2.1 v with _ | l2
    · rw [alookup_mergeParents_none r.2.1 ps v h2] at hl
      obtain ⟨hnd, d, h1d, hdd, hdist, hch⟩ := hside.par v l hl hv
      exact ⟨hnd, d, h1d, by omega, hdist, hch⟩
    · rw [alookup_mergeParents_some r.2.1 ps v l2 hexp.npKeys hfresh h2] at hl
      cases hl
      obtain ⟨hnd, hch⟩ := hexp.npVal v l h2
      refine ⟨hnd, d0 + 1, by omega, le_refl _, ?_, ?_⟩
      · exact (hq v).mp ((hnpq v).mp (by rw [h2]; rfl))
      · intro u
        rw [hch u, Nat.add_sub_cancel]
        constructor
        · rintro ⟨huq, hadj⟩
          exact ⟨(hside.qSet u).mp huq, hadj⟩
        · rintro ⟨hu, hadj⟩
          exact ⟨(hside.qSet u).mpr hu, hadj⟩
  · exact hq

/-- Invariant of the full bidirectional state: both sides hold their balls,
and `overlapping` is exactly the intersection of the two visited sets. -/
structure SearchInv (store : Store) (s t : Nat) (st : BfsState) : Prop where
  fSide : SideInv store.out s st.fp st.fq st.fd
  bSide : SideInv store.inc t st.bp st.bq st.bd
  ovlSet : ∀ v, v ∈ st.ovl ↔ ((alookup st.fp v).isSome ∧ (alookup st.bp v).isSome)
  ovlNd : st.ovl.Nodup

/-- What holds when the loop has found overlaps: every overlap sits at the
exact frontier distances of the two sides, and the two depths sum to the
shortest-path distance. -/
def ExitGood (store : Store) (s t : Nat) (st : BfsState) : Prop :=
  (∀ v ∈ st.ovl, IsDist store.out s v st.fd ∧ IsDist store.inc t v st.bd) ∧
  IsDist store.out s t (st.fd + st.bd)

/-- The continuation condition of the search loop. -/
def LoopCond (st : BfsState) : Prop :=
  st.ovl = [] ∧ st.fq ≠ [] ∧ st.bq ≠ []

/-- The two balls being disjoint before a level expansion forces the exact
distance when the level completes with an overlap. -/
theorem exit_dist (store : Store) (hcons : StoreConsistent store) (s t : Nat)
    (F B : Nat)
    (hdisj : ∀ v, ¬((∃ d, d ≤ F ∧ IsDist store.out s v d) ∧
      (∃ d, d ≤ B ∧ IsDist store.inc t v d)))
    (x F2 B2 : Nat)
    (hx1 : pathLen store.out s F2 x) (hx2 : pathLen store.inc t B2 x)
    (hsum : F2 + B2 = F + B + 1) :
    IsDist store.out s t (F + B + 1) := by
  constructor
  · rw [← hsum]
    exact (pathLen_append store.out s t F2 B2).mpr
      ⟨x, hx1, (pathLen_inc_iff store hcons t B2 x).mp hx2⟩
  · intro L hL hwalk
    by_cases hLF : L ≤ F
    · obtain ⟨d, hd⟩ := exists_isDist store.out s t L hwalk
      have hdL : d ≤ L := isDist_le_of_pathLen store.out s t L d hd hwalk
      exact hdisj t ⟨⟨d, by omega, hd⟩, ⟨0, by omega, isDist_self store.inc t⟩⟩
    · have hsplit : L = F + (L - F) := by omega
      rw [hsplit] at hwalk
      obtain ⟨w, hw1, hw2⟩ := (pathLen_append store.out s t F (L - F)).mp hwalk
      obtain ⟨d1, hd1⟩ := exists_isDist store.out s w F hw1
      have hd1F : d1 ≤ F := isDist_le_of_pathLen store.out s w F d1 hd1 hw1
      have hw3 : pathLen store.inc t (L - F) w :=
        (pathLen_inc_iff store hcons t (L - F) w).mpr hw2
      obtain ⟨d2, hd2⟩ := exists_isDist store.inc t w (L - F) hw3
      have hd2B : d2 ≤ B := by
        have := isDist_le_of_pathLen store.inc t w (L - F) d2 hd2 hw3
        omega
      exact hdisj w ⟨⟨d1, hd1F, hd1⟩, ⟨d2, hd2B, hd2⟩⟩

/-- One level of the loop preserves the invariant and, when it produces the
first overlaps, establishes the exit facts. -/
theorem bfsStep_inv (store : Store) (hcons : StoreConsistent store) (s t : Nat)
    (st : BfsState) (h : SearchInv store s t st) (hovl : st.ovl = []) :
    SearchInv store s t (bfsStep store st) ∧
    (bfsStep store st).fd + (bfsStep store st).bd = st.fd + st.bd + 1 ∧
    ((bfsStep store st).ovl = [] ∨ ExitGood store s t (bfsStep store st)) := by
  have hdisj : ∀ v, ¬((∃ d, d ≤ st.fd ∧ IsDist store.out s v d) ∧
      (∃ d, d ≤ st.bd ∧ IsDist store.inc t v d)) := by
    intro v ⟨hf, hb⟩
    have h1 : (alookup st.fp v).isSome := (h.fSide.dom v).mpr hf
    have h2 : (alookup st.bp v).isSome := (h.bSide.dom v).mpr hb
    have h3 : v ∈ st.ovl := (h.ovlSet v).mpr ⟨h1, h2⟩
    rw [hovl] at h3
    cases h3
  rw [bfsStep]
  by_cases hlen : st.fq.length < st.bq.length
  · rw [if_pos hlen]
    obtain ⟨hside2, hovlch, hovlnd, hdom2⟩ :=
      side_step store.out s st.fp st.fq st.fd st.bp st.ovl
        (st.fq.foldl (expandPage store.out st.fp st.bp) ([], [], st.ovl)) rfl
        h.fSide h.ovlNd
    set r := st.fq.foldl (expandPage store.out st.fp st.bp) ([], [], st.ovl) with hrdef
    refine ⟨⟨hside2, h.bSide, ?_, hovlnd⟩,
      by show st.fd + 1 + st.bd = st.fd + st.bd + 1; omega, ?_⟩
    · intro v
      rw [hovlch v]
      constructor
      · rintro (h1 | ⟨h1, h2⟩)
        · rcases (h.ovlSet v).mp h1 with ⟨h3, h4⟩
          exact ⟨(hdom2 v).mpr (Or.inl h3), h4⟩
        · exact ⟨(hdom2 v).mpr (Or.inr h1), h2⟩
      · rintro ⟨h1, h2⟩
        rcases (hdom2 v).mp h1 with h3 | h3
        · exact Or.inl ((h.ovlSet v).mpr ⟨h3, h2⟩)
        · exact Or.inr ⟨h3, h2⟩
    · -- either no overlap yet, or the exit facts hold
      by_cases hempty : r.2.2 = []
      · exact Or.inl hempty
      · right
        have hmem : ∀ v ∈ r.2.2, IsDist store.out s v (st.fd + 1) ∧
            IsDist store.inc t v st.bd := by
          intro v hv
          rcases (hovlch v).mp hv with h1 | ⟨h1, h2⟩
          · rw [hovl] at h1
            cases h1
          · have hvd : IsDist store.out s v (st.fd + 1) := (hside2.qSet v).mp h1
            obtain ⟨e, heB, he⟩ := (h.bSide.dom v).mp h2
            have heq : e = st.bd := by
              by_contra hne
              obtain ⟨hnb, u, hu, hadj⟩ :=
                (isDist_succ_iff store.out s v st.fd).mp hvd
              have hwalk : pathLen store.inc t (e + 1) u :=
                ⟨v, he.1, (hcons v u).mpr hadj⟩
              obtain ⟨e2, he2⟩ := exists_isDist store.inc t u (e + 1) hwalk
              have he2b : e2 ≤ st.bd := by
                have := isDist_le_of_pathLen store.inc t u (e + 1) e2 he2 hwalk
                omega
              exact hdisj u ⟨⟨st.fd, le_refl _, hu⟩, ⟨e2, he2b, he2⟩⟩
            rw [heq] at he
            exact ⟨hvd, he⟩
        constructor
        · intro v hv
          exact hmem v hv
        · match hcase : r.2.2 with
          | [] => exact absurd hcase hempty
          | x :: rest =>
            obtain ⟨hx1, hx2⟩ := hmem x (hcase ▸ List.mem_cons_self x rest)
            have h5 := exit_dist store hcons s t st.fd st.bd hdisj x (st.fd + 1) st.bd
              hx1.1 hx2.1 (by omega)
            have heq : st.fd + 1 + st.bd = st.fd + st.bd + 1 := by omega
            show IsDist store.out s t (st.fd + 1 + st.bd)
            rw [heq]
            exact h5
  · rw [if_neg hlen]
    obtain ⟨hside2, hovlch, hovlnd, hdom2⟩ :=
      side_step store.inc t st.bp st.bq st.bd st.fp st.ovl
        (st.bq.foldl (expandPage store.inc st.bp st.fp) ([], [], st.ovl)) rfl
        h.bSide h.ovlNd
    set r := st.bq.foldl (expandPage store.inc st.bp st.fp) ([], [], st.ovl) with hrdef
    refine ⟨⟨h.fSide, hside2, ?_, hovlnd⟩,
      by show st.fd + (st.bd + 1) = st.fd + st.bd + 1; omega, ?_⟩
    · intro v
      rw [hovlch v]
      constructor
      · rintro (h1 | ⟨h1, h2⟩)
        · rcases (h.ovlSet v).mp h1 with ⟨h3, h4⟩
          exact ⟨h3, (hdom2 v).mpr (Or.inl h4)⟩
        · exact ⟨h2, (hdom2 v).mpr (Or.inr h1)⟩
      · rintro ⟨h1, h2⟩
        rcases (hdom2 v).mp h2 with h3 | h3
        · exact Or.inl ((h.ovlSet v).mpr ⟨h1, h3⟩)
        · exact Or.inr ⟨h3, h1⟩
    · by_cases hempty : r.2.2 = []
      · exact Or.inl hempty
      · right
        have hmem : ∀ v ∈ r.2.2, IsDist store.out s v st.fd ∧
            IsDist store.inc t v (st.bd + 1) := by
          intro v hv
          rcases (hovlch v).mp hv with h1 | ⟨h1, h2⟩
          · rw [hovl] at h1
            cases h1
          · have hvd : IsDist store.inc t v (st.bd + 1) := (hside2.qSet v).mp h1
            obtain ⟨e, heF, he⟩ := (h.fSide.dom v).mp h2
            have heq : e = st.fd := by
              by_contra hne
              obtain ⟨hnb, u, hu, hadj⟩ :=
                (isDist_succ_iff store.inc t v st.bd).mp hvd
              have hwalk : pathLen store.out s (e + 1) u :=
                ⟨v, he.1, (hcons u v).mp hadj⟩
              obtain ⟨e2, he2⟩ := exists_isDist store.out s u (e + 1) hwalk
              have he2b : e2 ≤ st.fd := by
                have := isDist_le_of_pathLen store.out s u (e + 1) e2 he2 hwalk
                omega
              exact hdisj u ⟨⟨e2, he2b, he2⟩, ⟨st.bd, le_refl _, hu⟩⟩
            rw [heq] at he
            exact ⟨he, hvd⟩
        constructor
        · intro v hv
          exact hmem v hv
        · match hcase : r.2.2 with
          | [] => exact absurd hcase hempty
          | x :: rest =>
            obtain ⟨hx1, hx2⟩ := hmem x (hcase ▸ List.mem_cons_self x rest)
            have h5 := exit_dist store hcons s t st.fd st.bd hdisj x st.fd (st.bd + 1)
              hx1.1 hx2.1 (by omega)
            have heq : st.fd + (st.bd + 1) = st.fd + st.bd + 1 := by omega
            show IsDist store.out s t (st.fd + (st.bd + 1))
            rw [heq]
            exact h5

/-- A nonempty frontier bounds the completed depth by the number of pages:
the spheres up to the frontier are nonempty and pairwise disjoint. -/
theorem side_depth_le (adj : Nat → List Nat) (s0 : Nat) (ps : List (Nat × List Nat))
    (q : List Nat) (d0 : Nat) (hside : SideInv adj s0 ps q d0)
    (nodes : List Nat) (hn : ∀ v, ∀ w ∈ adj v, w ∈ nodes) (hq : q ≠ []) :
    d0 ≤ nodes.length := by
  classical
  obtain ⟨v0, hv0⟩ : ∃ v0, v0 ∈ q := by
    cases q with
    | nil => exact absurd rfl hq
    | cons a q2 => exact ⟨a, List.mem_cons_self a q2⟩
  have hv0d : IsDist adj s0 v0 d0 := (hside.qSet v0).mp hv0
  have hex : ∀ k : Nat, ∃ w, k ≤ d0 → IsDist adj s0 w k := by
    intro k
    by_cases hk : k ≤ d0
    · obtain ⟨w, hw⟩ := sphere_nonempty_of_le adj s0 v0 d0 k hv0d hk
      exact ⟨w, fun _ => hw⟩
    · exact ⟨0, fun h2 => absurd h2 hk⟩
  choose f hf using hex
  have hmem : ∀ k, 1 ≤ k → k ≤ d0 → f k ∈ nodes := by
    intro k h1 h2
    have hd := hf k h2
    match k, h1, hd with
    | k2 + 1, _, hd =>
      obtain ⟨u, _, hadj⟩ := hd.1
      exact hn u (f (k2 + 1)) hadj
  have hinj : ∀ k1, k1 ≤ d0 → ∀ k2, k2 ≤ d0 → f k1 = f k2 → k1 = k2 := by
    intro k1 h1 k2 h2 heq
    exact isDist_unique adj s0 (f k1) k1 k2 (hf k1 h1) (heq ▸ hf k2 h2)
  have hlist : ((List.range d0).map fun i => f (i + 1)).Nodup := by
    apply List.Nodup.map_on ?_ (List.nodup_range d0)
    intro i hi j hj hij
    have hi2 : i + 1 ≤ d0 := by
      rw [List.mem_range] at hi
      omega
    have hj2 : j + 1 ≤ d0 := by
      rw [List.mem_range] at hj
      omega
    have := hinj (i + 1) hi2 (j + 1) hj2 hij
    omega
  have hsub : ((List.range d0).map fun i => f (i + 1)).toFinset ⊆ nodes.toFinset := by
    intro x hx
    rw [List.mem_toFinset] at hx ⊢
    obtain ⟨i, hi, hfi⟩ := List.mem_map.mp hx
    rw [List.mem_range] at hi
    exact hfi ▸ hmem (i + 1) (by omega) (by omega)
  have h1 : ((List.range d0).map fun i => f (i + 1)).toFinset.card = d0 := by
    rw [List.toFinset_card_of_nodup hlist, List.length_map, List.length_range]
  have h2 : nodes.toFinset.card ≤ nodes.length := nodes.toFinset_card_le
  have h3 := Finset.card_le_card hsub
  omega

/-- The search loop: the invariant is carried to the exit, and the stated
fuel is enough to reach a state in which the loop condition fails. -/
theorem bfsLoop_spec (store : Store) (hcons : StoreConsistent store)
    (hfin : StoreFinite store) (s t : Nat) (fuel : Nat) (st : BfsState)
    (hJ : SearchInv store s t st ∧ (st.ovl = [] ∨ ExitGood store s t st))
    (hfuel : 2 * store.nodes.length + 2 ≤ st.fd + st.bd + fuel) :
    (SearchInv store s t (bfsLoop store fuel st) ∧
      ((bfsLoop store fuel st).ovl = [] ∨ ExitGood store s t (bfsLoop store fuel st))) ∧
    ¬LoopCond (bfsLoop store fuel st) := by
  induction fuel generalizing st with
  | zero =>
    refine ⟨hJ, ?_⟩
    rintro ⟨hovl, hfq, hbq⟩
    have hfd := side_depth_le store.out s st.fp st.fq st.fd hJ.1.fSide
      store.nodes (fun v w hw => (hfin.1 v w hw).2) hfq
    have hbd := side_depth_le store.inc t st.bp st.bq st.bd hJ.1.bSide
      store.nodes (fun v w hw => (hfin.2 v w hw).2) hbq
    omega
  | succ fuel ih =>
    rw [bfsLoop]
    by_cases hc : st.ovl = [] ∧ st.fq ≠ [] ∧ st.bq ≠ []
    · rw [if_pos hc]
      obtain ⟨hinv2, hsum, hgood⟩ := bfsStep_inv store hcons s t st hJ.1 hc.1
      exact ih (bfsStep store st) ⟨hinv2, hgood⟩ (by omega)
    · rw [if_neg hc]
      exact ⟨hJ, hc⟩

/-- The initial state of the search loop satisfies the invariant. -/
theorem searchInv_init (store : Store) (s t : Nat) :
    SearchInv store s t
      ⟨[(s, [])], [(t, [])], [s], [t], if s = t then [s] else [], 0, 0⟩ ∧
    ((⟨[(s, [])], [(t, [])], [s], [t], if s = t then [s] else [], 0, 0⟩ :
        BfsState).ovl = [] ∨
      ExitGood store s t
        ⟨[(s, [])], [(t, [])], [s], [t], if s = t then [s] else [], 0, 0⟩) := by
  refine ⟨⟨sideInv_init store.out s, sideInv_init store.inc t, ?_, ?_⟩, ?_⟩
  · intro v
    show (v ∈ if s = t then [s] else []) ↔ _
    rw [alookup_cons, alookup_cons]
    by_cases hst : s = t
    · rw [if_pos hst, List.mem_singleton]
      by_cases hv : v = s
      · subst hv
        rw [if_pos rfl, if_pos hst.symm]
        exact ⟨fun _ => ⟨rfl, rfl⟩, fun _ => rfl⟩
      · rw [if_neg (fun h2 => hv h2.symm)]
        constructor
        · intro h2
          exact absurd h2 hv
        · rintro ⟨h2, _⟩
          cases h2
    · rw [if_neg hst]
      constructor
      · intro h2
        cases h2
      · rintro ⟨h1, h2⟩
        by_cases hv : s = v
        · subst hv
          rw [if_neg (fun h3 => hst h3.symm)] at h2
          cases h2
        · rw [if_neg hv] at h1
          cases h1
  · show (if s = t then [s] else [] : List Nat).Nodup
    by_cases hst : s = t
    · rw [if_pos hst]
      exact List.nodup_singleton s
    · rw [if_neg hst]
      exact List.nodup_nil
  · by_cases hst : s = t
    · right
      subst hst
      constructor
      · intro v hv
        have hv2 : v ∈ [s] := by
          have : (if s = s then [s] else []) = [s] := if_pos rfl
          exact this ▸ hv
        rcases List.mem_singleton.mp hv2 with rfl
        exact ⟨isDist_self store.out v, isDist_self store.inc v⟩
      · exact isDist_self store.out s
    · left
      show (if s = t then [s] else []) = []
      rw [if_neg hst]

/-- Complete exit analysis of the loop: with a reachable target the loop
always stops on a nonempty overlap holding exactly the midpoints, and the
two depths sum to the distance. -/
theorem bfsLoop_final (store : Store) (hcons : StoreConsistent store)
    (hfin : StoreFinite store) (s t : Nat) (D : Nat)
    (hD : IsDist store.out s t D) (fuel : Nat)
    (hfuel : 2 * store.nodes.length + 2 ≤ fuel) :
    SearchInv store s t (bfsLoop store fuel
      ⟨[(s, [])], [(t, [])], [s], [t], if s = t then [s] else [], 0, 0⟩) ∧
    ExitGood store s t (bfsLoop store fuel
      ⟨[(s, [])], [(t, [])], [s], [t], if s = t then [s] else [], 0, 0⟩) ∧
    (bfsLoop store fuel
      ⟨[(s, [])], [(t, [])], [s], [t], if s = t then [s] else [], 0, 0⟩).ovl ≠ [] := by
  obtain ⟨⟨hinv, hgood⟩, hstop⟩ := bfsLoop_spec store hcons hfin s t fuel
    ⟨[(s, [])], [(t, [])], [s], [t], if s = t then [s] else [], 0, 0⟩
    (searchInv_init store s t) (by omega)
  set stE := bfsLoop store fuel
    ⟨[(s, [])], [(t, [])], [s], [t], if s = t then [s] else [], 0, 0⟩ with hstE
  have hbp_t : (alookup stE.bp t).isSome := by
    rw [hinv.bSide.src]
    rfl
  have hfp_s : (alookup stE.fp s).isSome := by
    rw [hinv.fSide.src]
    rfl
  have hovlne : stE.ovl ≠ [] := by
    intro hovl
    rcases not_and_or.mp hstop with h2 | h2
    · exact h2 hovl
    rcases not_and_or.mp h2 with h3 | h3
    · -- forward queue empty: the forward sphere is nonempty below the distance
      rw [not_ne_iff] at h3
      by_cases hDf : D ≤ stE.fd
      · have hfp_t : (alookup stE.fp t).isSome :=
          (hinv.fSide.dom t).mpr ⟨D, hDf, hD⟩
        have : t ∈ stE.ovl := (hinv.ovlSet t).mpr ⟨hfp_t, hbp_t⟩
        rw [hovl] at this
        cases this
      · obtain ⟨w, hw⟩ :=
          sphere_nonempty_of_le store.out s t D stE.fd hD (by omega)
        have : w ∈ stE.fq := (hinv.fSide.qSet w).mpr hw
        rw [h3] at this
        cases this
    · -- backward queue empty: symmetric through the reversed walk
      rw [not_ne_iff] at h3
      have hwalk : pathLen store.inc t D s :=
        (pathLen_inc_iff store hcons t D s).mpr hD.1
      obtain ⟨D2, hD2⟩ := exists_isDist store.inc t s D hwalk
      by_cases hDb : D2 ≤ stE.bd
      · have hbp_s : (alookup stE.bp s).isSome :=
          (hinv.bSide.dom s).mpr ⟨D2, hDb, hD2⟩
        have : s ∈ stE.ovl := (hinv.ovlSet s).mpr ⟨hfp_s, hbp_s⟩
        rw [hovl] at this
        cases this
      · obtain ⟨w, hw⟩ :=
          sphere_nonempty_of_le store.inc t s D2 stE.bd hD2 (by omega)
        have : w ∈ stE.bq := (hinv.bSide.qSet w).mpr hw
        rw [h3] at this
        cases this
  rcases hgood with h2 | h2
  · exact absurd h2 hovlne
  · exact ⟨hinv, h2, hovlne⟩

/-! ### Correctness of the memoized path-count extraction -/

theorem alookup_upd {A : Type} (m : List (Nat × A)) (f : A → A) (k k2 : Nat) :
    alookup (m.map fun e => if e.1 = k then (e.1, f e.2) else e) k2 =
      if k2 = k then (alookup m k).map f else alookup m k2 := by
  induction m with
  | nil =>
    by_cases h : k2 = k
    · rw [if_pos h]
      rfl
    · rw [if_neg h]
      rfl
  | cons e rest ih =>
    rw [List.map_cons, alookup_cons]
    by_cases he : e.1 = k
    · rw [if_pos he]
      by_cases h2 : k2 = k
      · rw [if_pos h2, alookup_cons, if_pos he]
        have h3 : (e.1, f e.2).1 = k2 := by
          show e.1 = k2
          rw [he]
          exact h2.symm
        rw [if_pos h3]
        rfl
      · have h3 : ¬e.1 = k2 := by
          intro h4
          exact h2 (h4 ▸ he).symm.symm
        have h3b : ¬(e.1, f e.2).1 = k2 := h3
        rw [if_neg h2, alookup_cons, if_neg h3, if_neg h3b, ih, if_neg h2]
    · rw [if_neg he]
      by_cases h2 : e.1 = k2
      · have hk2 : ¬k2 = k := fun h3 => he (h2.trans h3)
        rw [if_pos h2, if_neg hk2, alookup_cons, if_pos h2]
      · rw [if_neg h2, ih]
        by_cases h3 : k2 = k
        · rw [if_pos h3, if_pos h3, alookup_cons, if_neg he]
        · rw [if_neg h3, if_neg h3, alookup_cons, if_neg h2]

theorem countsAdd_self (m : List (Nat × Nat)) (k : Nat) (v : Nat) :
    alookup (countsAdd m k v) k = some (((alookup m k).getD 0 + v) % 2 ^ 64) := by
  unfold countsAdd
  rcases h : alookup m k with _ | c0
  · show alookup (m ++ [(k, (0 + v) % 2 ^ 64)]) k = some ((0 + v) % 2 ^ 64)
    rw [alookup_append_fresh m k k ((0 + v) % 2 ^ 64) h, if_pos rfl]
  · show alookup (m.map fun e => if e.1 = k then (e.1, (c0 + v) % 2 ^ 64) else e) k =
      some ((c0 + v) % 2 ^ 64)
    have h2 := alookup_upd m (fun c => (c0 + v) % 2 ^ 64) k k
    rw [if_pos rfl, h] at h2
    exact h2

theorem countsAdd_ne (m : List (Nat × Nat)) (k k2 : Nat) (v : Nat) (hk : k2 ≠ k) :
    alookup (countsAdd m k v) k2 = alookup m k2 := by
  unfold countsAdd
  rcases h : alookup m k with _ | c0
  · show alookup (m ++ [(k, (0 + v) % 2 ^ 64)]) k2 = alookup m k2
    rw [alookup_append_fresh m k k2 ((0 + v) % 2 ^ 64) h, if_neg hk]
  · show alookup (m.map fun e => if e.1 = k then (e.1, (c0 + v) % 2 ^ 64) else e) k2 =
      alookup m k2
    have h2 := alookup_upd m (fun c => (c0 + v) % 2 ^ 64) k k2
    rw [if_neg hk] at h2
    exact h2

theorem lookupV_mapAppendL_self (m : List (Nat × List Nat)) (k : Nat) (vs : List Nat) :
    lookupV (mapAppendL m k vs) k = lookupV m k ++ vs := by
  unfold mapAppendL lookupV
  rcases h : alookup m k with _ | l0
  · show (alookup (m ++ [(k, vs)]) k).getD [] = (none : Option (List Nat)).getD [] ++ vs
    rw [alookup_append_fresh m k k vs h, if_pos rfl]
    rfl
  · show (alookup (m.map fun e => if e.1 = k then (e.1, e.2 ++ vs) else e) k).getD [] =
      (some l0).getD [] ++ vs
    have h2 := alookup_upd m (fun l => l ++ vs) k k
    rw [if_pos rfl, h] at h2
    rw [h2]
    rfl

theorem lookupV_mapAppendL_ne (m : List (Nat × List Nat)) (k k2 : Nat) (vs : List Nat)
    (hk : k2 ≠ k) : lookupV (mapAppendL m k vs) k2 = lookupV m k2 := by
  unfold mapAppendL lookupV
  rcases h : alookup m k with _ | l0
  · show (alookup (m ++ [(k, vs)]) k2).getD [] = (alookup m k2).getD []
    rw [alookup_append_fresh m k k2 vs h, if_neg hk]
  · show (alookup (m.map fun e => if e.1 = k then (e.1, e.2 ++ vs) else e) k2).getD [] =
      (alookup m k2).getD []
    have h2 := alookup_upd m (fun l => l ++ vs) k k2
    rw [if_neg hk] at h2
    rw [h2]

/-- The hypotheses tying a parent map to a level function `δ` and a count
function `γ`: empty parent lists count one, and otherwise the count is the
sum over the recorded (duplicate-free) parents one level down. -/
def ExtractHyp (ps : List (Nat × List Nat)) (δ γ : Nat → Nat) : Prop :=
  ∀ v l, alookup ps v = some l →
    (l = [] → γ v = 1) ∧
    (l ≠ [] → l.Nodup ∧ γ v = (l.map γ).sum % 2 ^ 64 ∧
      ∀ u ∈ l, (alookup ps u).isSome ∧ δ u + 1 = δ v)

/-- The memo table is correct on all entries strictly below a level. -/
def GoodBelow (δ γ : Nat → Nat) (counts : List (Nat × Nat)) (d : Nat) : Prop :=
  ∀ k c, alookup counts k = some c → δ k < d → c = γ k

/-- New links entries are edges recorded from the parent map, in the
direction picked by the `forward` flag. -/
def LinksGrow (ps : List (Nat × List Nat)) (forward : Bool)
    (links links2 : List (Nat × List Nat)) : Prop :=
  ∀ a b, b ∈ lookupV links2 a →
    b ∈ lookupV links a ∨
      (if forward then b ∈ lookupV ps a else a ∈ lookupV ps b)

theorem linksGrow_refl (ps : List (Nat × List Nat)) (forward : Bool)
    (links : List (Nat × List Nat)) : LinksGrow ps forward links links :=
  fun _ _ h => Or.inl h

theorem linksGrow_trans (ps : List (Nat × List Nat)) (forward : Bool)
    (l1 l2 l3 : List (Nat × List Nat)) (h1 : LinksGrow ps forward l1 l2)
    (h2 : LinksGrow ps forward l2 l3) : LinksGrow ps forward l1 l3 := by
  intro a b hb
  rcases h2 a b hb with h3 | h3
  · exact h1 a b h3
  · exact Or.inr h3

/-- One parent scan of the extraction loop, named for the induction. -/
def extractStep (ps : List (Nat × List Nat)) (forward : Bool) (fuel page : Nat)
    (acc : List Nat × List (Nat × Nat) × List (Nat × List Nat)) (parent : Nat) :
    List Nat × List (Nat × Nat) × List (Nat × List Nat) :=
  if parent ∈ acc.1 then acc
  else
    let dup2 := acc.1 ++ [parent]
    let links2 := if forward then mapAppendL acc.2.2 page [parent]
      else mapAppendL acc.2.2 parent [page]
    match alookup acc.2.1 parent with
    | some cnt => (dup2, countsAdd acc.2.1 page cnt, links2)
    | none =>
      let rr := extractGo ps forward fuel parent acc.2.1 links2
      (dup2, countsAdd rr.2.1 page rr.1, rr.2.2)

theorem extractGo_succ (ps : List (Nat × List Nat)) (forward : Bool)
    (fuel page : Nat) (counts : List (Nat × Nat)) (links : List (Nat × List Nat)) :
    extractGo ps forward (fuel + 1) page counts links =
      (if (alookup ps page).getD [] = [] then (1, counts, links)
       else
        let r := ((alookup ps page).getD []).foldl
          (extractStep ps forward fuel page) ([], counts, links)
        ((alookup r.2.1 page).getD 0, r.2.1, r.2.2)) := rfl

/-- The contract of one extraction call: the returned count is `γ`, the memo
stays correct below the level, entries at or above it other than the page
itself are untouched, the page entry is absent or correct, and the links map
grew only by recorded parent edges. -/
def ExtractOut (ps : List (Nat × List Nat)) (forward : Bool) (δ γ : Nat → Nat)
    (p : Nat) (counts : List (Nat × Nat)) (links : List (Nat × List Nat))
    (r : Nat × List (Nat × Nat) × List (Nat × List Nat)) : Prop :=
  r.1 = γ p ∧
  GoodBelow δ γ r.2.1 (δ p) ∧
  (alookup r.2.1 p = none ∨ alookup r.2.1 p = some (γ p)) ∧
  (∀ k, k ≠ p → δ p ≤ δ k → alookup r.2.1 k = alookup counts k) ∧
  LinksGrow ps forward links r.2.2

/-- The parent-scanning loop of one extraction call. -/
theorem extractLoop_spec (ps : List (Nat × List Nat)) (forward : Bool)
    (δ γ : Nat → Nat) (fuel p : Nat) (pl : List Nat)
    (hpl : alookup ps p = some pl) (hplnd : pl.Nodup)
    (hpar : ∀ u ∈ pl, (alookup ps u).isSome ∧ δ u + 1 = δ p)
    (hfuel : δ p < fuel + 1)
    (hIH : ∀ p2 counts links, (alookup ps p2).isSome → δ p2 < fuel →
      alookup counts p2 = none → GoodBelow δ γ counts (δ p2) →
      ExtractOut ps forward δ γ p2 counts links
        (extractGo ps forward fuel p2 counts links)) :
    ∀ rest pre counts2 links2 counts links,
      pl = pre ++ rest →
      alookup counts2 p =
        (if pre = [] then none else some ((pre.map γ).sum % 2 ^ 64)) →
      GoodBelow δ γ counts2 (δ p) →
      (∀ k, k ≠ p → δ p ≤ δ k → alookup counts2 k = alookup counts k) →
      LinksGrow ps forward links links2 →
      alookup (rest.foldl (extractStep ps forward fuel p)
          (pre, counts2, links2)).2.1 p =
        (if pre ++ rest = [] then none
         else some (((pre ++ rest).map γ).sum % 2 ^ 64)) ∧
      GoodBelow δ γ (rest.foldl (extractStep ps forward fuel p)
        (pre, counts2, links2)).2.1 (δ p) ∧
      (∀ k, k ≠ p → δ p ≤ δ k →
        alookup (rest.foldl (extractStep ps forward fuel p)
          (pre, counts2, links2)).2.1 k = alookup counts k) ∧
      LinksGrow ps forward links
        (rest.foldl (extractStep ps forward fuel p) (pre, counts2, links2)).2.2 := by
  intro rest
  induction rest with
  | nil =>
    intro pre counts2 links2 counts links hpre hentry hGB huntouched hlinks
    rw [List.foldl_nil]
    rw [List.append_nil] at *
    exact ⟨hentry, hGB, huntouched, hlinks⟩
  | cons parent rest2 ih =>
    intro pre counts2 links2 counts links hpre hentry hGB huntouched hlinks
    rw [List.foldl_cons]
    -- the guard never fires: the parent list is duplicate-free
    have hguard : ¬parent ∈ pre := by
      intro hmem
      have hdisj := List.disjoint_of_nodup_append (hpre ▸ hplnd)
      exact hdisj hmem (List.mem_cons_self parent rest2)
    have hparent : parent ∈ pl := by
      rw [hpre]
      exact List.mem_append.mpr (Or.inr (List.mem_cons_self parent rest2))
    obtain ⟨hpsome, hδ⟩ := hpar parent hparent
    have hppne : p ≠ parent := by
      intro h2
      rw [h2] at hδ
      omega
    -- the scanned edge is recorded into the links map
    have hlinks2 : LinksGrow ps forward links
        (if forward then mapAppendL links2 p [parent] else mapAppendL links2 parent [p]) := by
      apply linksGrow_trans ps forward links links2 _ hlinks
      intro a b hb
      cases forward with
      | true =>
        rw [if_pos rfl] at hb ⊢
        by_cases ha : a = p
        · subst ha
          rw [lookupV_mapAppendL_self] at hb
          rcases List.mem_append.mp hb with h2 | h2
          · exact Or.inl h2
          · rcases List.mem_singleton.mp h2 with rfl
            right
            show b ∈ lookupV ps a
            rw [lookupV, hpl]
            exact hparent
        · rw [lookupV_mapAppendL_ne links2 p a [parent] ha] at hb
          exact Or.inl hb
      | false =>
        rw [if_neg (fun h2 => Bool.false_ne_true h2)] at hb ⊢
        by_cases ha : a = parent
        · subst ha
          rw [lookupV_mapAppendL_self] at hb
          rcases List.mem_append.mp hb with h2 | h2
          · exact Or.inl h2
          · rcases List.mem_singleton.mp h2 with rfl
            right
            show a ∈ lookupV ps b
            rw [lookupV, hpl]
            exact hparent
        · rw [lookupV_mapAppendL_ne links2 parent a [p] ha] at hb
          exact Or.inl hb
    have hpre2 : pl = (pre ++ [parent]) ++ rest2 := by
      rw [hpre, List.append_assoc]
      rfl
    have hprene : pre ++ [parent] ≠ [] := by
      intro h2
      have := congrArg List.length h2
      rw [List.length_append] at this
      simp at this
    have hsum2 : ((pre ++ [parent]).map γ).sum = (pre.map γ).sum + γ parent := by
      rw [List.map_append, List.sum_append]
      rfl
    have hgetD : (alookup counts2 p).getD 0 = (pre.map γ).sum % 2 ^ 64 := by
      rw [hentry]
      by_cases hp0 : pre = []
      · rw [if_pos hp0, hp0]
        rfl
      · rw [if_neg hp0]
        rfl
    have hlist : pre ++ parent :: rest2 = (pre ++ [parent]) ++ rest2 := by
      rw [List.append_assoc]
      rfl
    rcases h3 : alookup counts2 parent with _ | cnt
    · -- memo miss: recursive extraction
      have hrec := hIH parent counts2
        (if forward then mapAppendL links2 p [parent] else mapAppendL links2 parent [p])
        hpsome (by omega) h3 (fun k c hkc hkd => hGB k c hkc (by omega))
      obtain ⟨hr1, hrGB, hrp, hrun, hrlinks⟩ := hrec
      set rr := extractGo ps forward fuel parent counts2
        (if forward then mapAppendL links2 p [parent] else mapAppendL links2 parent [p])
        with hrr
      have hstep2 : extractStep ps forward fuel p (pre, counts2, links2) parent =
          (pre ++ [parent], countsAdd rr.2.1 p rr.1, rr.2.2) := by
        unfold extractStep
        rw [if_neg hguard, h3]
      rw [hstep2, hlist]
      have hrGBp : GoodBelow δ γ rr.2.1 (δ p) := by
        intro k c hkc hkd
        by_cases hkpar : k = parent
        · subst hkpar
          rcases hrp with h4 | h4
          · rw [h4] at hkc
            cases hkc
          · rw [h4] at hkc
            cases hkc
            rfl
        · by_cases hkd2 : δ k < δ parent
          · exact hrGB k c hkc hkd2
          · have h5 := hrun k hkpar (by omega)
            rw [h5] at hkc
            exact hGB k c hkc hkd
      have hrpent : alookup rr.2.1 p = alookup counts2 p :=
        hrun p hppne (by omega)
      refine ih (pre ++ [parent]) (countsAdd rr.2.1 p rr.1) rr.2.2 counts links
        hpre2 ?_ ?_ ?_ ?_
      · rw [countsAdd_self, if_neg hprene, hrpent, hgetD, hr1, Nat.mod_add_mod, hsum2]
      · intro k c hkc hkd
        have hkp : k ≠ p := by
          intro h4
          subst h4
          omega
        rw [countsAdd_ne rr.2.1 p k rr.1 hkp] at hkc
        exact hrGBp k c hkc hkd
      · intro k hkp hkd
        rw [countsAdd_ne rr.2.1 p k rr.1 hkp]
        have hkpar : k ≠ parent := by
          intro h4
          subst h4
          omega
        rw [hrun k hkpar (by omega)]
        exact huntouched k hkp hkd
      · exact linksGrow_trans ps forward links _ _ hlinks2 hrlinks
    · -- memo hit: the cached count is correct
      have hstep2 : extractStep ps forward fuel p (pre, counts2, links2) parent =
          (pre ++ [parent], countsAdd counts2 p cnt,
            if forward then mapAppendL links2 p [parent]
            else mapAppendL links2 parent [p]) := by
        unfold extractStep
        rw [if_neg hguard, h3]
      rw [hstep2, hlist]
      have hcnt : cnt = γ parent := hGB parent cnt h3 (by omega)
      refine ih (pre ++ [parent]) (countsAdd counts2 p cnt) _ counts links
        hpre2 ?_ ?_ ?_ hlinks2
      · rw [countsAdd_self, if_neg hprene, hgetD, hcnt, Nat.mod_add_mod, hsum2]
      · intro k c hkc hkd
        have hkp : k ≠ p := by
          intro h4
          subst h4
          omega
        rw [countsAdd_ne counts2 p k cnt hkp] at hkc
        exact hGB k c hkc hkd
      · intro k hkp hkd
        rw [countsAdd_ne counts2 p k cnt hkp]
        exact huntouched k hkp hkd

/-- Full correctness of `extractPathCount` against the abstract count `γ`. -/
theorem extractGo_spec (ps : List (Nat × List Nat)) (forward : Bool)
    (δ γ : Nat → Nat) (hbase : ExtractHyp ps δ γ) :
    ∀ fuel p counts links, (alookup ps p).isSome → δ p < fuel →
      alookup counts p = none → GoodBelow δ γ counts (δ p) →
      ExtractOut ps forward δ γ p counts links
        (extractGo ps forward fuel p counts links) := by
  intro fuel
  induction fuel with
  | zero =>
    intro p counts links _ hfuel _ _
    omega
  | succ fuel ih =>
    intro p counts links hpsome hfuel hnone hGB
    obtain ⟨pl, hpl⟩ : ∃ pl, alookup ps p = some pl := by
      rcases h2 : alookup ps p with _ | pl
      · rw [h2] at hpsome
        cases hpsome
      · exact ⟨pl, rfl⟩
    have hgetD : (alookup ps p).getD [] = pl := by
      rw [hpl]
      rfl
    rw [extractGo_succ, hgetD]
    by_cases hple : pl = []
    · rw [if_pos hple]
      refine ⟨((hbase p pl hpl).1 hple).symm, hGB, Or.inl hnone, fun k _ _ => rfl,
        linksGrow_refl ps forward links⟩
    · rw [if_neg hple]
      obtain ⟨hnd, hsum, hpar⟩ := (hbase p pl hpl).2 hple
      have hloop := extractLoop_spec ps forward δ γ fuel p pl hpl hnd hpar hfuel
        (fun p2 c2 l2 h1 h2 h3 h4 => ih p2 c2 l2 h1 h2 h3 h4)
        pl [] counts links counts links rfl (by rw [if_pos rfl]; exact hnone) hGB
        (fun k _ _ => rfl) (linksGrow_refl ps forward links)
      obtain ⟨hent, hGB2, hun2, hlinks2⟩ := hloop
      rw [List.nil_append] at hent
      rw [if_neg hple] at hent
      refine ⟨?_, hGB2, Or.inr (by rw [hent, hsum]), hun2, hlinks2⟩
      show (alookup (pl.foldl (extractStep ps forward fuel p) ([], counts, links)).2.1
        p).getD 0 = γ p
      rw [hent, hsum]
      rfl

/-- Any realized distance is bounded by the number of pages carrying
edges. -/
theorem depth_le_nodes (adj : Nat → List Nat) (s0 v0 d0 : Nat)
    (hv0d : IsDist adj s0 v0 d0) (nodes : List Nat)
    (hn : ∀ v, ∀ w ∈ adj v, w ∈ nodes) : d0 ≤ nodes.length := by
  classical
  have hex : ∀ k : Nat, ∃ w, k ≤ d0 → IsDist adj s0 w k := by
    intro k
    by_cases hk : k ≤ d0
    · obtain ⟨w, hw⟩ := sphere_nonempty_of_le adj s0 v0 d0 k hv0d hk
      exact ⟨w, fun _ => hw⟩
    · exact ⟨0, fun h2 => absurd h2 hk⟩
  choose f hf using hex
  have hmem : ∀ k, 1 ≤ k → k ≤ d0 → f k ∈ nodes := by
    intro k h1 h2
    have hd := hf k h2
    match k, h1, hd with
    | k2 + 1, _, hd =>
      obtain ⟨u, _, hadj⟩ := hd.1
      exact hn u (f (k2 + 1)) hadj
  have hinj : ∀ k1, k1 ≤ d0 → ∀ k2, k2 ≤ d0 → f k1 = f k2 → k1 = k2 := by
    intro k1 h1 k2 h2 heq
    exact isDist_unique adj s0 (f k1) k1 k2 (hf k1 h1) (heq ▸ hf k2 h2)
  have hlist : ((List.range d0).map fun i => f (i + 1)).Nodup := by
    apply List.Nodup.map_on ?_ (List.nodup_range d0)
    intro i hi j hj hij
    have hi2 : i + 1 ≤ d0 := by
      rw [List.mem_range] at hi
      omega
    have hj2 : j + 1 ≤ d0 := by
      rw [List.mem_range] at hj
      omega
    have := hinj (i + 1) hi2 (j + 1) hj2 hij
    omega
  have hsub : ((List.range d0).map fun i => f (i + 1)).toFinset ⊆ nodes.toFinset := by
    intro x hx
    rw [List.mem_toFinset] at hx ⊢
    obtain ⟨i, hi, hfi⟩ := List.mem_map.mp hx
    rw [List.mem_range] at hi
    exact hfi ▸ hmem (i + 1) (by omega) (by omega)
  have h1 : ((List.range d0).map fun i => f (i + 1)).toFinset.card = d0 := by
    rw [List.toFinset_card_of_nodup hlist, List.length_map, List.length_range]
  have h2 : nodes.toFinset.card ≤ nodes.length := nodes.toFinset_card_le
  have h3 := Finset.card_le_card hsub
  omega

/-- The backward parent map satisfies the extraction contract with the
geodesic count towards `t` as the abstract count. -/
theorem extractHyp_bp (store : Store) (hcons : StoreConsistent store)
    (s t : Nat) (stE : BfsState) (hinv : SearchInv store s t stE)
    (δT : Nat → Nat) (hδT : ∀ v d, IsDist store.inc t v d → δT v = d) :
    ExtractHyp stE.bp δT (fun v => nPathsFrom store.out t (δT v) v % 2 ^ 64) := by
  intro v l hl
  constructor
  · intro hle
    subst hle
    have hvt : v = t := by
      by_contra hvt
      obtain ⟨_, d, h1d, hdB, hdist, hchar⟩ := hinv.bSide.par v [] hl hvt
      have hd2 : d = (d - 1) + 1 := by omega
      rw [hd2] at hdist
      obtain ⟨_, u, hu, hadj⟩ := (isDist_succ_iff store.inc t v (d - 1)).mp hdist
      exact (by cases (hchar u).mpr ⟨hu, hadj⟩ : False)
    subst hvt
    show nPathsFrom store.out v (δT v) v % 2 ^ 64 = 1
    rw [hδT v 0 (isDist_self store.inc v), nPathsFrom, if_pos rfl]
    norm_num
  · intro hne
    have hvt : v ≠ t := by
      intro hvt
      subst hvt
      rw [hinv.bSide.src] at hl
      cases hl
      exact hne rfl
    obtain ⟨hnd, d, h1d, hdB, hdist, hchar⟩ := hinv.bSide.par v l hl hvt
    have hδv : δT v = d := hδT v d hdist
    refine ⟨hnd, ?_, ?_⟩
    · -- the count recursion, wrapped on both sides
      show nPathsFrom store.out t (δT v) v % 2 ^ 64 =
        (l.map fun u => nPathsFrom store.out t (δT u) u % 2 ^ 64).sum % 2 ^ 64
      rw [hδv]
      have hchar2 : ∀ u, u ∈ l ↔ (IsDist store.inc t u (d - 1) ∧ u ∈ store.out v) := by
        intro u
        rw [hchar u]
        constructor
        · rintro ⟨h2, h3⟩
          exact ⟨h2, (hcons u v).mp h3⟩
        · rintro ⟨h2, h3⟩
          exact ⟨h2, (hcons u v).mpr h3⟩
      rw [nPathsFrom_layer_rec store hcons t v d hdist h1d l hnd hchar2]
      have hmapδ : (l.map fun u => nPathsFrom store.out t (δT u) u % 2 ^ 64) =
          (l.map fun u => nPathsFrom store.out t (d - 1) u % 2 ^ 64) := by
        apply List.map_congr_left
        intro u hu
        rw [hδT u (d - 1) ((hchar u).mp hu).1]
      rw [hmapδ, sum_map_mod]
    · intro u hu
      obtain ⟨hud, hadj⟩ := (hchar u).mp hu
      refine ⟨(hinv.bSide.dom u).mpr ⟨d - 1, by omega, hud⟩, ?_⟩
      rw [hδT u (d - 1) hud, hδv]
      omega

/-- The forward parent map satisfies the extraction contract with the
geodesic count from `s` as the abstract count. -/
theorem extractHyp_fp (store : Store) (s t : Nat) (stE : BfsState)
    (hinv : SearchInv store s t stE)
    (δS : Nat → Nat) (hδS : ∀ v d, IsDist store.out s v d → δS v = d) :
    ExtractHyp stE.fp δS (fun v => nPathsFrom store.out v (δS v) s % 2 ^ 64) := by
  intro v l hl
  constructor
  · intro hle
    subst hle
    have hvs : v = s := by
      by_contra hvs
      obtain ⟨_, d, h1d, hdF, hdist, hchar⟩ := hinv.fSide.par v [] hl hvs
      have hd2 : d = (d - 1) + 1 := by omega
      rw [hd2] at hdist
      obtain ⟨_, u, hu, hadj⟩ := (isDist_succ_iff store.out s v (d - 1)).mp hdist
      exact (by cases (hchar u).mpr ⟨hu, hadj⟩ : False)
    subst hvs
    show nPathsFrom store.out v (δS v) v % 2 ^ 64 = 1
    rw [hδS v 0 (isDist_self store.out v), nPathsFrom, if_pos rfl]
    norm_num
  · intro hne
    have hvs : v ≠ s := by
      intro hvs
      subst hvs
      rw [hinv.fSide.src] at hl
      cases hl
      exact hne rfl
    obtain ⟨hnd, d, h1d, hdF, hdist, hchar⟩ := hinv.fSide.par v l hl hvs
    have hδv : δS v = d := hδS v d hdist
    refine ⟨hnd, ?_, ?_⟩
    · show nPathsFrom store.out v (δS v) s % 2 ^ 64 =
        (l.map fun u => nPathsFrom store.out u (δS u) s % 2 ^ 64).sum % 2 ^ 64
      rw [hδv]
      rw [nPathsFrom_last_edge store.out s v d hdist h1d l hnd hchar]
      have hmapδ : (l.map fun u => nPathsFrom store.out u (δS u) s % 2 ^ 64) =
          (l.map fun u => nPathsFrom store.out u (d - 1) s % 2 ^ 64) := by
        apply List.map_congr_left
        intro u hu
        rw [hδS u (d - 1) ((hchar u).mp hu).1]
      rw [hmapδ, sum_map_mod]
    · intro u hu
      obtain ⟨hud, hadj⟩ := (hchar u).mp hu
      refine ⟨(hinv.fSide.dom u).mpr ⟨d - 1, by omega, hud⟩, ?_⟩
      rw [hδS u (d - 1) hud, hδv]
      omega

/-- An edge recorded in the final links map, in either extraction
direction. -/
def TypedEdge (st : BfsState) (a b : Nat) : Prop :=
  b ∈ lookupV st.bp a ∨ a ∈ lookupV st.fp b

/-- One overlap of the backtracking loop, named for the induction. -/
def backtrackStep (stE : BfsState) (exFuel : Nat)
    (acc : Nat × (List (Nat × Nat) × List (Nat × Nat)) × List (Nat × List Nat))
    (m : Nat) : Nat × (List (Nat × Nat) × List (Nat × Nat)) × List (Nat × List Nat) :=
  let f := extractGo stE.bp true exFuel m acc.2.1.1 acc.2.2
  let b := extractGo stE.fp false exFuel m acc.2.1.2 f.2.2
  ((acc.1 + f.1 * b.1) % 2 ^ 64, (f.2.1, b.2.1), b.2.2)

theorem backtrack_eq (stE : BfsState) (exFuel : Nat) :
    backtrack stE exFuel =
      ((stE.ovl.foldl (backtrackStep stE exFuel) (0, ([], []), [])).1,
        (stE.ovl.foldl (backtrackStep stE exFuel) (0, ([], []), [])).2.2) := rfl

/-- The backtracking loop sums the products of the two geodesic counts over
the overlaps, and every link it records is a parent edge of one side. -/
theorem backtrack_loop (stE : BfsState) (exFuel : Nat)
    (δT δS γT γS : Nat → Nat)
    (hbp : ExtractHyp stE.bp δT γT) (hfp : ExtractHyp stE.fp δS γS)
    (hT : ∀ m ∈ stE.ovl, (alookup stE.bp m).isSome ∧ δT m = stE.bd ∧ δT m < exFuel)
    (hS : ∀ m ∈ stE.ovl, (alookup stE.fp m).isSome ∧ δS m = stE.fd ∧ δS m < exFuel)
    (hnd : stE.ovl.Nodup) :
    ∀ rest pre acc,
      stE.ovl = pre ++ rest →
      acc.1 = (pre.map fun m => γT m * γS m).sum % 2 ^ 64 →
      (∀ k c, alookup acc.2.1.1 k = some c → c = γT k ∧ (δT k < stE.bd ∨ k ∈ pre)) →
      (∀ k c, alookup acc.2.1.2 k = some c → c = γS k ∧ (δS k < stE.fd ∨ k ∈ pre)) →
      (∀ a b, b ∈ lookupV acc.2.2 a → TypedEdge stE a b) →
      (rest.foldl (backtrackStep stE exFuel) acc).1 =
        ((pre ++ rest).map fun m => γT m * γS m).sum % 2 ^ 64 ∧
      (∀ a b, b ∈ lookupV (rest.foldl (backtrackStep stE exFuel) acc).2.2 a →
        TypedEdge stE a b) := by
  intro rest
  induction rest with
  | nil =>
    intro pre acc hpre hsum hF hB hlinks
    rw [List.foldl_nil, List.append_nil]
    exact ⟨hsum, hlinks⟩
  | cons m rest2 ih =>
    intro pre acc hpre hsum hF hB hlinks
    rw [List.foldl_cons]
    have hmovl : m ∈ stE.ovl := by
      rw [hpre]
      exact List.mem_append.mpr (Or.inr (List.mem_cons_self m rest2))
    have hmpre : ¬m ∈ pre := by
      intro h2
      exact List.disjoint_of_nodup_append (hpre ▸ hnd) h2 (List.mem_cons_self m rest2)
    obtain ⟨hTsome, hTd, hTf⟩ := hT m hmovl
    obtain ⟨hSsome, hSd, hSf⟩ := hS m hmovl
    -- the forward extraction over the backward parents
    have hfnone : alookup acc.2.1.1 m = none := by
      rcases h2 : alookup acc.2.1.1 m with _ | c
      · rfl
      · rcases (hF m c h2).2 with h3 | h3
        · omega
        · exact absurd h3 hmpre
    have hfGB : GoodBelow δT γT acc.2.1.1 (δT m) := by
      intro k c hkc hkd
      exact (hF k c hkc).1
    have hf := extractGo_spec stE.bp true δT γT hbp exFuel m acc.2.1.1 acc.2.2
      hTsome hTf hfnone hfGB
    obtain ⟨hf1, hfGB2, hfm, hfun, hflinks⟩ := hf
    set f := extractGo stE.bp true exFuel m acc.2.1.1 acc.2.2 with hfdef
    -- the backward extraction over the forward parents
    have hbnone : alookup acc.2.1.2 m = none := by
      rcases h2 : alookup acc.2.1.2 m with _ | c
      · rfl
      · rcases (hB m c h2).2 with h3 | h3
        · omega
        · exact absurd h3 hmpre
    have hbGB : GoodBelow δS γS acc.2.1.2 (δS m) := by
      intro k c hkc hkd
      exact (hB k c hkc).1
    have hb := extractGo_spec stE.fp false δS γS hfp exFuel m acc.2.1.2 f.2.2
      hSsome hSf hbnone hbGB
    obtain ⟨hb1, hbGB2, hbm, hbun, hblinks⟩ := hb
    set b := extractGo stE.fp false exFuel m acc.2.1.2 f.2.2 with hbdef
    have hstep : backtrackStep stE exFuel acc m =
        ((acc.1 + f.1 * b.1) % 2 ^ 64, (f.2.1, b.2.1), b.2.2) := rfl
    rw [hstep]
    have hpre2 : stE.ovl = (pre ++ [m]) ++ rest2 := by
      rw [hpre, List.append_assoc]
      rfl
    have hlist : pre ++ m :: rest2 = (pre ++ [m]) ++ rest2 := by
      rw [List.append_assoc]
      rfl
    rw [hlist]
    apply ih (pre ++ [m]) ((acc.1 + f.1 * b.1) % 2 ^ 64, (f.2.1, b.2.1), b.2.2) hpre2
    · show (acc.1 + f.1 * b.1) % 2 ^ 64 =
        ((pre ++ [m]).map fun m2 => γT m2 * γS m2).sum % 2 ^ 64
      rw [hsum, hf1, hb1, Nat.mod_add_mod, List.map_append, List.sum_append]
      rfl
    · intro k c hkc
      show c = γT k ∧ (δT k < stE.bd ∨ k ∈ pre ++ [m])
      by_cases hkm : k = m
      · subst hkm
        rcases hfm with h3 | h3
        · rw [h3] at hkc
          cases hkc
        · rw [h3] at hkc
          cases hkc
          exact ⟨rfl, Or.inr (List.mem_append.mpr (Or.inr (List.mem_singleton.mpr rfl)))⟩
      · by_cases hkd : δT k < δT m
        · exact ⟨hfGB2 k c hkc hkd, Or.inl (by omega)⟩
        · rw [hfun k hkm (by omega)] at hkc
          obtain ⟨h3, h4⟩ := hF k c hkc
          refine ⟨h3, ?_⟩
          rcases h4 with h5 | h5
          · exact Or.inl h5
          · exact Or.inr (List.mem_append.mpr (Or.inl h5))
    · intro k c hkc
      show c = γS k ∧ (δS k < stE.fd ∨ k ∈ pre ++ [m])
      by_cases hkm : k = m
      · subst hkm
        rcases hbm with h3 | h3
        · rw [h3] at hkc
          cases hkc
        · rw [h3] at hkc
          cases hkc
          exact ⟨rfl, Or.inr (List.mem_append.mpr (Or.inr (List.mem_singleton.mpr rfl)))⟩
      · by_cases hkd : δS k < δS m
        · exact ⟨hbGB2 k c hkc hkd, Or.inl (by omega)⟩
        · rw [hbun k hkm (by omega)] at hkc
          obtain ⟨h3, h4⟩ := hB k c hkc
          refine ⟨h3, ?_⟩
          rcases h4 with h5 | h5
          · exact Or.inl h5
          · exact Or.inr (List.mem_append.mpr (Or.inl h5))
    · intro a b2 hb2
      rcases hblinks a b2 hb2 with h3 | h3
      · rcases hflinks a b2 h3 with h4 | h4
        · exact hlinks a b2 h4
        · rw [if_pos rfl] at h4
          exact Or.inl h4
      · rw [if_neg (fun h4 => Bool.false_ne_true h4)] at h3
        exact Or.inr h3

/-- Every recorded link edge is a graph edge sitting between consecutive
breadth-first layers of one of the two searches. -/
theorem typedEdge_facts (store : Store) (hcons : StoreConsistent store)
    (s t : Nat) (stE : BfsState) (hinv : SearchInv store s t stE)
    (a b : Nat) (h : TypedEdge stE a b) :
    b ∈ store.out a ∧
      ((∃ d, 1 ≤ d ∧ d ≤ stE.bd ∧ IsDist store.inc t a d ∧
        IsDist store.inc t b (d - 1)) ∨
       (∃ d, 1 ≤ d ∧ d ≤ stE.fd ∧ IsDist store.out s b d ∧
        IsDist store.out s a (d - 1))) := by
  rcases h with h | h
  · rw [lookupV] at h
    rcases h2 : alookup stE.bp a with _ | l
    · rw [h2] at h
      cases h
    · rw [h2] at h
      have hat : a ≠ t := by
        intro hat
        subst hat
        rw [hinv.bSide.src] at h2
        cases h2
        cases h
      obtain ⟨_, d, h1d, hdB, hdist, hchar⟩ := hinv.bSide.par a l h2 hat
      obtain ⟨hb1, hb2⟩ := (hchar b).mp h
      exact ⟨(hcons b a).mp hb2, Or.inl ⟨d, h1d, hdB, hdist, hb1⟩⟩
  · rw [lookupV] at h
    rcases h2 : alookup stE.fp b with _ | l
    · rw [h2] at h
      cases h
    · rw [h2] at h
      have hbs : b ≠ s := by
        intro hbs
        subst hbs
        rw [hinv.fSide.src] at h2
        cases h2
        cases h
      obtain ⟨_, d, h1d, hdF, hdist, hchar⟩ := hinv.fSide.par b l h2 hbs
      obtain ⟨ha1, ha2⟩ := (hchar a).mp h
      exact ⟨ha2, Or.inr ⟨d, h1d, hdF, hdist, ha1⟩⟩

/-- The descending phase of a links path: once a node sits at a backward
distance within the backward ball, the remaining path steps straight down to
the target. -/
theorem chainB (store : Store) (hcons : StoreConsistent store)
    (s t : Nat) (stE : BfsState) (hinv : SearchInv store s t stE)
    (hgood : ExitGood store s t stE) :
    ∀ l2 x j, IsDist store.inc t x j → j ≤ stE.bd →
      List.Chain' (TypedEdge stE) (x :: l2) → (x :: l2).getLast? = some t →
      l2.length = j := by
  intro l2
  induction l2 with
  | nil =>
    intro x j hx hjB _ hlast
    rw [List.getLast?_singleton] at hlast
    have hxt : x = t := Option.some.inj hlast
    rw [hxt] at hx
    have hj0 : j = 0 :=
      isDist_unique store.inc t t j 0 hx (isDist_self store.inc t)
    rw [List.length_nil, hj0]
  | cons y l3 ih =>
    intro x j hx hjB hchain hlast
    rcases List.chain'_cons.mp hchain with ⟨hedge, hchain2⟩
    obtain ⟨hout, hfacts⟩ := typedEdge_facts store hcons s t stE hinv x y hedge
    rcases hfacts with ⟨d, h1d, hdB, hdx, hdy⟩ | ⟨d, h1d, hdF, hdy, hdx⟩
    · have hdj : d = j := isDist_unique store.inc t x d j hdx hx
      subst hdj
      have hlen := ih y (d - 1) hdy (by omega) hchain2
        (by rw [List.getLast?_cons_cons] at hlast; exact hlast)
      rw [List.length_cons, hlen]
      omega
    · -- a forward-typed edge would force the tail to sit in both balls
      exfalso
      have hxfp : (alookup stE.fp x).isSome :=
        (hinv.fSide.dom x).mpr ⟨d - 1, by omega, hdx⟩
      have hxbp : (alookup stE.bp x).isSome :=
        (hinv.bSide.dom x).mpr ⟨j, hjB, hx⟩
      have hxovl : x ∈ stE.ovl := (hinv.ovlSet x).mpr ⟨hxfp, hxbp⟩
      obtain ⟨hxF, hxB⟩ := hgood.1 x hxovl
      have := isDist_unique store.out s x (d - 1) stE.fd hdx hxF
      omega

/-- The ascending phase of a links path: from the source the path climbs the
forward layers, switches at an overlap, and descends to the target; its
total edge count is forced. -/
theorem chainF (store : Store) (hcons : StoreConsistent store)
    (s t : Nat) (stE : BfsState) (hinv : SearchInv store s t stE)
    (hgood : ExitGood store s t stE) :
    ∀ l2 x j, IsDist store.out s x j → j ≤ stE.fd →
      List.Chain' (TypedEdge stE) (x :: l2) → (x :: l2).getLast? = some t →
      l2.length = (stE.fd - j) + stE.bd := by
  intro l2
  induction l2 with
  | nil =>
    intro x j hx hjF _ hlast
    rw [List.getLast?_singleton] at hlast
    have hxt : x = t := Option.some.inj hlast
    subst hxt
    have hxfp : (alookup stE.fp x).isSome :=
      (hinv.fSide.dom x).mpr ⟨j, hjF, hx⟩
    have hxbp : (alookup stE.bp x).isSome := by
      rw [hinv.bSide.src]
      rfl
    have hxovl : x ∈ stE.ovl := (hinv.ovlSet x).mpr ⟨hxfp, hxbp⟩
    obtain ⟨hxF, hxB⟩ := hgood.1 x hxovl
    have h1 : j = stE.fd := isDist_unique store.out s x j stE.fd hx hxF
    have h2 : stE.bd = 0 :=
      isDist_unique store.inc x x stE.bd 0 hxB (isDist_self store.inc x)
    rw [List.length_nil, h2, ← h1]
    omega
  | cons y l3 ih =>
    intro x j hx hjF hchain hlast
    rcases List.chain'_cons.mp hchain with ⟨hedge, hchain2⟩
    obtain ⟨hout, hfacts⟩ := typedEdge_facts store hcons s t stE hinv x y hedge
    rcases hfacts with ⟨d, h1d, hdB, hdx, hdy⟩ | ⟨d, h1d, hdF, hdy, hdx⟩
    · -- the switch: x is an overlap, the rest descends
      have hxfp : (alookup stE.fp x).isSome :=
        (hinv.fSide.dom x).mpr ⟨j, hjF, hx⟩
      have hxbp : (alookup stE.bp x).isSome :=
        (hinv.bSide.dom x).mpr ⟨d, hdB, hdx⟩
      have hxovl : x ∈ stE.ovl := (hinv.ovlSet x).mpr ⟨hxfp, hxbp⟩
      obtain ⟨hxF, hxB⟩ := hgood.1 x hxovl
      have h1 : j = stE.fd := isDist_unique store.out s x j stE.fd hx hxF
      have h2 : d = stE.bd := isDist_unique store.inc t x d stE.bd hdx hxB
      have hlen := chainB store hcons s t stE hinv hgood l3 y (d - 1) hdy
        (by omega) hchain2
        (by rw [List.getLast?_cons_cons] at hlast; exact hlast)
      rw [List.length_cons, hlen]
      omega
    · -- a forward step one layer up
      have hdj : d - 1 = j := isDist_unique store.out s x (d - 1) j hdx hx
      have hlen := ih y d hdy (by omega) hchain2
        (by rw [List.getLast?_cons_cons] at hlast; exact hlast)
      rw [List.length_cons, hlen]
      omega

/-- When neither endpoint is a redirect, the query reduces to the plain
search between the given pages. -/
theorem getShortestPathsWith_noredir (store : Store) (lang : String) (s t : Nat)
    (loopFuel exFuel : Nat) (hs : store.redirect s = 0) (ht : store.redirect t = 0) :
    getShortestPathsWith store lang s t loopFuel exFuel =
      { languageCode := lang
        links := (backtrack (bfsLoop store loopFuel
            ⟨[(s, [])], [(t, [])], [s], [t], if s = t then [s] else [], 0, 0⟩)
          exFuel).2.map fun e => (e.1, sortAsc e.2)
        pathCount := (backtrack (bfsLoop store loopFuel
            ⟨[(s, [])], [(t, [])], [s], [t], if s = t then [s] else [], 0, 0⟩)
          exFuel).1
        pathDegrees := if (backtrack (bfsLoop store loopFuel
            ⟨[(s, [])], [(t, [])], [s], [t], if s = t then [s] else [], 0, 0⟩)
            exFuel).1 ≠ 0 then
            (bfsLoop store loopFuel
              ⟨[(s, [])], [(t, [])], [s], [t], if s = t then [s] else [], 0, 0⟩).fd +
            (bfsLoop store loopFuel
              ⟨[(s, [])], [(t, [])], [s], [t], if s = t then [s] else [], 0, 0⟩).bd
          else 0
        sourceId := s
        targetId := t
        sourceIsRedir := false
        targetIsRedir := false } := by
  unfold getShortestPathsWith
  rw [hs, ht]
  simp only [ne_eq, not_true_eq_false, if_false, decide_not]
  rfl

/-- The full behaviour of a search: with consistent adjacency tables,
finitely supported edges, both endpoints free of redirects, and the target
reachable at distance `D`, `pathCount` is the number of distinct shortest
paths reduced modulo `2 ^ 64` (the wrap of Go's 64-bit `int` counters),
`pathDegrees` is the distance exactly when that wrapped count is nonzero
(and `0` otherwise, by the `PathCount != 0` guard), the enumeration
`pathsEnum` is duplicate-free and holds exactly the length-`D` walks, and
every source-to-target path read off `links` is one of those walks. -/
theorem search_spec (store : Store) (lang : String) (s t : Nat)
    (hcons : StoreConsistent store) (hfin : StoreFinite store)
    (hs : store.redirect s = 0) (ht : store.redirect t = 0)
    (D : Nat) (hD : IsDist store.out s t D) :
    (getShortestPaths store lang s t).pathDegrees =
      (if (pathsEnum store.out t D s).length % 2 ^ 64 ≠ 0 then D else 0) ∧
    (getShortestPaths store lang s t).pathCount =
      (pathsEnum store.out t D s).length % 2 ^ 64 ∧
    (pathsEnum store.out t D s).Nodup ∧
    (∀ l, l ∈ pathsEnum store.out t D s ↔
      (l.length = D + 1 ∧ l.head? = some s ∧ l.getLast? = some t ∧
        l.Chain' fun a b => b ∈ store.out a)) ∧
    (∀ l, l.head? = some s → l.getLast? = some t →
      l.Chain' (fun a b => b ∈ lookupV (getShortestPaths store lang s t).links a) →
      l ∈ pathsEnum store.out t D s) := by
  classical
  obtain ⟨hinv, hgood, hovlne⟩ := bfsLoop_final store hcons hfin s t D hD
    (2 * store.nodes.length + 2) (le_refl _)
  set stE := bfsLoop store (2 * store.nodes.length + 2)
    ⟨[(s, [])], [(t, [])], [s], [t], if s = t then [s] else [], 0, 0⟩ with hstE
  -- the level functions, chosen classically
  obtain ⟨δT, hδT⟩ : ∃ δT : Nat → Nat, ∀ v d, IsDist store.inc t v d → δT v = d := by
    refine ⟨fun v => if h : ∃ d, IsDist store.inc t v d then h.choose else 0, ?_⟩
    intro v d hd
    show (if h : ∃ d2, IsDist store.inc t v d2 then h.choose else 0) = d
    have hex : ∃ d2, IsDist store.inc t v d2 := ⟨d, hd⟩
    rw [dif_pos hex]
    exact isDist_unique store.inc t v hex.choose d hex.choose_spec hd
  obtain ⟨δS, hδS⟩ : ∃ δS : Nat → Nat, ∀ v d, IsDist store.out s v d → δS v = d := by
    refine ⟨fun v => if h : ∃ d, IsDist store.out s v d then h.choose else 0, ?_⟩
    intro v d hd
    show (if h : ∃ d2, IsDist store.out s v d2 then h.choose else 0) = d
    have hex : ∃ d2, IsDist store.out s v d2 := ⟨d, hd⟩
    rw [dif_pos hex]
    exact isDist_unique store.out s v hex.choose d hex.choose_spec hd
  have hbp := extractHyp_bp store hcons s t stE hinv δT hδT
  have hfp := extractHyp_fp store s t stE hinv δS hδS
  -- the depth bounds, from any overlap
  obtain ⟨m0, hm0⟩ : ∃ m0, m0 ∈ stE.ovl := by
    cases h2 : stE.ovl with
    | nil => exact absurd h2 hovlne
    | cons a l2 => exact ⟨a, h2 ▸ List.mem_cons_self a l2⟩
  obtain ⟨hm0F, hm0B⟩ := hgood.1 m0 hm0
  have hFN : stE.fd ≤ store.nodes.length :=
    depth_le_nodes store.out s m0 stE.fd hm0F store.nodes
      (fun v w hw => (hfin.1 v w hw).2)
  have hBN : stE.bd ≤ store.nodes.length :=
    depth_le_nodes store.inc t m0 stE.bd hm0B store.nodes
      (fun v w hw => (hfin.2 v w hw).2)
  have hD2 : D = stE.fd + stE.bd :=
    isDist_unique store.out s t D (stE.fd + stE.bd) hD hgood.2
  -- the backtracking loop, summed over the overlaps
  have hbt := backtrack_loop stE (store.nodes.length + 1) δT δS
    (fun v => nPathsFrom store.out t (δT v) v % 2 ^ 64)
    (fun v => nPathsFrom store.out v (δS v) s % 2 ^ 64) hbp hfp
    (fun m hm => ⟨((hinv.ovlSet m).mp hm).2, hδT m stE.bd (hgood.1 m hm).2,
      by rw [hδT m stE.bd (hgood.1 m hm).2]; omega⟩)
    (fun m hm => ⟨((hinv.ovlSet m).mp hm).1, hδS m stE.fd (hgood.1 m hm).1,
      by rw [hδS m stE.fd (hgood.1 m hm).1]; omega⟩)
    hinv.ovlNd stE.ovl [] (0, ([], []), []) rfl rfl
    (fun k c h2 => by cases h2) (fun k c h2 => by cases h2)
    (fun a b h2 => by cases h2)
  rw [List.nil_append] at hbt
  obtain ⟨hbtsum, hbtlinks⟩ := hbt
  -- the count over the overlaps is the full geodesic count
  have hsplit := nPathsFrom_split store.out t s stE.fd stE.bd stE.ovl hinv.ovlNd ?_
  · have hterms : (stE.ovl.map fun m =>
        nPathsFrom store.out m stE.fd s * nPathsFrom store.out t stE.bd m).sum =
        (stE.ovl.map fun m =>
          nPathsFrom store.out t (δT m) m * nPathsFrom store.out m (δS m) s).sum := by
      apply congrArg
      apply List.map_congr_left
      intro m hm
      rw [hδT m stE.bd (hgood.1 m hm).2, hδS m stE.fd (hgood.1 m hm).1]
      exact Nat.mul_comm _ _
    have hbtsum2 : (stE.ovl.foldl (backtrackStep stE (store.nodes.length + 1))
        (0, ([], []), [])).1 =
        (stE.ovl.map fun m => (nPathsFrom store.out t (δT m) m % 2 ^ 64) *
          (nPathsFrom store.out m (δS m) s % 2 ^ 64)).sum % 2 ^ 64 := hbtsum
    have hcount : (backtrack stE (store.nodes.length + 1)).1 =
        nPathsFrom store.out t D s % 2 ^ 64 := by
      rw [backtrack_eq]
      show (stE.ovl.foldl (backtrackStep stE (store.nodes.length + 1))
        (0, ([], []), [])).1 = nPathsFrom store.out t D s % 2 ^ 64
      rw [hbtsum2, sum_map_mul_mod, ← hterms, ← hsplit, ← hD2]
    -- assemble the five statements
    have hg : getShortestPaths store lang s t =
        getShortestPathsWith store lang s t (2 * store.nodes.length + 2)
          (store.nodes.length + 1) := rfl
    rw [hg, getShortestPathsWith_noredir store lang s t _ _ hs ht]
    refine ⟨?_, ?_, pathsEnum_nodup store.out t D s, ?_, ?_⟩
    · show (if (backtrack stE (store.nodes.length + 1)).1 ≠ 0 then
        stE.fd + stE.bd else 0) =
        (if (pathsEnum store.out t D s).length % 2 ^ 64 ≠ 0 then D else 0)
      rw [hcount, pathsEnum_length, hD2]
    · show (backtrack stE (store.nodes.length + 1)).1 =
        (pathsEnum store.out t D s).length % 2 ^ 64
      rw [hcount, pathsEnum_length]
    · intro l
      exact mem_pathsEnum store.out t D s l
    · intro l hhead hlast hchain
      -- every links path is a typed chain, hence a geodesic
      have hchain2 : l.Chain' (TypedEdge stE) := by
        apply List.Chain'.imp ?_ hchain
        intro a b hab
        have hab2 : b ∈ lookupV (backtrack stE (store.nodes.length + 1)).2 a := by
          have hab3 : b ∈ lookupV ((backtrack stE (store.nodes.length + 1)).2.map
              fun e => (e.1, sortAsc e.2)) a := hab
          rw [lookupV,
            alookup_map_value (backtrack stE (store.nodes.length + 1)).2 sortAsc a] at hab3
          rw [lookupV]
          rcases h2 : alookup (backtrack stE (store.nodes.length + 1)).2 a with _ | l2
          · rw [h2] at hab3
            cases hab3
          · rw [h2] at hab3
            exact (List.Perm.mem_iff (List.perm_insertionSort (· ≤ ·) l2)).mp hab3
        exact hbtlinks a b hab2
      cases l with
      | nil => cases hhead
      | cons x l2 =>
        have hxs : s = x := (Option.some.inj hhead).symm
        subst hxs
        have hlen := chainF store hcons s t stE hinv hgood l2 s 0
          (isDist_self store.out s) (by omega) hchain2 hlast
        apply (mem_pathsEnum store.out t D s (s :: l2)).mpr
        refine ⟨?_, rfl, hlast, ?_⟩
        · rw [List.length_cons, hlen]
          omega
        · apply List.Chain'.imp ?_ hchain2
          intro a b hab
          exact (typedEdge_facts store hcons s t stE hinv a b hab).1
  · -- every split midpoint is an overlap
    intro m hm1 hm2
    have hfp_m : (alookup stE.fp m).isSome := by
      obtain ⟨d, hd⟩ := exists_isDist store.out s m stE.fd hm1
      exact (hinv.fSide.dom m).mpr
        ⟨d, isDist_le_of_pathLen store.out s m stE.fd d hd hm1, hd⟩
    have hbp_m : (alookup stE.bp m).isSome := by
      have hm3 : pathLen store.inc t stE.bd m :=
        (pathLen_inc_iff store hcons t stE.bd m).mpr hm2
      obtain ⟨d, hd⟩ := exists_isDist store.inc t m stE.bd hm3
      exact (hinv.bSide.dom m).mpr
        ⟨d, isDist_le_of_pathLen store.inc t m stE.bd d hd hm3, hd⟩
    exact (hinv.ovlSet m).mpr ⟨hfp_m, hbp_m⟩

/-- C1 (corrected): the returned `pathCount` is the exact number of
distinct shortest paths reduced modulo `2 ^ 64` — the wrapping of Go's
64-bit `int` path counters — and `pathDegrees` is the distance exactly when
that wrapped count is nonzero (the code's `PathCount != 0` guard); the
enumeration of the shortest paths is duplicate-free and characterized
exactly, and every source-to-target path read off the `links` map is a valid
shortest path.  The hypotheses are the build invariants of the stored
tables, redirect-free endpoints, and reachability at distance `D`. -/
theorem search_correctness (store : Store) (lang : String) (s t : Nat)
    (hcons : StoreConsistent store) (hfin : StoreFinite store)
    (hs : store.redirect s = 0) (ht : store.redirect t = 0)
    (D : Nat) (hD : IsDist store.out s t D) :
    (getShortestPaths store lang s t).pathDegrees =
      (if (pathsEnum store.out t D s).length % 2 ^ 64 ≠ 0 then D else 0) ∧
    (getShortestPaths store lang s t).pathCount =
      (pathsEnum store.out t D s).length % 2 ^ 64 ∧
    (pathsEnum store.out t D s).Nodup ∧
    (∀ l, l ∈ pathsEnum store.out t D s ↔
      (l.length = D + 1 ∧ l.head? = some s ∧ l.getLast? = some t ∧
        l.Chain' fun a b => b ∈ store.out a)) ∧
    (∀ l, l.head? = some s → l.getLast? = some t →
      l.Chain' (fun a b => b ∈ lookupV (getShortestPaths store lang s t).links a) →
      l ∈ pathsEnum store.out t D s) :=
  search_spec store lang s t hcons hfin hs ht D hD

/-- C1 witness: the two-page store with the single link 1 → 2, queried from
1 to 2 at distance 1; one path, no wrap. -/
theorem search_correctness_witness :
    (getShortestPaths ⟨[1, 2], fun _ => 0,
        fun v => if v = 1 then [2] else [],
        fun v => if v = 2 then [1] else []⟩ "en" 1 2).pathDegrees =
      (if (pathsEnum (fun v => if v = 1 then [2] else []) 2 1 1).length % 2 ^ 64 ≠ 0
       then 1 else 0) ∧
    (getShortestPaths ⟨[1, 2], fun _ => 0,
        fun v => if v = 1 then [2] else [],
        fun v => if v = 2 then [1] else []⟩ "en" 1 2).pathCount =
      (pathsEnum (fun v => if v = 1 then [2] else []) 2 1 1).length % 2 ^ 64 ∧
    (pathsEnum (fun v => if v = 1 then [2] else []) 2 1 1).Nodup ∧
    (∀ l, l ∈ pathsEnum (fun v => if v = 1 then [2] else []) 2 1 1 ↔
      (l.length = 1 + 1 ∧ l.head? = some 1 ∧ l.getLast? = some 2 ∧
        l.Chain' fun a b => b ∈ (if a = 1 then [2] else []))) ∧
    (∀ l, l.head? = some 1 → l.getLast? = some 2 →
      l.Chain' (fun a b => b ∈ lookupV (getShortestPaths ⟨[1, 2], fun _ => 0,
        fun v => if v = 1 then [2] else [],
        fun v => if v = 2 then [1] else []⟩ "en" 1 2).links a) →
      l ∈ pathsEnum (fun v => if v = 1 then [2] else []) 2 1 1) :=
  search_correctness ⟨[1, 2], fun _ => 0,
      fun v => if v = 1 then [2] else [],
      fun v => if v = 2 then [1] else []⟩ "en" 1 2
    (by
      intro v u
      show u ∈ (if v = 2 then [1] else []) ↔ v ∈ (if u = 1 then [2] else [])
      by_cases hv : v = 2
      · rw [if_pos hv]
        by_cases hu : u = 1
        · rw [if_pos hu, hv, hu]
          decide
        · rw [if_neg hu]
          constructor
          · intro h
            rcases List.mem_singleton.mp h with rfl
            exact absurd rfl hu
          · intro h
            cases h
      · rw [if_neg hv]
        constructor
        · intro h
          cases h
        · intro h
          by_cases hu : u = 1
          · rw [if_pos hu] at h
            rcases List.mem_singleton.mp h with rfl
            exact absurd rfl hv
          · rw [if_neg hu] at h
            cases h)
    (by
      constructor
      · intro v w hw
        have hw2 : w ∈ (if v = 1 then [2] else []) := hw
        show v ∈ [1, 2] ∧ w ∈ [1, 2]
        by_cases hv : v = 1
        · rw [if_pos hv] at hw2
          rcases List.mem_singleton.mp hw2 with rfl
          exact ⟨by rw [hv]; decide, by decide⟩
        · rw [if_neg hv] at hw2
          cases hw2
      · intro v w hw
        have hw2 : w ∈ (if v = 2 then [1] else []) := hw
        show v ∈ [1, 2] ∧ w ∈ [1, 2]
        by_cases hv : v = 2
        · rw [if_pos hv] at hw2
          rcases List.mem_singleton.mp hw2 with rfl
          exact ⟨by rw [hv]; decide, by decide⟩
        · rw [if_neg hv] at hw2
          cases hw2)
    rfl rfl 1
    ⟨⟨1, rfl, by decide⟩, by
      intro m hm hw
      have hm0 : m = 0 := by omega
      subst hm0
      have hw2 : (2 : Nat) = 1 := hw
      exact absurd hw2 (by decide)⟩

/-! ### A store on which the wrapping path counter overflows -/

/-- Sixty-four stacked two-way diamonds: hub `3j+1` links to the pair
`3j+2`, `3j+3`, which both link to the next hub `3j+4`; pages run from the
source 1 to the target 193. -/
def diamondOut (v : Nat) : List Nat :=
  if 1 ≤ v ∧ v ≤ 192 then
    (if v % 3 = 1 then [v + 1, v + 2] else if v % 3 = 2 then [v + 2] else [v + 1])
  else []

/-- The reverse adjacency of the diamond stack. -/
def diamondInc (v : Nat) : List Nat :=
  if 2 ≤ v ∧ v ≤ 193 then
    (if v % 3 = 1 then [v - 2, v - 1] else if v % 3 = 2 then [v - 1] else [v - 2])
  else []

def diamondStore : Store :=
  ⟨List.range' 1 193, fun _ => 0, diamondOut, diamondInc⟩

theorem mem_diamondOut (u w : Nat) :
    w ∈ diamondOut u ↔
      (1 ≤ u ∧ u ≤ 192 ∧
        ((u % 3 = 1 ∧ (w = u + 1 ∨ w = u + 2)) ∨
         (u % 3 = 2 ∧ w = u + 2) ∨
         (u % 3 = 0 ∧ w = u + 1))) := by
  unfold diamondOut
  by_cases hg : 1 ≤ u ∧ u ≤ 192
  · rw [if_pos hg]
    have h3 : u % 3 = 0 ∨ u % 3 = 1 ∨ u % 3 = 2 := by omega
    rcases h3 with h3 | h3 | h3
    · rw [if_neg (by omega : ¬u % 3 = 1), if_neg (by omega : ¬u % 3 = 2),
        List.mem_singleton]
      constructor
      · intro h
        exact ⟨hg.1, hg.2, Or.inr (Or.inr ⟨h3, h⟩)⟩
      · rintro ⟨_, _, (⟨h4, h5⟩ | ⟨h4, h5⟩ | ⟨h4, h5⟩)⟩
        · omega
        · omega
        · exact h5
    · rw [if_pos h3, List.mem_cons, List.mem_singleton]
      constructor
      · intro h
        exact ⟨hg.1, hg.2, Or.inl ⟨h3, h⟩⟩
      · rintro ⟨_, _, (⟨h4, h5⟩ | ⟨h4, h5⟩ | ⟨h4, h5⟩)⟩
        · exact h5
        · omega
        · omega
    · rw [if_neg (by omega : ¬u % 3 = 1), if_pos h3, List.mem_singleton]
      constructor
      · intro h
        exact ⟨hg.1, hg.2, Or.inr (Or.inl ⟨h3, h⟩)⟩
      · rintro ⟨_, _, (⟨h4, h5⟩ | ⟨h4, h5⟩ | ⟨h4, h5⟩)⟩
        · omega
        · exact h5
        · omega
  · rw [if_neg hg]
    constructor
    · intro h
      cases h
    · rintro ⟨h1, h2, _⟩
      exact absurd ⟨h1, h2⟩ hg

theorem mem_diamondInc (v u : Nat) :
    u ∈ diamondInc v ↔
      (2 ≤ v ∧ v ≤ 193 ∧
        ((v % 3 = 1 ∧ (u = v - 2 ∨ u = v - 1)) ∨
         (v % 3 = 2 ∧ u = v - 1) ∨
         (v % 3 = 0 ∧ u = v - 2))) := by
  unfold diamondInc
  by_cases hg : 2 ≤ v ∧ v ≤ 193
  · rw [if_pos hg]
    have h3 : v % 3 = 0 ∨ v % 3 = 1 ∨ v % 3 = 2 := by omega
    rcases h3 with h3 | h3 | h3
    · rw [if_neg (by omega : ¬v % 3 = 1), if_neg (by omega : ¬v % 3 = 2),
        List.mem_singleton]
      constructor
      · intro h
        exact ⟨hg.1, hg.2, Or.inr (Or.inr ⟨h3, h⟩)⟩
      · rintro ⟨_, _, (⟨h4, h5⟩ | ⟨h4, h5⟩ | ⟨h4, h5⟩)⟩
        · omega
        · omega
        · exact h5
    · rw [if_pos h3, List.mem_cons, List.mem_singleton]
      constructor
      · intro h
        exact ⟨hg.1, hg.2, Or.inl ⟨h3, h⟩⟩
      · rintro ⟨_, _, (⟨h4, h5⟩ | ⟨h4, h5⟩ | ⟨h4, h5⟩)⟩
        · exact h5
        · omega
        · omega
    · rw [if_neg (by omega : ¬v % 3 = 1), if_pos h3, List.mem_singleton]
      constructor
      · intro h
        exact ⟨hg.1, hg.2, Or.inr (Or.inl ⟨h3, h⟩)⟩
      · rintro ⟨_, _, (⟨h4, h5⟩ | ⟨h4, h5⟩ | ⟨h4, h5⟩)⟩
        · omega
        · exact h5
        · omega
  · rw [if_neg hg]
    constructor
    · intro h
      cases h
    · rintro ⟨h1, h2, _⟩
      exact absurd ⟨h1, h2⟩ hg

theorem diamond_consistent : StoreConsistent diamondStore := by
  intro v u
  show u ∈ diamondInc v ↔ v ∈ diamondOut u
  rw [mem_diamondInc, mem_diamondOut]
  omega

theorem diamond_finite : StoreFinite diamondStore := by
  constructor
  · intro v w hw
    have h2 := (mem_diamondOut v w).mp hw
    show v ∈ List.range' 1 193 ∧ w ∈ List.range' 1 193
    rw [List.mem_range'_1, List.mem_range'_1]
    omega
  · intro v w hw
    have h2 := (mem_diamondInc v w).mp hw
    show v ∈ List.range' 1 193 ∧ w ∈ List.range' 1 193
    rw [List.mem_range'_1, List.mem_range'_1]
    omega

/-- The breadth-first level of a page of the diamond stack. -/
def diamondLev (v : Nat) : Nat :=
  2 * ((v - 1) / 3) + (if v % 3 = 1 then 0 else 1)

theorem diamondLev_edge (u w : Nat) (h : w ∈ diamondOut u) :
    diamondLev w = diamondLev u + 1 := by
  rw [mem_diamondOut] at h
  obtain ⟨h1, h2, h3⟩ := h
  unfold diamondLev
  rcases h3 with ⟨h4, h5 | h5⟩ | ⟨h4, h5⟩ | ⟨h4, h5⟩
  · rw [if_pos h4, if_neg (by omega : ¬w % 3 = 1)]
    omega
  · rw [if_pos h4, if_neg (by omega : ¬w % 3 = 1)]
    omega
  · rw [if_neg (by omega : ¬u % 3 = 1), if_pos (by omega : w % 3 = 1)]
    omega
  · rw [if_neg (by omega : ¬u % 3 = 1), if_pos (by omega : w % 3 = 1)]
    omega

theorem diamond_pathLen_lev (n v : Nat) (h : pathLen diamondOut 1 n v) :
    diamondLev v = n := by
  induction n generalizing v with
  | zero =>
    rw [pathLen_zero] at h
    subst h
    rfl
  | succ m ih =>
    obtain ⟨u, hu, hv⟩ := h
    rw [diamondLev_edge u v hv, ih u hu]

theorem diamond_walk : ∀ j, j ≤ 64 → pathLen diamondOut 1 (2 * j) (3 * j + 1) := by
  intro j
  induction j with
  | zero =>
    intro _
    rfl
  | succ j2 ih =>
    intro hj
    have h1 : (3 * j2 + 2) ∈ diamondOut (3 * j2 + 1) := by
      rw [mem_diamondOut]
      exact ⟨by omega, by omega, Or.inl ⟨by omega, Or.inl (by omega)⟩⟩
    have h2 : (3 * j2 + 4) ∈ diamondOut (3 * j2 + 2) := by
      rw [mem_diamondOut]
      exact ⟨by omega, by omega, Or.inr (Or.inl ⟨by omega, by omega⟩)⟩
    have hw : pathLen diamondOut 1 (2 * j2 + 1 + 1) (3 * j2 + 4) :=
      ⟨3 * j2 + 2, ⟨3 * j2 + 1, ih (by omega), h1⟩, h2⟩
    have e1 : 2 * (j2 + 1) = 2 * j2 + 1 + 1 := by omega
    have e2 : 3 * (j2 + 1) + 1 = 3 * j2 + 4 := by omega
    rw [e1, e2]
    exact hw

theorem diamond_dist : IsDist diamondOut 1 193 128 := by
  constructor
  · have h := diamond_walk 64 (le_refl 64)
    have e1 : 2 * 64 = 128 := by norm_num
    have e2 : 3 * 64 + 1 = 193 := by norm_num
    rw [e1, e2] at h
    exact h
  · intro m hm hw
    have h := diamond_pathLen_lev m 193 hw
    have hlev : diamondLev 193 = 128 := by decide
    omega

theorem dedupFirst_single (x : Nat) : dedupFirst [x] = [x] := by
  show dedupFirstAux [] [x] = [x]
  rw [dedupFirstAux, if_neg (List.not_mem_nil x)]
  rfl

theorem dedupFirst_pair (x y : Nat) (h : x ≠ y) : dedupFirst [x, y] = [x, y] := by
  show dedupFirstAux [] [x, y] = [x, y]
  rw [dedupFirstAux, if_neg (List.not_mem_nil x), dedupFirstAux,
    if_neg (fun h2 => h (List.mem_singleton.mp h2).symm)]
  rfl

theorem diamondOut_a (j : Nat) (hj : j ≤ 63) :
    diamondOut (3 * j + 1) = [3 * j + 2, 3 * j + 3] := by
  unfold diamondOut
  rw [if_pos (by omega : 1 ≤ 3 * j + 1 ∧ 3 * j + 1 ≤ 192),
    if_pos (by omega : (3 * j + 1) % 3 = 1)]

theorem diamondOut_b (j : Nat) (hj : j ≤ 63) :
    diamondOut (3 * j + 2) = [3 * j + 4] := by
  unfold diamondOut
  rw [if_pos (by omega : 1 ≤ 3 * j + 2 ∧ 3 * j + 2 ≤ 192),
    if_neg (by omega : ¬(3 * j + 2) % 3 = 1),
    if_pos (by omega : (3 * j + 2) % 3 = 2)]

theorem diamondOut_c (j : Nat) (hj : j ≤ 63) :
    diamondOut (3 * j + 3) = [3 * j + 4] := by
  unfold diamondOut
  rw [if_pos (by omega : 1 ≤ 3 * j + 3 ∧ 3 * j + 3 ≤ 192),
    if_neg (by omega : ¬(3 * j + 3) % 3 = 1),
    if_neg (by omega : ¬(3 * j + 3) % 3 = 2)]

/-- Each diamond doubles the number of shortest paths: the stack has
`2 ^ 64` of them. -/
theorem diamond_count : ∀ m, m ≤ 64 →
    nPathsFrom diamondOut 193 (2 * m) (3 * (64 - m) + 1) = 2 ^ m := by
  intro m
  induction m with
  | zero =>
    intro _
    show nPathsFrom diamondOut 193 (2 * 0) (3 * (64 - 0) + 1) = 2 ^ 0
    have e1 : 3 * (64 - 0) + 1 = 193 := by norm_num
    rw [e1]
    show nPathsFrom diamondOut 193 0 193 = 1
    rw [nPathsFrom, if_pos rfl]
  | succ m2 ih =>
    intro hm
    have hj : 64 - (m2 + 1) = 63 - m2 := by omega
    rw [hj]
    have hjb : 63 - m2 ≤ 63 := by omega
    have e1 : 2 * (m2 + 1) = 2 * m2 + 1 + 1 := by omega
    rw [e1, nPathsFrom, diamondOut_a (63 - m2) hjb,
      dedupFirst_pair _ _ (by omega)]
    have hb : nPathsFrom diamondOut 193 (2 * m2 + 1) (3 * (63 - m2) + 2) =
        nPathsFrom diamondOut 193 (2 * m2) (3 * (63 - m2) + 4) := by
      rw [nPathsFrom, diamondOut_b (63 - m2) hjb, dedupFirst_single]
      simp only [List.map_cons, List.map_nil, List.sum_cons, List.sum_nil]
      omega
    have hc : nPathsFrom diamondOut 193 (2 * m2 + 1) (3 * (63 - m2) + 3) =
        nPathsFrom diamondOut 193 (2 * m2) (3 * (63 - m2) + 4) := by
      rw [nPathsFrom, diamondOut_c (63 - m2) hjb, dedupFirst_single]
      simp only [List.map_cons, List.map_nil, List.sum_cons, List.sum_nil]
      omega
    simp only [List.map_cons, List.map_nil, List.sum_cons, List.sum_nil]
    rw [hb, hc]
    have e2 : 3 * (63 - m2) + 4 = 3 * (64 - m2) + 1 := by omega
    have e3 : 2 * m2 = 2 * (64 - (64 - m2)) := by omega
    have e4 : 64 - m2 = 64 - m2 := rfl
    rw [e2]
    have ihv : nPathsFrom diamondOut 193 (2 * m2) (3 * (64 - m2) + 1) = 2 ^ m2 := by
      have := ih (by omega)
      have e5 : 64 - m2 = 64 - m2 := rfl
      exact this
    rw [ihv]
    have e6 : 2 ^ (m2 + 1) = 2 ^ m2 + 2 ^ m2 := by
      rw [pow_succ]
      omega
    rw [e6]
    omega

/-- C1 counterexample: on the sixty-four-diamond store — which satisfies
every well-formedness hypothesis, with the target reachable at distance
128 — there are exactly `2 ^ 64` distinct shortest paths, Go's wrapping
64-bit counter multiplies the two half counts to the bit pattern 0, the
program returns `pathCount = 0`, and the `PathCount != 0` guard then leaves
`pathDegrees = 0` instead of 128: the original claim fails on both
counts. -/
theorem search_count_overflow_counterexample :
    IsDist diamondStore.out 1 193 128 ∧
    (pathsEnum diamondStore.out 193 128 1).length = 2 ^ 64 ∧
    (getShortestPaths diamondStore "en" 1 193).pathCount = 0 ∧
    (getShortestPaths diamondStore "en" 1 193).pathDegrees = 0 ∧
    (getShortestPaths diamondStore "en" 1 193).pathCount ≠
      (pathsEnum diamondStore.out 193 128 1).length := by
  have hcnt : (pathsEnum diamondStore.out 193 128 1).length = 2 ^ 64 := by
    show (pathsEnum diamondOut 193 128 1).length = 2 ^ 64
    rw [pathsEnum_length]
    have h := diamond_count 64 (le_refl 64)
    have e1 : 2 * 64 = 128 := by norm_num
    have e2 : 3 * (64 - 64) + 1 = 1 := by norm_num
    rw [e1, e2] at h
    exact h
  have hdist : IsDist diamondStore.out 1 193 128 := diamond_dist
  obtain ⟨hdeg, hcount, _, _, _⟩ := search_spec diamondStore "en" 1 193
    diamond_consistent diamond_finite rfl rfl 128 hdist
  have hz : (pathsEnum diamondStore.out 193 128 1).length % 2 ^ 64 = 0 := by
    rw [hcnt, Nat.mod_self]
  refine ⟨hdist, hcnt, ?_, ?_, ?_⟩
  · rw [hcount, hz]
  · rw [hdeg, hz, if_neg (fun h => h rfl)]
  · rw [hcount, hz, hcnt]
    norm_num

end Wikipath
